import Mathlib

/-!
# Verification of `owned_kdtree.rs` (JulianKnodt/kdtree-rs)

A shallow embedding of the k-d tree implementation in `src/owned_kdtree.rs`.

Scalars (`A : Float` in Rust) are modelled by `Fp`: rationals extended with
`+inf`, `-inf` and `nan`, with IEEE-style comparison semantics (comparisons
with `nan` are false).  Arithmetic on finite values is exact rational
arithmetic; the special-value cases mirror IEEE rules for the operations the
source actually performs.

Rust panics (`unwrap` on `None`, out-of-bounds indexing) and non-termination
(the `remove` scan loop, modelled with fuel) are both modelled by `Option`,
with `none` meaning the operation does not return normally.  Fallible
operations return `Except ErrorKind` inside the `Option`.
-/

namespace KD

/-- Model of the floating-point scalar type `A`: `ℚ` plus IEEE special values. -/
inductive Fp where
  | nan : Fp
  | ninf : Fp
  | pinf : Fp
  | fin (q : ℚ) : Fp
deriving DecidableEq, Repr

namespace Fp

/-- IEEE-style `<`: any comparison involving `nan` is false. -/
def flt : Fp → Fp → Bool
  | nan, _ => false
  | _, nan => false
  | ninf, ninf => false
  | ninf, _ => true
  | _, ninf => false
  | pinf, _ => false
  | _, pinf => true
  | fin a, fin b => a < b

/-- IEEE-style `<=`: any comparison involving `nan` is false. -/
def fle : Fp → Fp → Bool
  | nan, _ => false
  | _, nan => false
  | ninf, _ => true
  | _, ninf => false
  | _, pinf => true
  | pinf, _ => false
  | fin a, fin b => a ≤ b

/-- IEEE equality (`==` on floats): `nan` is not equal to anything. -/
def feq : Fp → Fp → Bool
  | nan, _ => false
  | _, nan => false
  | ninf, ninf => true
  | pinf, pinf => true
  | fin a, fin b => a = b
  | _, _ => false

/-- Negation (`-x`, and `x * -A::one()` in the source). -/
def neg : Fp → Fp
  | nan => nan
  | ninf => pinf
  | pinf => ninf
  | fin q => fin (-q)

/-- IEEE addition on the cases that matter: `inf + -inf = nan`. -/
def add : Fp → Fp → Fp
  | nan, _ => nan
  | _, nan => nan
  | pinf, ninf => nan
  | ninf, pinf => nan
  | pinf, _ => pinf
  | _, pinf => pinf
  | ninf, _ => ninf
  | _, ninf => ninf
  | fin a, fin b => fin (a + b)

/-- IEEE subtraction: `a - b = a + (-b)`. -/
def sub (a b : Fp) : Fp := add a (neg b)

/-- Division by two (`x / A::from(2.0)` in `split`). -/
def div2 : Fp → Fp
  | nan => nan
  | ninf => ninf
  | pinf => pinf
  | fin q => fin (q / 2)

/-- `Float::is_nan`. -/
def isNan : Fp → Bool
  | nan => true
  | _ => false

/-- `Float::is_finite`. -/
def isFinite : Fp → Bool
  | fin _ => true
  | _ => false

/-- `Float::min` as implemented for Rust floats: if one argument is `nan` the
other is returned, otherwise the smaller one. -/
def fmin (a b : Fp) : Fp :=
  if a.isNan then b else if b.isNan then a else if fle a b then a else b

/-- `A::zero()`. -/
def zero : Fp := fin 0

/-- `A::one()`. -/
def one : Fp := fin 1

/-- Total order used to model `Ord for HeapElement` inside sorting: it agrees
with `fle` on non-`nan` values and places `nan` at the bottom.  The Rust
implementation's `Ord` (from the crate's `heap_element.rs`, absent from the
sources; the heaps are keyed by distance) is only ever exercised on non-`nan`
keys in the verified paths. -/
def leT (a b : Fp) : Bool :=
  a.isNan || (!b.isNan && fle a b)

end Fp

/-- A point `[A; D]` is a list of scalars (length `D` under well-formedness). -/
abbrev Point := List Fp

/-- The two error kinds of `ErrorKind` in `owned_kdtree.rs`. -/
inductive ErrorKind where
  | NonFiniteCoordinate : ErrorKind
  | ZeroCapacity : ErrorKind
deriving DecidableEq, Repr

/-- The `OwnedKdTree<A, T, D>` struct: one node type for both stems and
leaves, with optional fields exactly as in the Rust source. -/
inductive KdTree (T : Type) : Type where
  | mk (left right : Option (KdTree T))
       (capacity size : Nat)
       (min_bounds max_bounds : Point)
       (split_value : Option Fp)
       (split_dimension : Option Nat)
       (points : Option (List Point))
       (bucket : Option (List T)) : KdTree T
deriving Repr

namespace KdTree

variable {T : Type}

/-- Field accessor: `left`. -/
def left : KdTree T → Option (KdTree T)
  | mk l _ _ _ _ _ _ _ _ _ => l

/-- Field accessor: `right`. -/
def right : KdTree T → Option (KdTree T)
  | mk _ r _ _ _ _ _ _ _ _ => r

/-- Field accessor: `capacity`. -/
def capacity : KdTree T → Nat
  | mk _ _ c _ _ _ _ _ _ _ => c

/-- Field accessor / method `size()`. -/
def size : KdTree T → Nat
  | mk _ _ _ s _ _ _ _ _ _ => s

/-- Field accessor: `min_bounds`. -/
def min_bounds : KdTree T → Point
  | mk _ _ _ _ mn _ _ _ _ _ => mn

/-- Field accessor: `max_bounds`. -/
def max_bounds : KdTree T → Point
  | mk _ _ _ _ _ mx _ _ _ _ => mx

/-- Field accessor: `split_value`. -/
def split_value : KdTree T → Option Fp
  | mk _ _ _ _ _ _ sv _ _ _ => sv

/-- Field accessor: `split_dimension`. -/
def split_dimension : KdTree T → Option Nat
  | mk _ _ _ _ _ _ _ sd _ _ => sd

/-- Field accessor: `points`. -/
def points : KdTree T → Option (List Point)
  | mk _ _ _ _ _ _ _ _ ps _ => ps

/-- Field accessor: `bucket`. -/
def bucket : KdTree T → Option (List T)
  | mk _ _ _ _ _ _ _ _ _ bs => bs

/-- `OwnedKdTree::with_capacity`: an empty leaf with `+inf`/`-inf` bounds.
`Dd` is the const generic `D`. -/
def with_capacity (Dd cap : Nat) : KdTree T :=
  mk none none cap 0 (List.replicate Dd Fp.pinf) (List.replicate Dd Fp.ninf)
    none none (some []) (some [])

/-- `OwnedKdTree::new` (default capacity `2^4 = 16`). -/
def new (Dd : Nat) : KdTree T := with_capacity Dd 16

/-- `OwnedKdTree::is_leaf`. -/
def is_leaf (t : KdTree T) : Bool :=
  t.bucket.isSome && t.points.isSome && t.split_value.isNone &&
    t.split_dimension.isNone && t.left.isNone && t.right.isNone

/-- `OwnedKdTree::check_point`: every coordinate must be finite. -/
def check_point (p : Point) : Except ErrorKind Unit :=
  if p.all Fp.isFinite then Except.ok () else Except.error ErrorKind.NonFiniteCoordinate

/-- The `min_bounds` update of `OwnedKdTree::extend` (`if v < l { *l = *v }`,
pairwise over the zipped bounds and point; the arrays all have length `D`). -/
def extendMin : Point → Point → Point
  | [], _ => []
  | ls, [] => ls
  | l :: ls, v :: vs => (if Fp.flt v l then v else l) :: extendMin ls vs

/-- The `max_bounds` update of `OwnedKdTree::extend` (`if v > h { *h = *v }`). -/
def extendMax : Point → Point → Point
  | [], _ => []
  | hs, [] => hs
  | h :: hs, v :: vs => (if Fp.flt h v then v else h) :: extendMax hs vs

/-- All (point, value) entries stored in the subtree: a leaf's zipped
points/bucket plus everything below the children. -/
def entries : KdTree T → List (Point × T)
  | mk l r _ _ _ _ _ _ ps bs =>
    (match ps, bs with
      | some ps, some bs => ps.zip bs
      | _, _ => []) ++
    (match l with | some lt => entries lt | none => []) ++
    (match r with | some rt => entries rt | none => [])

/-- Number of nodes in the subtree (a measure for search-loop fuel). -/
def nodeCount : KdTree T → Nat
  | mk l r _ _ _ _ _ _ _ _ =>
    1 + (match l with | some lt => nodeCount lt | none => 0) +
      (match r with | some rt => nodeCount rt | none => 0)

/-- Height of the tree (1 for a single node): the fuel bound supplied to
fueled tree recursions by the wrapper functions. -/
def height : KdTree T → Nat
  | mk l r _ _ _ _ _ _ _ _ =>
    1 + max (match l with | some lt => height lt | none => 0)
      (match r with | some rt => height rt | none => 0)

/-- `Vec::swap_remove(0)`: removes index 0 and moves the last element into
its place. -/
def swapRemoveZero : List α → Option (α × List α)
  | [] => none
  | [a] => some (a, [])
  | a :: b :: rest => some (a, (b :: rest).getLastD a :: (b :: rest).dropLast)

theorem swapRemoveZero_length {l l' : List α} {a : α}
    (h : swapRemoveZero l = some (a, l')) : l'.length + 1 = l.length := by
  match l with
  | [] => simp [swapRemoveZero] at h
  | [x] => simp_all [swapRemoveZero]
  | x :: y :: rest =>
    simp only [swapRemoveZero, Option.some.injEq, Prod.mk.injEq] at h
    obtain ⟨_, h2⟩ := h
    subst h2
    simp

/-- The redistribution loop inside `OwnedKdTree::split`: take entries one at
a time with `swap_remove(0)` and route them with `belongs_in_left` (the split
dimension and value of the node being split) into the two fresh children by
`add_to_bucket` (passed in as `addF` because of the mutual recursion). -/
def distribute (addF : KdTree T → Point → T → Option (KdTree T))
    (sd : Nat) (sv : Fp) (ps : List Point) (bs : List T)
    (lc rc : KdTree T) : Option (KdTree T × KdTree T) :=
  match h : swapRemoveZero ps with
  | none => some (lc, rc)
  | some (p, ps') =>
    match swapRemoveZero bs with
    | none => none
    | some (v, bs') =>
      match p[sd]? with
      | none => none
      | some c =>
        if Fp.flt c sv then
          match addF lc p v with
          | none => none
          | some lc' => distribute addF sd sv ps' bs' lc' rc
        else
          match addF rc p v with
          | none => none
          | some rc' => distribute addF sd sv ps' bs' lc rc'
termination_by ps.length
decreasing_by
  all_goals
    have := swapRemoveZero_length h
    omega

/-- The split-dimension selection loop of `OwnedKdTree::split`: starting from
`mx = A::zero()` and the node's current `split_dimension`, scan the extents in
index order and record any dimension whose non-NaN extent strictly exceeds the
running maximum. -/
def selectDimAux : Nat → List Fp → Fp → Option Nat → Option Nat
  | _, [], _, best => best
  | i, d :: ds, mx, best =>
    if !d.isNan && Fp.flt mx d then selectDimAux (i + 1) ds d (some i)
    else selectDimAux (i + 1) ds mx best

/-- The per-dimension extents `self.max_bounds[dim] - self.min_bounds[dim]`
scanned by the selection loop of `OwnedKdTree::split`. -/
def extents (minb maxb : Point) : List Fp :=
  (maxb.zip minb).map fun x => Fp.sub x.1 x.2

/-- `OwnedKdTree::split`, with the recursive `add_to_bucket` passed in as
`addF`.  The node's `points`/`bucket` have already been taken (`None`);
`ps`/`bs` are the taken vectors. -/
def splitWith (addF : KdTree T → Point → T → Option (KdTree T))
    (t : KdTree T) (ps : List Point) (bs : List T) : Option (KdTree T) :=
  match t with
  | mk l r cap sz minb maxb sv0 sd0 _ _ =>
    match selectDimAux 0 (extents minb maxb) Fp.zero sd0 with
    | none => some (mk l r cap sz minb maxb sv0 sd0 (some ps) (some bs))
    | some dim =>
      match minb[dim]?, maxb[dim]? with
      | some mn, some mx =>
        let svNew := Fp.add mn (Fp.div2 (Fp.sub mx mn))
        match distribute addF dim svNew ps bs
            (with_capacity minb.length cap) (with_capacity minb.length cap) with
        | none => none
        | some (lc, rc) =>
          some (mk (some lc) (some rc) cap sz minb maxb (some svNew) (some dim) none none)
      | _, _ => none

/-- `OwnedKdTree::add_to_bucket`, with fuel bounding the depth of the mutual
recursion through `split` (the Rust recursion; fuel exhaustion yields `none`).
Extends the bounds, appends the entry, and splits when `size > capacity`. -/
def add_to_bucket : Nat → KdTree T → Point → T → Option (KdTree T)
  | 0, _, _, _ => none
  | fuel + 1, mk l r cap sz minb maxb sv sd ps? bs?, p, v =>
    let minb' := extendMin minb p
    let maxb' := extendMax maxb p
    match ps?, bs? with
    | some ps, some bs =>
      let ps2 := ps ++ [p]
      let bs2 := bs ++ [v]
      if sz + 1 > cap then
        splitWith (add_to_bucket fuel) (mk l r cap (sz + 1) minb' maxb' sv sd none none) ps2 bs2
      else some (mk l r cap (sz + 1) minb' maxb' sv sd (some ps2) (some bs2))
    | _, _ => none

/-- `OwnedKdTree::add_unchecked`: leaves go to `add_to_bucket` (with ample
fuel for the bounded split recursion), stems extend bounds, bump size and
recurse into the child given by `belongs_in_left`.  The first argument is
fuel for the tree descent (the wrapper supplies more than the height, so it
is never exhausted). -/
def add_unchecked : Nat → KdTree T → Point → T → Option (KdTree T)
  | 0, _, _, _ => none
  | fuel + 1, mk l r cap sz minb maxb sv sd ps bs, p, v =>
    if is_leaf (mk l r cap sz minb maxb sv sd ps bs) then
      add_to_bucket (sz + 3) (mk l r cap sz minb maxb sv sd ps bs) p v
    else
      let minb' := extendMin minb p
      let maxb' := extendMax maxb p
      match sd, sv with
      | some dim, some svv =>
        match p[dim]? with
        | none => none
        | some c =>
          if Fp.flt c svv then
            match l with
            | none => none
            | some lt =>
              match add_unchecked fuel lt p v with
              | none => none
              | some lt' => some (mk (some lt') r cap (sz + 1) minb' maxb' sv sd ps bs)
          else
            match r with
            | none => none
            | some rt =>
              match add_unchecked fuel rt p v with
              | none => none
              | some rt' => some (mk l (some rt') cap (sz + 1) minb' maxb' sv sd ps bs)
      | _, _ => none

/-- `OwnedKdTree::add`: reject capacity-0 trees, then non-finite points, then
insert. -/
def add (t : KdTree T) (p : Point) (v : T) : Option (Except ErrorKind (KdTree T)) :=
  if t.capacity == 0 then some (Except.error ErrorKind.ZeroCapacity)
  else
    match check_point p with
    | Except.error e => some (Except.error e)
    | Except.ok _ => (add_unchecked (height t + 1) t p v).map Except.ok

/-- `x == point` on `[A; D]`: coordinate-wise IEEE equality. -/
def pointEq (a b : Point) : Bool :=
  a.length == b.length && (a.zip b).all fun x => Fp.feq x.1 x.2

/-- The leaf scan loop of `OwnedKdTree::remove`:
`while let Some(p_index) = points.iter().position(|x| x == point)`, removing
the entry when its bucket value equals `data`.  When the first position with a
matching point has a non-matching value, the Rust loop repeats with unchanged
state forever; with fuel this is modelled by returning `none` at every fuel. -/
def remove_scan [DecidableEq T] :
    Nat → List Point → List T → Point → T → Option (List Point × List T × Nat)
  | 0, _, _, _, _ => none
  | fuel + 1, ps, bs, p, v =>
    match ps.findIdx? fun x => pointEq x p with
    | none => some (ps, bs, 0)
    | some i =>
      match bs[i]? with
      | none => none
      | some b =>
        if b = v then
          match remove_scan fuel (ps.eraseIdx i) (bs.eraseIdx i) p v with
          | none => none
          | some (ps', bs', n) => some (ps', bs', n + 1)
        else remove_scan fuel ps bs p v

/-- `OwnedKdTree::remove`: check the point, scan the bucket at a leaf
(`points.take()` / `bucket.take()` semantics), otherwise recurse into the
right child then the left child, decrementing `size` by the removed counts.
Fueled on tree depth (the wrapper supplies more than the height). -/
def removeF [DecidableEq T] :
    Nat → KdTree T → Point → T → Option (Except ErrorKind (KdTree T × Nat))
  | 0, _, _, _ => none
  | fuel + 1, mk l r cap sz minb maxb sv sd ps? bs?, p, v =>
    match check_point p with
    | Except.error e => some (Except.error e)
    | Except.ok _ =>
      match ps?, bs? with
      | some ps, some bs =>
        match remove_scan (ps.length + 1) ps bs p v with
        | none => none
        | some (ps', bs', n) =>
          some (Except.ok (mk l r cap (sz - n) minb maxb sv sd (some ps') (some bs'), n))
      | _, _ =>
        -- the failed `if let` leaves both fields taken (`None`); the right
        -- child is processed first, then the left, errors propagating
        match (match r with
          | none => some (Except.ok ((none : Option (KdTree T)), 0))
          | some rt =>
            match removeF fuel rt p v with
            | none => none
            | some (Except.error e) => some (Except.error e)
            | some (Except.ok (rt', rn)) => some (Except.ok (some rt', rn))),
          (match l with
          | none => some (Except.ok ((none : Option (KdTree T)), 0))
          | some lt =>
            match removeF fuel lt p v with
            | none => none
            | some (Except.error e) => some (Except.error e)
            | some (Except.ok (lt', ln)) => some (Except.ok (some lt', ln))) with
        | none, _ => none
        | some (Except.error e), _ => some (Except.error e)
        | some (Except.ok _), none => none
        | some (Except.ok _), some (Except.error e) => some (Except.error e)
        | some (Except.ok (r', rn)), some (Except.ok (l', ln)) =>
          some (Except.ok (mk l' r' cap (sz - rn - ln) minb maxb sv sd none none, rn + ln))

/-- `OwnedKdTree::remove` (wrapper supplying depth fuel). -/
def remove [DecidableEq T] (t : KdTree T) (p : Point) (v : T) :
    Option (Except ErrorKind (KdTree T × Nat)) :=
  removeF (height t + 1) t p v

end KdTree

/-- `BinaryHeap::pop` on a list of keyed elements: removes an element with
maximal key (the first such, on ties).  `push` is modelled by `List.cons`.
Models the heaps of `HeapElement`s (the crate's `heap_element.rs`, ordered by
`distance`; its source is not under `src/`, the ordering is
`Modelled from the spec:` "max-heap keyed by distance"). -/
def popMax : List (Fp × α) → Option ((Fp × α) × List (Fp × α))
  | [] => none
  | x :: xs =>
    match popMax xs with
    | none => some (x, [])
    | some (m, rest) => if Fp.flt x.1 m.1 then some (m, x :: rest) else some (x, m :: rest)

/-- `BinaryHeap::peek().map(|x| x.distance)`. -/
def peekKey (l : List (Fp × α)) : Option Fp := (popMax l).map fun x => x.1.1

/-- Modelled from the spec: `util::distance_to_space_const` is referenced from
this repository but its source is not under `src/`.  Per the spec the lower
bound is "derived analytically per dimension and combined via the metric's
point-to-point formula applied to the clamped coordinates": clamp the query
point into the box per dimension. -/
def clampPoint : Point → Point → Point → Point
  | [], _, _ => []
  | _ :: _, [], _ => []
  | _ :: _, _ :: _, [] => []
  | q :: qs, l :: ls, h :: hs =>
    (if Fp.flt q l then l else if Fp.flt h q then h else q) :: clampPoint qs ls hs

/-- Modelled from the spec: the box lower-bound distance
`distance_to_space_const(point, min_bounds, max_bounds, distance)`:
the metric applied to the query point and its clamp into the box. -/
def distance_to_space (d : Point → Point → Fp) (q minb maxb : Point) : Fp :=
  d q (clampPoint q minb maxb)

namespace KdTree

variable {T : Type}

/-- The stem-descent loop inside `OwnedKdTree::nearest_step`: while `curr` is
not a leaf, descend into the child containing the query point and push the
other child onto `pending` (key: negated box distance) whenever its box
distance does not exceed `edist`. -/
def nearest_descend (d : Point → Point → Fp) (q : Point) (edist : Fp) :
    Nat → KdTree T → List (Fp × KdTree T) → Option (KdTree T × List (Fp × KdTree T))
  | 0, _, _ => none
  | fuel + 1, t@(mk l r _ _ _ _ sv sd _ _), pending =>
    if is_leaf t then some (t, pending)
    else
      match sd, sv with
      | some dim, some svv =>
        match q[dim]? with
        | none => none
        | some c =>
          match l, r with
          | some lt, some rt =>
            if Fp.flt c svv then
              let cts := distance_to_space d q rt.min_bounds rt.max_bounds
              let pending' :=
                if Fp.fle cts edist then (Fp.neg cts, rt) :: pending else pending
              nearest_descend d q edist fuel lt pending'
            else
              let cts := distance_to_space d q lt.min_bounds lt.max_bounds
              let pending' :=
                if Fp.fle cts edist then (Fp.neg cts, lt) :: pending else pending
              nearest_descend d q edist fuel rt pending'
          | _, _ => none
      | _, _ => none

/-- The bucket-evaluation loop at the end of `OwnedKdTree::nearest_step`:
admit each element within `mdist` to `evaluated`, evicting the current worst
when `evaluated` is full and the element is strictly better. -/
def eval_entries (num : Nat) (mdist : Fp) :
    List (Fp × T) → List (Fp × T) → Option (List (Fp × T))
  | [], evaluated => some evaluated
  | e :: rest, evaluated =>
    if Fp.fle e.1 mdist then
      if evaluated.length < num then eval_entries num mdist rest (e :: evaluated)
      else
        match popMax evaluated with
        | none => none
        | some (m, restEv) =>
          if Fp.flt e.1 m.1 then eval_entries num mdist rest (e :: restEv)
          else eval_entries num mdist rest evaluated
    else eval_entries num mdist rest evaluated

/-- `OwnedKdTree::nearest_step`: pop the nearest pending subtree, compute the
cutoff `evaluated_dist`, descend to a leaf, and evaluate its bucket. -/
def nearest_step (d : Point → Point → Fp) (q : Point) (num : Nat) (mdist : Fp)
    (pending : List (Fp × KdTree T)) (evaluated : List (Fp × T)) :
    Option (List (Fp × KdTree T) × List (Fp × T)) :=
  match popMax pending with
  | none => none
  | some ((_, t), pending') =>
    let edist? : Option Fp :=
      if evaluated.length == num then
        match peekKey evaluated with
        | none => none
        | some k => some (Fp.fmin mdist k)
      else some mdist
    match edist? with
    | none => none
    | some edist =>
      match nearest_descend d q edist (height t + 1) t pending' with
      | none => none
      | some (leaf, pending'') =>
        match leaf.points, leaf.bucket with
        | some ps, some bs =>
          let els := (ps.zip bs).map fun x => (d q x.1, x.2)
          match eval_entries num mdist els evaluated with
          | none => none
          | some evaluated' => some (pending'', evaluated')
        | _, _ => none

/-- The main loop of `OwnedKdTree::nearest`: iterate `nearest_step` while
`pending` is non-empty and either `evaluated` is not yet full or the best
pending bound can still improve it.  Fuel bounds the iterations. -/
def nearest_loop (d : Point → Point → Fp) (q : Point) (num : Nat) :
    Nat → List (Fp × KdTree T) → List (Fp × T) → Option (List (Fp × T))
  | 0, _, _ => none
  | fuel + 1, pending, evaluated =>
    match peekKey pending with
    | none => some evaluated
    | some pk =>
      if evaluated.length < num then
        match nearest_step d q num Fp.pinf pending evaluated with
        | none => none
        | some (pending', evaluated') => nearest_loop d q num fuel pending' evaluated'
      else
        match peekKey evaluated with
        | none => none
        | some ek =>
          if Fp.fle (Fp.neg pk) ek then
            match nearest_step d q num Fp.pinf pending evaluated with
            | none => none
            | some (pending', evaluated') => nearest_loop d q num fuel pending' evaluated'
          else some evaluated

end KdTree

/-- The ordering used by `BinaryHeap::into_sorted_vec` on `HeapElement`s:
by distance.  Total via `Fp.leT`; it agrees with `Fp.fle` on the non-`nan`
keys that actually occur. -/
def heLE (a b : Fp × α) : Prop := Fp.leT a.1 b.1 = true

instance : DecidableRel (@heLE α) := fun a b => by
  unfold heLE; infer_instance

instance : IsTotal (Fp × α) heLE where
  total a b := by
    unfold heLE Fp.leT
    cases a.1 <;> cases b.1 <;> simp [Fp.isNan, Fp.fle] <;> exact le_total _ _

instance : IsTrans (Fp × α) heLE where
  trans a b c := by
    unfold heLE Fp.leT
    cases a.1 <;> cases b.1 <;> cases c.1 <;>
      simp [Fp.isNan, Fp.fle] <;> (intro h1 h2; linarith)

/-- `BinaryHeap::into_sorted_vec`: the heap's elements in ascending key
order. -/
def intoSortedVec (l : List (Fp × α)) : List (Fp × α) := List.insertionSort heLE l

namespace KdTree

variable {T : Type}

/-- `OwnedKdTree::nearest`. -/
def nearest (t : KdTree T) (q : Point) (k : Nat) (d : Point → Point → Fp) :
    Option (Except ErrorKind (List (Fp × T))) :=
  match check_point q with
  | Except.error e => some (Except.error e)
  | Except.ok _ =>
    let num := min k t.size
    if num == 0 then some (Except.ok [])
    else
      match nearest_loop d q num (nodeCount t + 1) [(Fp.zero, t)] [] with
      | none => none
      | some ev => some (Except.ok ((intoSortedVec ev).take num))

/-- The main loop of `OwnedKdTree::within`: iterate `nearest_step` (with
`num = size` and `max_dist = radius`) while the best pending bound is within
the radius. -/
def within_loop (d : Point → Point → Fp) (q : Point) (num : Nat) (radius : Fp) :
    Nat → List (Fp × KdTree T) → List (Fp × T) → Option (List (Fp × T))
  | 0, _, _ => none
  | fuel + 1, pending, evaluated =>
    match peekKey pending with
    | none => some evaluated
    | some pk =>
      if Fp.fle (Fp.neg pk) radius then
        match nearest_step d q num radius pending evaluated with
        | none => none
        | some (pending', evaluated') => within_loop d q num radius fuel pending' evaluated'
      else some evaluated

/-- `OwnedKdTree::within`. -/
def within (t : KdTree T) (q : Point) (radius : Fp) (d : Point → Point → Fp) :
    Option (Except ErrorKind (List (Fp × T))) :=
  match check_point q with
  | Except.error e => some (Except.error e)
  | Except.ok _ =>
    if t.size == 0 then some (Except.ok [])
    else
      match within_loop d q t.size radius (nodeCount t + 1) [(Fp.zero, t)] [] with
      | none => none
      | some ev => some (Except.ok (intoSortedVec ev))

end KdTree

/-- The state of `NearestIter` (and of `NearestIterMut`, which is identical up
to the mutability of the borrowed values): both heaps hold negated
distances. -/
structure NearestIter (T : Type) where
  pending : List (Fp × KD.KdTree T)
  evaluated : List (Fp × T)

namespace KdTree

variable {T : Type}

/-- `OwnedKdTree::iter_nearest`: check the point and seed the frontier with
the root at distance zero. -/
def iter_nearest (t : KdTree T) (q : Point) : Except ErrorKind (NearestIter T) :=
  match check_point q with
  | Except.error e => Except.error e
  | Except.ok _ => Except.ok ⟨[(Fp.zero, t)], []⟩

/-- `OwnedKdTree::iter_nearest_mut`: identical construction (the returned
iterator borrows the values mutably, which has no functional content). -/
def iter_nearest_mut (t : KdTree T) (q : Point) : Except ErrorKind (NearestIter T) :=
  match check_point q with
  | Except.error e => Except.error e
  | Except.ok _ => Except.ok ⟨[(Fp.zero, t)], []⟩

/-- The stem-descent loop inside `NearestIter::next`: like `nearest_descend`
but pushes every bypassed sibling unconditionally, with negated box
distance. -/
def iter_descend (d : Point → Point → Fp) (q : Point) :
    Nat → KdTree T → List (Fp × KdTree T) → Option (KdTree T × List (Fp × KdTree T))
  | 0, _, _ => none
  | fuel + 1, t@(mk l r _ _ _ _ sv sd _ _), pending =>
    if is_leaf t then some (t, pending)
    else
      match sd, sv with
      | some dim, some svv =>
        match q[dim]? with
        | none => none
        | some c =>
          match l, r with
          | some lt, some rt =>
            if Fp.flt c svv then
              let cts := distance_to_space d q rt.min_bounds rt.max_bounds
              iter_descend d q fuel lt ((Fp.neg cts, rt) :: pending)
            else
              let cts := distance_to_space d q lt.min_bounds lt.max_bounds
              iter_descend d q fuel rt ((Fp.neg cts, lt) :: pending)
          | _, _ => none
      | _, _ => none

/-- The expansion loop of `NearestIter::next`: while the best evaluated
distance (or infinity) is at least the best pending bound, pop a pending
subtree, descend to its leaf and move the leaf's entries (negated distances)
into `evaluated`. -/
def iter_expand (d : Point → Point → Fp) (q : Point) :
    Nat → NearestIter T → Option (NearestIter T)
  | 0, _ => none
  | fuel + 1, st =>
    match peekKey st.pending with
    | none => some st
    | some pk =>
      let evMin := match peekKey st.evaluated with
        | none => Fp.pinf
        | some ek => Fp.neg ek
      if Fp.fle (Fp.neg pk) evMin then
        match popMax st.pending with
        | none => none
        | some ((_, t), pending') =>
          match iter_descend d q (height t + 1) t pending' with
          | none => none
          | some (leaf, pending'') =>
            match leaf.points, leaf.bucket with
            | some ps, some bs =>
              let els := (ps.zip bs).map fun x => (Fp.neg (d q x.1), x.2)
              iter_expand d q fuel ⟨pending'', els ++ st.evaluated⟩
            | _, _ => none
      else some st

/-- Total node count over the pending heap: fuel bound for `iter_expand`. -/
def pendingCount (pending : List (Fp × KdTree T)) : Nat :=
  (pending.map fun x => nodeCount x.2).sum

/-- `NearestIter::next`: run the expansion loop, then pop the best evaluated
entry (un-negating its distance). -/
def iter_next (d : Point → Point → Fp) (q : Point) (st : NearestIter T) :
    Option (Option ((Fp × T) × NearestIter T)) :=
  match iter_expand d q (pendingCount st.pending + 1) st with
  | none => none
  | some st' =>
    match popMax st'.evaluated with
    | none => some none
    | some ((nd, v), rest) => some (some ((Fp.neg nd, v), ⟨st'.pending, rest⟩))

/-- Draining the iterator: repeatedly call `next` until it yields nothing. -/
def iter_consume (d : Point → Point → Fp) (q : Point) :
    Nat → NearestIter T → Option (List (Fp × T))
  | 0, _ => none
  | fuel + 1, st =>
    match iter_next d q st with
    | none => none
    | some none => some []
    | some (some (e, st')) =>
      match iter_consume d q fuel st' with
      | none => none
      | some rest => some (e :: rest)

/-- Instrumentation of `OwnedKdTree::remove`'s traversal: the number of child
subtrees the recursion enters (each `right.remove(..)` / `left.remove(..)`
call on a present child counts as one descent).  Mirrors `remove`'s control
flow (and fuel): leaf scans descend nowhere; otherwise both children are
visited. -/
def removeDescentsF : Nat → KdTree T → Point → T → Nat
  | 0, _, _, _ => 0
  | fuel + 1, mk l r _ _ _ _ _ _ ps? bs?, p, v =>
    match check_point p with
    | Except.error _ => 0
    | Except.ok _ =>
      match ps?, bs? with
      | some _, some _ => 0
      | _, _ =>
        (match r with | none => 0 | some rt => 1 + removeDescentsF fuel rt p v) +
        (match l with | none => 0 | some lt => 1 + removeDescentsF fuel lt p v)

/-- Wrapper for `removeDescentsF` with the same fuel as `remove`. -/
def removeDescents (t : KdTree T) (p : Point) (v : T) : Nat :=
  removeDescentsF (height t + 1) t p v

/-- Number of stem nodes (nodes that are not leaves) in the tree. -/
def countStems : KdTree T → Nat
  | t@(mk l r _ _ _ _ _ _ _ _) =>
    (if is_leaf t then 0 else 1) +
    (match l with | some lt => countStems lt | none => 0) +
    (match r with | some rt => countStems rt | none => 0)

end KdTree

namespace KdTree

variable {T : Type}

/-- Every coordinate is finite. -/
def finitePt (p : Point) : Bool := p.all Fp.isFinite

/-- Pointwise box membership `min ≤ p ≤ max` (also forcing equal lengths). -/
def inBounds : Point → Point → Point → Bool
  | [], [], [] => true
  | l :: ls, h :: hs, x :: xs => Fp.fle l x && Fp.fle x h && inBounds ls hs xs
  | _, _, _ => false

/-- Pointwise `≤` on equal-length coordinate lists. -/
def fleList : Point → Point → Bool
  | [], [] => true
  | a :: as, b :: bs => Fp.fle a b && fleList as bs
  | _, _ => false

/-- Lower bounds are finite or the initial `+inf`. -/
def minOk (minb : Point) : Bool := minb.all fun x => x.isFinite || x == Fp.pinf

/-- Upper bounds are finite or the initial `-inf`. -/
def maxOk (maxb : Point) : Bool := maxb.all fun x => x.isFinite || x == Fp.ninf

/-- Well-formedness of a node of a `D`-dimensional tree (fuelled on depth;
`isWF` supplies more than the height).  A node is either
* a leaf: no children, no split fields, points and bucket present and of
  equal length with `size` the entry count, all points finite and inside the
  node's box, bounds finite when the leaf is non-empty, and — when the leaf
  is oversized (`size > capacity`, only possible after an abandoned split) —
  degenerate equal bounds; or
* a stem: both children present (of the same capacity), split fields present
  (dimension in range, finite value), `size` the sum of the children's sizes,
  finite bounds, both children well-formed, and every entry below inside the
  node's box. -/
def isWFF (Dd : Nat) : Nat → KdTree T → Bool
  | 0, _ => false
  | fuel + 1, mk l r cap sz minb maxb sv sd ps? bs? =>
    minb.length == Dd && maxb.length == Dd && minOk minb && maxOk maxb &&
    match l, r, sv, sd, ps?, bs? with
    | none, none, none, none, some ps, some bs =>
      sz == ps.length && ps.length == bs.length &&
      ps.all (fun p => finitePt p && inBounds minb maxb p) &&
      (decide (sz ≤ cap) || minb == maxb) &&
      (ps.isEmpty || (finitePt minb && finitePt maxb))
    | some lt, some rt, some svv, some dim, none, none =>
      decide (dim < Dd) && svv.isFinite &&
      sz == size lt + size rt &&
      capacity lt == cap && capacity rt == cap &&
      finitePt minb && finitePt maxb &&
      isWFF Dd fuel lt && isWFF Dd fuel rt &&
      ((entries lt ++ entries rt).all fun e => inBounds minb maxb e.1)
    | _, _, _, _, _, _ => false

/-- Well-formedness (wrapper with depth fuel). -/
def isWF (Dd : Nat) (t : KdTree T) : Bool := isWFF Dd (height t + 1) t

/-- At every node, the `size` field equals the number of entries stored in
the subtree (the spec's "subtree size = sum of descendant leaf entry
counts"). -/
def sizesOk : KdTree T → Bool
  | t@(mk l r _ _ _ _ _ _ _ _) =>
    (size t == (entries t).length) &&
    (match l with | some lt => sizesOk lt | none => true) &&
    (match r with | some rt => sizesOk rt | none => true)

/-- At every node, every point stored in the subtree lies inside the node's
bounding box. -/
def containOk : KdTree T → Bool
  | t@(mk l r _ _ minb maxb _ _ _ _) =>
    (entries t).all (fun e => inBounds minb maxb e.1) &&
    (match l with | some lt => containOk lt | none => true) &&
    (match r with | some rt => containOk rt | none => true)

/-- Every node of the first tree persists in the second with a box that only
widened (`min` coordinates did not increase, `max` did not decrease). -/
def boundsGrew : KdTree T → KdTree T → Bool
  | mk l r _ _ minb maxb _ _ _ _, mk l' r' _ _ minb' maxb' _ _ _ _ =>
    fleList minb' minb && fleList maxb maxb' &&
    (match l, l' with
      | none, _ => true
      | some lt, some lt' => boundsGrew lt lt'
      | some _, none => false) &&
    (match r, r' with
      | none, _ => true
      | some rt, some rt' => boundsGrew rt rt'
      | some _, none => false)

/-- Same tree shape with identical bounds at every node. -/
def sameBounds : KdTree T → KdTree T → Bool
  | mk l r _ _ minb maxb _ _ _ _, mk l' r' _ _ minb' maxb' _ _ _ _ =>
    minb == minb' && maxb == maxb' &&
    (match l, l' with
      | none, none => true
      | some lt, some lt' => sameBounds lt lt'
      | _, _ => false) &&
    (match r, r' with
      | none, none => true
      | some rt, some rt' => sameBounds rt rt'
      | _, _ => false)

/-- In every leaf of the subtree, every entry whose point equals `p`
(coordinate-wise float equality) carries the value `v`.  This is exactly the
condition under which the `remove` scan loops terminate. -/
def noMismatch [DecidableEq T] (p : Point) (v : T) : KdTree T → Bool
  | mk l r _ _ _ _ _ _ ps? bs? =>
    (match ps?, bs? with
      | some ps, some bs => (ps.zip bs).all fun e => !pointEq e.1 p || (e.2 == v)
      | _, _ => true) &&
    (match l with | some lt => noMismatch p v lt | none => true) &&
    (match r with | some rt => noMismatch p v rt | none => true)

/-- `belongs_in_left` as a total routing predicate on a point, given the
split dimension and value (the partial `belongs_in_left` of the source equals
this whenever indexing succeeds). -/
def belongsB (sd : Nat) (sv : Fp) (p : Point) : Bool :=
  match p[sd]? with
  | some c => Fp.flt c sv
  | none => false

/-- Each lower bound is either still the initial `+inf` or attained by one of
the points (true of any leaf whose bounds were built only from its own
points; the key fact making a re-split of such a leaf separate its points). -/
def achievedMin (minb : Point) (ps : List Point) : Prop :=
  ∀ i, (hi : i < minb.length) → minb[i] = Fp.pinf ∨ ∃ p ∈ ps, p[i]? = some minb[i]

/-- Each upper bound is either still the initial `-inf` or attained by one of
the points. -/
def achievedMax (maxb : Point) (ps : List Point) : Prop :=
  ∀ i, (hi : i < maxb.length) → maxb[i] = Fp.ninf ∨ ∃ p ∈ ps, p[i]? = some maxb[i]

/-- A leaf node whose `size` field is its entry count. -/
def mkLeaf (cap : Nat) (minb maxb : Point) (ps : List Point) (bs : List T) : KdTree T :=
  mk none none cap ps.length minb maxb none none (some ps) (some bs)

/-- The state of a leaf built from its own entries only (as the fresh
children of a split are): consistent lengths, sound bound kinds, every point
finite and inside the box, and each bound attained by one of the points
unless still at its initial infinity. -/
def LeafState (Dd : Nat) (minb maxb : Point) (ps : List Point) (bs : List T) : Prop :=
  ps.length = bs.length ∧ minb.length = Dd ∧ maxb.length = Dd ∧
  minOk minb = true ∧ maxOk maxb = true ∧
  (∀ p ∈ ps, finitePt p = true ∧ p.length = Dd ∧ inBounds minb maxb p = true) ∧
  achievedMin minb ps ∧ achievedMax maxb ps

/-- The states reachable from `with_capacity` by successful insertions and
removals, recording the number of insertions and of removed entries.
Inserted points carry the length-`D` constraint that the Rust array type
`[A; D]` enforces statically. -/
inductive Reachable [DecidableEq T] (Dd cap : Nat) : KdTree T → Nat → Nat → Prop where
  | init : 0 < cap → Reachable Dd cap (with_capacity Dd cap) 0 0
  | addStep {t ins rem t'} (p : Point) (v : T) :
      Reachable Dd cap t ins rem → p.length = Dd → add t p v = some (Except.ok t') →
      Reachable Dd cap t' (ins + 1) rem
  | removeStep {t ins rem t' n} (p : Point) (v : T) :
      Reachable Dd cap t ins rem → remove t p v = some (Except.ok (t', n)) →
      Reachable Dd cap t' ins (rem + n)

/-- The image of a list of stored entries under the query's distance function:
the (distance, value) pairs a brute-force linear scan would produce. -/
def entryDists (d : Point → Point → Fp) (q : Point) (l : List (Point × T)) :
    List (Fp × T) := l.map fun e => (d q e.1, e.2)

/-- The entries still reachable through the pending heap, as
(distance, value) pairs. -/
def pendEntries (d : Point → Point → Fp) (q : Point)
    (pending : List (Fp × KdTree T)) : List (Fp × T) :=
  (pending.map fun x => entryDists d q (entries x.2)).flatten

/-- Invariant of the pending heaps of the search loops: every pending subtree
is well-formed, carries a non-`nan` key, and the negated key is a lower bound
on the distance from the query to every entry stored in the subtree. -/
def PendInv (Dd : Nat) (d : Point → Point → Fp) (q : Point)
    (pending : List (Fp × KdTree T)) : Prop :=
  ∀ x ∈ pending, (∃ f, isWFF Dd f x.2 = true) ∧ x.1.isNan = false ∧
    ∀ e ∈ entries x.2, Fp.fle (Fp.neg x.1) (d q e.1) = true

/-- Weak pending invariant (well-formedness only): enough for termination and
totality of the search loops, with no assumption on the distance function. -/
def PendInvW (Dd : Nat) (pending : List (Fp × KdTree T)) : Prop :=
  ∀ x ∈ pending, ∃ f, isWFF Dd f x.2 = true

/-- `evaluated` is a selection of the `num` smallest keys of the processed
multiset `ev ++ rest`: `ev` is as large as `num` allows and everything kept
is `≤` everything set aside. -/
def TopSplit (num : Nat) (ev rest : List (Fp × T)) : Prop :=
  ev.length = min num (ev.length + rest.length) ∧
  ∀ a ∈ ev, ∀ b ∈ rest, Fp.fle a.1 b.1 = true

/-- The structural leaf-xor-stem discipline: every node is either a leaf
(points and bucket present, of equal length, no children, no split fields) or
a stem (both children present, both split fields present, no points or
bucket). -/
def leafStemOk : KdTree T → Bool
  | mk l r _ _ _ _ sv sd ps? bs? =>
    match l, r, sv, sd, ps?, bs? with
    | none, none, none, none, some ps, some bs => ps.length == bs.length
    | some lt, some rt, some _, some _, none, none => leafStemOk lt && leafStemOk rt
    | _, _, _, _, _, _ => false

end KdTree

section ConcreteTrees

open KdTree

/-- The concrete tree for C2's failing input: a capacity-2 leaf holding the
single entry `([0,0], 1)` (the result of one insertion into a fresh tree). -/
def c2tree : KdTree Nat :=
  mk none none 2 1 [Fp.fin 0, Fp.fin 0] [Fp.fin 0, Fp.fin 0] none none
    (some [[Fp.fin 0, Fp.fin 0]]) (some [1])

/-- Intermediate tree: one entry `([0,0], 1)` in a capacity-2 tree. -/
def c3t1 : KdTree Nat :=
  mk none none 2 1 [Fp.fin 0, Fp.fin 0] [Fp.fin 0, Fp.fin 0] none none
    (some [[Fp.fin 0, Fp.fin 0]]) (some [1])

/-- Intermediate tree: entries `([0,0], 1)` and `([1,1], 2)`. -/
def c3t2 : KdTree Nat :=
  mk none none 2 2 [Fp.fin 0, Fp.fin 0] [Fp.fin 1, Fp.fin 1] none none
    (some [[Fp.fin 0, Fp.fin 0], [Fp.fin 1, Fp.fin 1]]) (some [1, 2])

/-- The concrete stem tree for C3: a capacity-2 tree after inserting
`([0,0],1)`, `([1,1],2)`, `([2,2],3)` — one stem (split on dimension 0 at
value 1) with two leaf children. -/
def c3tree : KdTree Nat :=
  mk
    (some (mk none none 2 1 [Fp.fin 0, Fp.fin 0] [Fp.fin 0, Fp.fin 0] none none
      (some [[Fp.fin 0, Fp.fin 0]]) (some [1])))
    (some (mk none none 2 2 [Fp.fin 1, Fp.fin 1] [Fp.fin 2, Fp.fin 2] none none
      (some [[Fp.fin 2, Fp.fin 2], [Fp.fin 1, Fp.fin 1]]) (some [3, 2])))
    2 3 [Fp.fin 0, Fp.fin 0] [Fp.fin 2, Fp.fin 2] (some (Fp.fin 1)) (some 0) none none

/-- A capacity-2 leaf holding two entries at the same point `[0]` with values
1 and 2: every query distance ties, exposing the heap tie-breaking order. -/
def tieTree : KdTree Nat :=
  mk none none 2 2 [Fp.fin 0] [Fp.fin 0] none none
    (some [[Fp.fin 0], [Fp.fin 0]]) (some [1, 2])

end ConcreteTrees

namespace Fp

theorem fle_refl {a : Fp} (h : a.isNan = false) : fle a a = true := by
  cases a <;> simp_all [fle, isNan]

theorem fle_trans {a b c : Fp} (h1 : fle a b = true) (h2 : fle b c = true) :
    fle a c = true := by
  cases a <;> cases b <;> cases c <;> simp_all [fle] <;> linarith

theorem fle_total {a b : Fp} (ha : a.isNan = false) (hb : b.isNan = false) :
    fle a b = true ∨ fle b a = true := by
  cases a <;> cases b <;> simp_all [fle, isNan]
  exact le_total _ _

theorem flt_iff_not_fle {a b : Fp} (ha : a.isNan = false) (hb : b.isNan = false) :
    flt a b = true ↔ ¬ (fle b a = true) := by
  cases a <;> cases b <;> simp_all [fle, flt, isNan]

theorem fle_of_flt {a b : Fp} (h : flt a b = true) : fle a b = true := by
  cases a <;> cases b <;> simp_all [fle, flt]
  linarith

theorem flt_of_fle_of_flt {a b c : Fp} (h1 : fle a b = true) (h2 : flt b c = true) :
    flt a c = true := by
  cases a <;> cases b <;> cases c <;> simp_all [fle, flt] <;> linarith

theorem flt_of_flt_of_fle {a b c : Fp} (h1 : flt a b = true) (h2 : fle b c = true) :
    flt a c = true := by
  cases a <;> cases b <;> cases c <;> simp_all [fle, flt] <;> linarith

theorem not_nan_left_of_fle {a b : Fp} (h : fle a b = true) : a.isNan = false := by
  cases a <;> simp_all [fle, isNan]

theorem not_nan_right_of_fle {a b : Fp} (h : fle a b = true) : b.isNan = false := by
  cases a <;> cases b <;> simp_all [fle, isNan]

theorem fle_pinf {a : Fp} (h : a.isNan = false) : fle a pinf = true := by
  cases a <;> simp_all [fle, isNan]

theorem not_nan_of_isFinite {a : Fp} (h : a.isFinite = true) : a.isNan = false := by
  cases a <;> simp_all [isFinite, isNan]

theorem flt_pinf_of_finite {a : Fp} (h : a.isFinite = true) : flt a pinf = true := by
  cases a <;> simp_all [isFinite, flt]

theorem ninf_flt_of_finite {a : Fp} (h : a.isFinite = true) : flt ninf a = true := by
  cases a <;> simp_all [isFinite, flt]

theorem leT_eq_fle {a b : Fp} (ha : a.isNan = false) (hb : b.isNan = false) :
    leT a b = fle a b := by
  simp [leT, ha, hb]

theorem fle_antisymm {a b : Fp} (h1 : fle a b = true) (h2 : fle b a = true) : a = b := by
  cases a <;> cases b <;> simp_all [fle]
  linarith

theorem neg_isNan (a : Fp) : (neg a).isNan = a.isNan := by
  cases a <;> simp [neg, isNan]

theorem neg_neg (a : Fp) : neg (neg a) = a := by
  cases a <;> simp [neg]

theorem fle_neg {a b : Fp} (h : fle a b = true) : fle (neg b) (neg a) = true := by
  cases a <;> cases b <;> simp_all [fle, neg]

theorem feq_refl {a : Fp} (h : a.isNan = false) : feq a a = true := by
  cases a <;> simp_all [feq, isNan]

theorem eq_of_feq {a b : Fp} (h : feq a b = true) : a = b := by
  cases a <;> cases b <;> simp_all [feq]

end Fp

section SelectDim

open KdTree

/-- If no extent in the remaining list is non-NaN and above the running
maximum, the selection loop keeps its current best. -/
theorem selectDimAux_none (i : Nat) (ds : List Fp) (mx : Fp) (best : Option Nat)
    (h : ∀ x ∈ ds, x.isNan = true ∨ Fp.flt mx x = false) :
    selectDimAux i ds mx best = best := by
  induction ds generalizing i with
  | nil => rfl
  | cons x ds ih =>
    have hx := h x (by simp)
    have hrest : ∀ y ∈ ds, y.isNan = true ∨ Fp.flt mx y = false :=
      fun y hy => h y (by simp [hy])
    unfold selectDimAux
    rcases hx with hx | hx <;> simp [hx, ih _ hrest]

/-- Full characterization of the split-dimension selection loop, starting in
its initial state (`mx = zero`, no best yet): it returns the first index of a
maximal positive non-NaN extent, or `none` when no positive non-NaN extent
exists. -/
theorem selectDimAux_spec (L : List Fp) :
    (selectDimAux 0 L Fp.zero none = none ∧
      ∀ j, (hj : j < L.length) → (L.get ⟨j, hj⟩).isNan = true ∨
        Fp.fle (L.get ⟨j, hj⟩) Fp.zero = true) ∨
    (∃ dm, ∃ hdm : dm < L.length,
      selectDimAux 0 L Fp.zero none = some dm ∧
      (L.get ⟨dm, hdm⟩).isNan = false ∧
      Fp.flt Fp.zero (L.get ⟨dm, hdm⟩) = true ∧
      (∀ j, (hj : j < L.length) → (L.get ⟨j, hj⟩).isNan = true ∨
        Fp.fle (L.get ⟨j, hj⟩) (L.get ⟨dm, hdm⟩) = true) ∧
      (∀ j, (hj : j < dm) → (L.get ⟨j, Nat.lt_trans hj hdm⟩).isNan = true ∨
        Fp.flt (L.get ⟨j, Nat.lt_trans hj hdm⟩) (L.get ⟨dm, hdm⟩) = true)) := by
  suffices h : ∀ (m k : Nat) (mx : Fp) (best : Option Nat) (_hk : k ≤ L.length)
      (_hm : L.length - k = m)
      (_hmx : Fp.fle Fp.zero mx = true),
      (match best with
        | none => mx = Fp.zero ∧
            ∀ j, (hj : j < k) → (L.get ⟨j, Nat.lt_of_lt_of_le hj (by omega)⟩).isNan = true ∨
              Fp.fle (L.get ⟨j, Nat.lt_of_lt_of_le hj (by omega)⟩) Fp.zero = true
        | some dm => ∃ hdm : dm < k,
            L.get ⟨dm, Nat.lt_of_lt_of_le hdm (by omega)⟩ = mx ∧
            mx.isNan = false ∧ Fp.flt Fp.zero mx = true ∧
            (∀ j, (hj : j < k) → (L.get ⟨j, Nat.lt_of_lt_of_le hj (by omega)⟩).isNan = true ∨
              Fp.fle (L.get ⟨j, Nat.lt_of_lt_of_le hj (by omega)⟩) mx = true) ∧
            (∀ j, (hj : j < dm) →
              (L.get ⟨j, by omega⟩).isNan = true ∨
              Fp.flt (L.get ⟨j, by omega⟩) mx = true)) →
      (selectDimAux k (L.drop k) mx best = none ∧
        ∀ j, (hj : j < L.length) → (L.get ⟨j, hj⟩).isNan = true ∨
          Fp.fle (L.get ⟨j, hj⟩) Fp.zero = true) ∨
      (∃ dm, ∃ hdm : dm < L.length,
        selectDimAux k (L.drop k) mx best = some dm ∧
        (L.get ⟨dm, hdm⟩).isNan = false ∧
        Fp.flt Fp.zero (L.get ⟨dm, hdm⟩) = true ∧
        (∀ j, (hj : j < L.length) → (L.get ⟨j, hj⟩).isNan = true ∨
          Fp.fle (L.get ⟨j, hj⟩) (L.get ⟨dm, hdm⟩) = true) ∧
        (∀ j, (hj : j < dm) → (L.get ⟨j, Nat.lt_trans hj hdm⟩).isNan = true ∨
          Fp.flt (L.get ⟨j, Nat.lt_trans hj hdm⟩) (L.get ⟨dm, hdm⟩) = true)) by
    have h0 := h L.length 0 Fp.zero none (Nat.zero_le _) (by omega) (by decide)
      (by exact ⟨rfl, fun j hj => absurd hj (Nat.not_lt_zero j)⟩)
    simpa using h0
  intro m
  induction m with
  | zero =>
    intro k mx best hk hm hmx hinv
    have hkL : k = L.length := by omega
    subst hkL
    rw [List.drop_length]
    match best, hinv with
    | none, ⟨hmx0, hall⟩ =>
      left
      exact ⟨rfl, fun j hj => by simpa [hmx0] using hall j hj⟩
    | some dm, ⟨hdm, hget, hnn, hpos, hall, hfirst⟩ =>
      right
      refine ⟨dm, hdm, rfl, ?_, ?_, ?_, ?_⟩
      · rw [hget]; exact hnn
      · rw [hget]; exact hpos
      · intro j hj; rw [hget]; exact hall j hj
      · intro j hj; rw [hget]; exact hfirst j hj
  | succ m ih =>
    intro k mx best hk hm hmx hinv
    have hkL : k < L.length := by omega
    have hdrop : L.drop k = L.get ⟨k, hkL⟩ :: L.drop (k + 1) := by
      exact List.drop_eq_get_cons hkL
    rw [hdrop]
    unfold selectDimAux
    set x := L.get ⟨k, hkL⟩ with hx
    by_cases hcond : (!x.isNan && Fp.flt mx x) = true
    · simp only [hcond, if_pos]
      obtain ⟨hxnn, hmxlt⟩ : x.isNan = false ∧ Fp.flt mx x = true := by
        constructor
        · by_cases hh : x.isNan = true
          · simp [hh] at hcond
          · simpa using hh
        · by_cases hh : Fp.flt mx x = true
          · exact hh
          · simp [hh] at hcond
      have hxpos : Fp.flt Fp.zero x = true := Fp.flt_of_fle_of_flt hmx hmxlt
      refine ih (k + 1) x (some k) (by omega) (by omega) (Fp.fle_of_flt hxpos) ?_
      refine ⟨by omega, rfl, hxnn, hxpos, ?_, ?_⟩
      · intro j hj
        by_cases hjk : j < k
        · match best, hinv with
          | none, ⟨hmx0, hall⟩ =>
            rcases hall j hjk with h | h
            · exact Or.inl h
            · right
              rw [hmx0] at hmxlt
              exact Fp.fle_trans h (Fp.fle_of_flt hmxlt)
          | some dm, ⟨hdm, hget, hnn, hpos, hall, hfirst⟩ =>
            rcases hall j hjk with h | h
            · exact Or.inl h
            · exact Or.inr (Fp.fle_trans h (Fp.fle_of_flt hmxlt))
        · have : j = k := by omega
          subst this
          exact Or.inr (Fp.fle_refl hxnn)
      · intro j hj
        match best, hinv with
        | none, ⟨hmx0, hall⟩ =>
          rcases hall j hj with h | h
          · exact Or.inl h
          · right
            rw [hmx0] at hmxlt
            exact Fp.flt_of_fle_of_flt h hmxlt
        | some dm, ⟨hdm, hget, hnn, hpos, hall, hfirst⟩ =>
          rcases hall j hj with h | h
          · exact Or.inl h
          · exact Or.inr (Fp.flt_of_fle_of_flt h hmxlt)
    · simp only [hcond, if_neg, Bool.not_eq_true]
      have hskip : x.isNan = true ∨ Fp.flt mx x = false := by
        by_cases h1 : x.isNan = true
        · exact Or.inl h1
        · right
          by_cases h2 : Fp.flt mx x = true
          · have hxf : x.isNan = false := by simpa using h1
            exact absurd (by rw [hxf, h2]; rfl) hcond
          · simpa using h2
      refine ih (k + 1) mx best (by omega) (by omega) hmx ?_
      match best, hinv with
      | none, ⟨hmx0, hall⟩ =>
        refine ⟨hmx0, fun j hj => ?_⟩
        by_cases hjk : j < k
        · exact hall j hjk
        · have : j = k := by omega
          subst this
          rcases hskip with h | h
          · exact Or.inl h
          · by_cases hxn : x.isNan = true
            · exact Or.inl hxn
            · right
              rw [hmx0] at h
              have hxnn : x.isNan = false := by simpa using hxn
              have := (Fp.flt_iff_not_fle (a := Fp.zero) (b := x) (by decide) hxnn).not.mp
                (by simp [h])
              simpa using this
      | some dm, ⟨hdm, hget, hnn, hpos, hall, hfirst⟩ =>
        refine ⟨by omega, hget, hnn, hpos, fun j hj => ?_, hfirst⟩
        by_cases hjk : j < k
        · exact hall j hjk
        · have : j = k := by omega
          subst this
          rcases hskip with h | h
          · exact Or.inl h
          · by_cases hxn : x.isNan = true
            · exact Or.inl hxn
            · right
              have hxnn : x.isNan = false := by simpa using hxn
              have := (Fp.flt_iff_not_fle (a := mx) (b := x) hnn hxnn).not.mp (by simp [h])
              simpa using this
  done

end SelectDim

namespace KdTree

variable {T : Type}

theorem extendMin_length (ls vs : Point) : (extendMin ls vs).length = ls.length := by
  induction ls generalizing vs with
  | nil => cases vs <;> rfl
  | cons l ls ih => cases vs with
    | nil => rfl
    | cons v vs => simp [extendMin, ih]

theorem extendMax_length (hs vs : Point) : (extendMax hs vs).length = hs.length := by
  induction hs generalizing vs with
  | nil => cases vs <;> rfl
  | cons h hs ih => cases vs with
    | nil => rfl
    | cons v vs => simp [extendMax, ih]

theorem finitePt_extendMin {minb p : Point} (hlen : minb.length = p.length)
    (hok : minOk minb = true) (hp : finitePt p = true) :
    finitePt (extendMin minb p) = true := by
  induction minb generalizing p with
  | nil => cases p <;> simp_all [extendMin, finitePt]
  | cons l ls ih =>
    cases p with
    | nil => simp at hlen
    | cons v vs =>
      simp only [minOk, List.all_cons, Bool.and_eq_true] at hok
      simp only [finitePt, List.all_cons, Bool.and_eq_true] at hp
      simp only [extendMin, finitePt, List.all_cons, Bool.and_eq_true]
      constructor
      · by_cases hc : Fp.flt v l = true
        · simpa [hc] using hp.1
        · rcases (Bool.or_eq_true _ _ ▸ hok.1) with h | h
          · simpa [hc] using h
          · have hl : l = Fp.pinf := eq_of_beq h
            rw [hl] at hc
            exact absurd (Fp.flt_pinf_of_finite hp.1) hc
      · exact ih (by simpa using hlen) (by simpa [minOk] using hok.2)
          (by simpa [finitePt] using hp.2)

theorem finitePt_extendMax {maxb p : Point} (hlen : maxb.length = p.length)
    (hok : maxOk maxb = true) (hp : finitePt p = true) :
    finitePt (extendMax maxb p) = true := by
  induction maxb generalizing p with
  | nil => cases p <;> simp_all [extendMax, finitePt]
  | cons h hs ih =>
    cases p with
    | nil => simp at hlen
    | cons v vs =>
      simp only [maxOk, List.all_cons, Bool.and_eq_true] at hok
      simp only [finitePt, List.all_cons, Bool.and_eq_true] at hp
      simp only [extendMax, finitePt, List.all_cons, Bool.and_eq_true]
      constructor
      · by_cases hc : Fp.flt h v = true
        · simpa [hc] using hp.1
        · rcases (Bool.or_eq_true _ _ ▸ hok.1) with hh | hh
          · simpa [hc] using hh
          · have hl : h = Fp.ninf := eq_of_beq hh
            rw [hl] at hc
            exact absurd (Fp.ninf_flt_of_finite hp.1) hc
      · exact ih (by simpa using hlen) (by simpa [maxOk] using hok.2)
          (by simpa [finitePt] using hp.2)

theorem minOk_of_finitePt {l : Point} (h : finitePt l = true) : minOk l = true := by
  induction l with
  | nil => rfl
  | cons a l ih =>
    simp only [finitePt, List.all_cons, Bool.and_eq_true] at h
    simp only [minOk, List.all_cons, Bool.and_eq_true]
    exact ⟨by simp [h.1], ih (by simpa [finitePt] using h.2)⟩

theorem maxOk_of_finitePt {l : Point} (h : finitePt l = true) : maxOk l = true := by
  induction l with
  | nil => rfl
  | cons a l ih =>
    simp only [finitePt, List.all_cons, Bool.and_eq_true] at h
    simp only [maxOk, List.all_cons, Bool.and_eq_true]
    exact ⟨by simp [h.1], ih (by simpa [finitePt] using h.2)⟩

theorem fleList_extendMin {minb p : Point} (hlen : minb.length = p.length)
    (hok : minOk minb = true) (hp : finitePt p = true) :
    fleList (extendMin minb p) minb = true := by
  induction minb generalizing p with
  | nil => cases p <;> simp_all [extendMin, fleList]
  | cons l ls ih =>
    cases p with
    | nil => simp at hlen
    | cons v vs =>
      simp only [minOk, List.all_cons, Bool.and_eq_true] at hok
      simp only [finitePt, List.all_cons, Bool.and_eq_true] at hp
      simp only [extendMin, fleList, Bool.and_eq_true]
      refine ⟨?_, ih (by simpa using hlen) (by simpa [minOk] using hok.2)
        (by simpa [finitePt] using hp.2)⟩
      by_cases hc : Fp.flt v l = true
      · simp [hc, Fp.fle_of_flt hc]
      · have hln : l.isNan = false := by
          rcases (Bool.or_eq_true _ _ ▸ hok.1) with h | h
          · exact Fp.not_nan_of_isFinite h
          · have : l = Fp.pinf := by cases l <;> simp_all
            subst this; rfl
        simp [hc, Fp.fle_refl hln]

theorem fleList_extendMax {maxb p : Point} (hlen : maxb.length = p.length)
    (hok : maxOk maxb = true) (hp : finitePt p = true) :
    fleList maxb (extendMax maxb p) = true := by
  induction maxb generalizing p with
  | nil => cases p <;> simp_all [extendMax, fleList]
  | cons h hs ih =>
    cases p with
    | nil => simp at hlen
    | cons v vs =>
      simp only [maxOk, List.all_cons, Bool.and_eq_true] at hok
      simp only [finitePt, List.all_cons, Bool.and_eq_true] at hp
      simp only [extendMax, fleList, Bool.and_eq_true]
      refine ⟨?_, ih (by simpa using hlen) (by simpa [maxOk] using hok.2)
        (by simpa [finitePt] using hp.2)⟩
      by_cases hc : Fp.flt h v = true
      · simp [hc, Fp.fle_of_flt hc]
      · have hln : h.isNan = false := by
          rcases (Bool.or_eq_true _ _ ▸ hok.1) with hh | hh
          · exact Fp.not_nan_of_isFinite hh
          · have : h = Fp.ninf := by cases h <;> simp_all
            subst this; rfl
        simp [hc, Fp.fle_refl hln]

theorem inBounds_extend_self {minb maxb p : Point}
    (hlen1 : minb.length = p.length) (hlen2 : maxb.length = p.length)
    (hmin : minOk minb = true) (hmax : maxOk maxb = true)
    (hp : finitePt p = true) :
    inBounds (extendMin minb p) (extendMax maxb p) p = true := by
  induction p generalizing minb maxb with
  | nil => cases minb <;> cases maxb <;> simp_all [extendMin, extendMax, inBounds]
  | cons v vs ih =>
    cases minb with
    | nil => simp at hlen1
    | cons l ls =>
      cases maxb with
      | nil => simp at hlen2
      | cons h hs =>
        simp only [minOk, maxOk, List.all_cons, Bool.and_eq_true] at hmin hmax
        simp only [finitePt, List.all_cons, Bool.and_eq_true] at hp
        have hvn : v.isNan = false := Fp.not_nan_of_isFinite hp.1
        simp only [extendMin, extendMax, inBounds, Bool.and_eq_true]
        refine ⟨⟨?_, ?_⟩, ih (by simpa using hlen1) (by simpa using hlen2)
          (by simpa [minOk] using hmin.2) (by simpa [maxOk] using hmax.2)
          (by simpa [finitePt] using hp.2)⟩
        · by_cases hc : Fp.flt v l = true
          · simp [hc, Fp.fle_refl hvn]
          · have hln : l.isNan = false := by
              rcases (Bool.or_eq_true _ _ ▸ hmin.1) with hh | hh
              · exact Fp.not_nan_of_isFinite hh
              · have : l = Fp.pinf := by cases l <;> simp_all
                subst this; rfl
            have : Fp.fle l v = true := by
              have := (Fp.flt_iff_not_fle hvn hln).not.mp (by simp [hc])
              simpa using this
            simp [hc, this]
        · by_cases hc : Fp.flt h v = true
          · simp [hc, Fp.fle_refl hvn]
          · have hhn : h.isNan = false := by
              rcases (Bool.or_eq_true _ _ ▸ hmax.1) with hh | hh
              · exact Fp.not_nan_of_isFinite hh
              · have : h = Fp.ninf := by cases h <;> simp_all
                subst this; rfl
            have : Fp.fle v h = true := by
              have := (Fp.flt_iff_not_fle hhn hvn).not.mp (by simp [hc])
              simpa using this
            simp [hc, this]

theorem inBounds_mono {minb maxb minb' maxb' x : Point}
    (h1 : fleList minb' minb = true) (h2 : fleList maxb maxb' = true)
    (hx : inBounds minb maxb x = true) : inBounds minb' maxb' x = true := by
  induction x generalizing minb maxb minb' maxb' with
  | nil =>
    cases minb <;> cases maxb <;> simp_all [inBounds]
    cases minb' <;> cases maxb' <;> simp_all [fleList, inBounds]
  | cons v vs ih =>
    cases minb <;> cases maxb <;> simp_all [inBounds]
    cases minb' <;> cases maxb' <;> simp_all [fleList, inBounds]
    obtain ⟨⟨hA, hB⟩, hC⟩ := hx
    exact ⟨⟨Fp.fle_trans h1.1 hA, Fp.fle_trans hB h2.1⟩, ih h1.2 h2.2 hC⟩

theorem inBounds_extend_mono {minb maxb p x : Point}
    (hlen1 : minb.length = p.length) (hlen2 : maxb.length = p.length)
    (hmin : minOk minb = true) (hmax : maxOk maxb = true)
    (hp : finitePt p = true)
    (hx : inBounds minb maxb x = true) :
    inBounds (extendMin minb p) (extendMax maxb p) x = true :=
  inBounds_mono (fleList_extendMin hlen1 hmin hp) (fleList_extendMax hlen2 hmax hp) hx

theorem inBounds_lengths {minb maxb x : Point} (h : inBounds minb maxb x = true) :
    x.length = minb.length ∧ maxb.length = minb.length := by
  induction x generalizing minb maxb with
  | nil => cases minb <;> cases maxb <;> simp_all [inBounds]
  | cons v vs ih =>
    cases minb <;> cases maxb <;> simp_all [inBounds]
    exact ih h.2

theorem pointEq_refl {p : Point} (h : finitePt p = true) : pointEq p p = true := by
  induction p with
  | nil => rfl
  | cons a ps ih =>
    simp only [finitePt, List.all_cons, Bool.and_eq_true] at h
    have hrec := ih (by simpa [finitePt] using h.2)
    simp only [pointEq, List.zip_cons_cons, List.all_cons, Bool.and_eq_true,
      beq_iff_eq] at hrec ⊢
    exact ⟨by simp, Fp.feq_refl (Fp.not_nan_of_isFinite h.1), hrec.2⟩

theorem getLastD_cons_perm (L : List α) (x : α) (h : L ≠ []) :
    L.Perm (L.getLastD x :: L.dropLast) := by
  induction L generalizing x with
  | nil => exact absurd rfl h
  | cons y L ih =>
    cases L with
    | nil => simp
    | cons z rest =>
      have hrec := ih (x := y) (by simp)
      have h1 : (y :: z :: rest).Perm (y :: (z :: rest).getLastD y :: (z :: rest).dropLast) :=
        List.Perm.cons y hrec
      have h2 := h1.trans (List.Perm.swap ((z :: rest).getLastD y) y ((z :: rest).dropLast))
      simpa using h2

theorem swapRemoveZero_perm {l l' : List α} {a : α}
    (h : swapRemoveZero l = some (a, l')) : l.Perm (a :: l') := by
  match l with
  | [] => simp [swapRemoveZero] at h
  | [x] => simp_all [swapRemoveZero]
  | x :: y :: rest =>
    simp only [swapRemoveZero, Option.some.injEq, Prod.mk.injEq] at h
    obtain ⟨h1, h2⟩ := h
    subst h1 h2
    exact List.Perm.cons x (getLastD_cons_perm (y :: rest) x (by simp))

theorem swapRemoveZero_none {l : List α} : swapRemoveZero l = none ↔ l = [] := by
  cases l with
  | nil => simp [swapRemoveZero]
  | cons a rest => cases rest <;> simp [swapRemoveZero]

theorem extendMin_getElem {minb p : Point} (hlen : p.length = minb.length)
    {i : Nat} (hi : i < minb.length) (hip : i < p.length)
    (hie : i < (extendMin minb p).length) :
    (extendMin minb p)[i] = if Fp.flt p[i] minb[i] then p[i] else minb[i] := by
  induction minb generalizing p i with
  | nil => simp at hi
  | cons l ls ih =>
    cases p with
    | nil => simp at hlen
    | cons v vs =>
      cases i with
      | zero => simp [extendMin]
      | succ j =>
        have hj1 : j < ls.length := by simpa using hi
        have hj2 : j < vs.length := by simpa using hip
        have hj3 : j < (extendMin ls vs).length := by
          rw [extendMin_length]; exact hj1
        have := ih (p := vs) (by simpa using hlen) hj1 hj2 hj3
        simpa [extendMin] using this

theorem extendMax_getElem {maxb p : Point} (hlen : p.length = maxb.length)
    {i : Nat} (hi : i < maxb.length) (hip : i < p.length)
    (hie : i < (extendMax maxb p).length) :
    (extendMax maxb p)[i] = if Fp.flt maxb[i] p[i] then p[i] else maxb[i] := by
  induction maxb generalizing p i with
  | nil => simp at hi
  | cons l ls ih =>
    cases p with
    | nil => simp at hlen
    | cons v vs =>
      cases i with
      | zero => simp [extendMax]
      | succ j =>
        have hj1 : j < ls.length := by simpa using hi
        have hj2 : j < vs.length := by simpa using hip
        have hj3 : j < (extendMax ls vs).length := by
          rw [extendMax_length]; exact hj1
        have := ih (p := vs) (by simpa using hlen) hj1 hj2 hj3
        simpa [extendMax] using this

theorem achievedMin_nil (Dd : Nat) : achievedMin (List.replicate Dd Fp.pinf) [] := by
  intro i hi
  left
  simp

theorem achievedMax_nil (Dd : Nat) : achievedMax (List.replicate Dd Fp.ninf) [] := by
  intro i hi
  left
  simp

theorem achievedMin_extend {minb : Point} {ps : List Point} {p : Point}
    (h : achievedMin minb ps) (hlen : p.length = minb.length) :
    achievedMin (extendMin minb p) (ps ++ [p]) := by
  intro i hi
  have hi' : i < minb.length := by
    rw [extendMin_length] at hi; exact hi
  have hip : i < p.length := by omega
  have hget := extendMin_getElem hlen hi' hip hi
  by_cases hc : Fp.flt p[i] minb[i] = true
  · right
    refine ⟨p, by simp, ?_⟩
    rw [hget, if_pos hc, List.getElem?_eq_getElem hip]
  · rw [hget, if_neg (by simpa using hc)]
    rcases h i hi' with h1 | ⟨pw, hw1, hw2⟩
    · exact Or.inl h1
    · exact Or.inr ⟨pw, by simp [hw1], hw2⟩

theorem achievedMax_extend {maxb : Point} {ps : List Point} {p : Point}
    (h : achievedMax maxb ps) (hlen : p.length = maxb.length) :
    achievedMax (extendMax maxb p) (ps ++ [p]) := by
  intro i hi
  have hi' : i < maxb.length := by
    rw [extendMax_length] at hi; exact hi
  have hip : i < p.length := by omega
  have hget := extendMax_getElem hlen hi' hip hi
  by_cases hc : Fp.flt maxb[i] p[i] = true
  · right
    refine ⟨p, by simp, ?_⟩
    rw [hget, if_pos hc, List.getElem?_eq_getElem hip]
  · rw [hget, if_neg (by simpa using hc)]
    rcases h i hi' with h1 | ⟨pw, hw1, hw2⟩
    · exact Or.inl h1
    · exact Or.inr ⟨pw, by simp [hw1], hw2⟩

/-- Interface lemma: what `isWFF` at positive fuel says about a node. -/
theorem isWFF_cases {Dd f : Nat} {l r : Option (KdTree T)} {cap sz : Nat}
    {minb maxb : Point} {sv : Option Fp} {sd : Option Nat}
    {ps? : Option (List Point)} {bs? : Option (List T)}
    (hw : isWFF Dd (f + 1) (mk l r cap sz minb maxb sv sd ps? bs?) = true) :
    (minb.length = Dd ∧ maxb.length = Dd ∧ minOk minb = true ∧ maxOk maxb = true) ∧
    ((l = none ∧ r = none ∧ sv = none ∧ sd = none ∧
      ∃ ps bs, ps? = some ps ∧ bs? = some bs ∧
        sz = ps.length ∧ ps.length = bs.length ∧
        (∀ p ∈ ps, finitePt p = true ∧ inBounds minb maxb p = true) ∧
        (sz ≤ cap ∨ minb = maxb) ∧
        (ps = [] ∨ finitePt minb = true ∧ finitePt maxb = true)) ∨
    (∃ lt rt svv dim, l = some lt ∧ r = some rt ∧ sv = some svv ∧ sd = some dim ∧
        ps? = none ∧ bs? = none ∧ dim < Dd ∧ svv.isFinite = true ∧
        sz = size lt + size rt ∧ capacity lt = cap ∧ capacity rt = cap ∧
        finitePt minb = true ∧ finitePt maxb = true ∧
        isWFF Dd f lt = true ∧ isWFF Dd f rt = true ∧
        ∀ e ∈ entries lt ++ entries rt, inBounds minb maxb e.1 = true)) := by
  rcases l with _ | lt <;> rcases r with _ | rt <;> rcases sv with _ | svv <;>
      rcases sd with _ | dim <;> rcases ps? with _ | ps <;> rcases bs? with _ | bs <;>
      simp only [isWFF, Bool.and_eq_true, beq_iff_eq, decide_eq_true_eq,
        List.all_eq_true, Bool.or_eq_true, List.isEmpty_iff] at hw
  all_goals try exact absurd hw.2 Bool.false_ne_true
  · obtain ⟨⟨⟨⟨h1, h2⟩, h3⟩, h4⟩, ⟨⟨⟨⟨g1, g2⟩, g3⟩, g4⟩, g5⟩⟩ := hw
    exact ⟨⟨h1, h2, h3, h4⟩, Or.inl ⟨rfl, rfl, rfl, rfl, ps, bs, rfl, rfl, g1, g2,
      fun p hp => by simpa using g3 p hp, g4, g5⟩⟩
  · obtain ⟨⟨⟨⟨h1, h2⟩, h3⟩, h4⟩,
      ⟨⟨⟨⟨⟨⟨⟨⟨⟨g1, g2⟩, g3⟩, g4⟩, g5⟩, g6⟩, g7⟩, g8⟩, g9⟩, g10⟩⟩ := hw
    exact ⟨⟨h1, h2, h3, h4⟩, Or.inr ⟨lt, rt, svv, dim, rfl, rfl, rfl, rfl, rfl, rfl,
      g1, g2, g3, g4, g5, g6, g7, g8, g9, fun e he => g10 e he⟩⟩

/-- Interface lemma: building a well-formed leaf. -/
theorem isWFF_leaf_intro {Dd f cap sz : Nat} {minb maxb : Point}
    {ps : List Point} {bs : List T}
    (h1 : minb.length = Dd) (h2 : maxb.length = Dd)
    (h3 : minOk minb = true) (h4 : maxOk maxb = true)
    (h5 : sz = ps.length) (h6 : ps.length = bs.length)
    (h7 : ∀ p ∈ ps, finitePt p = true ∧ inBounds minb maxb p = true)
    (h8 : sz ≤ cap ∨ minb = maxb)
    (h9 : ps = [] ∨ finitePt minb = true ∧ finitePt maxb = true) :
    isWFF Dd (f + 1) (mk none none cap sz minb maxb none none (some ps) (some bs)) = true := by
  simp only [isWFF, Bool.and_eq_true, beq_iff_eq, decide_eq_true_eq,
    List.all_eq_true, Bool.or_eq_true, List.isEmpty_iff]
  exact ⟨⟨⟨⟨h1, h2⟩, h3⟩, h4⟩, ⟨⟨⟨⟨h5, h6⟩, fun p hp => by simpa using h7 p hp⟩, h8⟩, h9⟩⟩

/-- Interface lemma: building a well-formed stem. -/
theorem isWFF_stem_intro {Dd f cap sz : Nat} {minb maxb : Point}
    {lt rt : KdTree T} {svv : Fp} {dim : Nat}
    (h1 : minb.length = Dd) (h2 : maxb.length = Dd)
    (h3 : minOk minb = true) (h4 : maxOk maxb = true)
    (h5 : dim < Dd) (h6 : svv.isFinite = true)
    (h7 : sz = size lt + size rt)
    (h8 : capacity lt = cap) (h9 : capacity rt = cap)
    (h10 : finitePt minb = true) (h11 : finitePt maxb = true)
    (h12 : isWFF Dd f lt = true) (h13 : isWFF Dd f rt = true)
    (h14 : ∀ e ∈ entries lt ++ entries rt, inBounds minb maxb e.1 = true) :
    isWFF Dd (f + 1) (mk (some lt) (some rt) cap sz minb maxb (some svv) (some dim)
      none none) = true := by
  simp only [isWFF, Bool.and_eq_true, beq_iff_eq, decide_eq_true_eq,
    List.all_eq_true, Bool.or_eq_true]
  exact ⟨⟨⟨⟨h1, h2⟩, h3⟩, h4⟩,
    ⟨⟨⟨⟨⟨⟨⟨⟨⟨h5, h6⟩, h7⟩, h8⟩, h9⟩, h10⟩, h11⟩, h12⟩, h13⟩, fun e he => h14 e he⟩⟩

theorem isWFF_mono {Dd : Nat} : ∀ {f f' : Nat} {t : KdTree T}, f ≤ f' →
    isWFF Dd f t = true → isWFF Dd f' t = true := by
  intro f
  induction f with
  | zero => intro f' t h hw; simp [isWFF] at hw
  | succ g ih =>
    intro f' t h hw
    obtain ⟨g', rfl⟩ : ∃ g', f' = g' + 1 := ⟨f' - 1, by omega⟩
    cases t with
    | mk l r cap sz minb maxb sv sd ps bs =>
      obtain ⟨hbase, hleaf | hstem⟩ := isWFF_cases hw
      · obtain ⟨e1, e2, e3, e4, ps', bs', e5, e6, rest⟩ := hleaf
        subst e1; subst e2; subst e3; subst e4; subst e5; subst e6
        exact isWFF_leaf_intro hbase.1 hbase.2.1 hbase.2.2.1 hbase.2.2.2
          rest.1 rest.2.1 rest.2.2.1 rest.2.2.2.1 rest.2.2.2.2
      · obtain ⟨lt, rt, svv, dim, e1, e2, e3, e4, e5, e6, rest⟩ := hstem
        subst e1; subst e2; subst e3; subst e4; subst e5; subst e6
        exact isWFF_stem_intro hbase.1 hbase.2.1 hbase.2.2.1 hbase.2.2.2
          rest.1 rest.2.1 rest.2.2.1 rest.2.2.2.1 rest.2.2.2.2.1
          rest.2.2.2.2.2.1 rest.2.2.2.2.2.2.1
          (ih (by omega) rest.2.2.2.2.2.2.2.1)
          (ih (by omega) rest.2.2.2.2.2.2.2.2.1)
          rest.2.2.2.2.2.2.2.2.2

theorem height_pos (t : KdTree T) : 1 ≤ height t := by
  cases t with
  | mk l r cap sz minb maxb sv sd ps bs =>
    rcases l with _ | lt <;> rcases r with _ | rt <;> simp [height]

theorem isWFF_height {Dd : Nat} : ∀ {f : Nat} {t : KdTree T},
    isWFF Dd f t = true → height t ≤ f := by
  intro f
  induction f with
  | zero => intro t hw; simp [isWFF] at hw
  | succ g ih =>
    intro t hw
    cases t with
    | mk l r cap sz minb maxb sv sd ps bs =>
      obtain ⟨hbase, hleaf | hstem⟩ := isWFF_cases hw
      · obtain ⟨e1, e2, _⟩ := hleaf
        subst e1; subst e2
        simp [height]
      · obtain ⟨lt, rt, svv, dim, e1, e2, e3, e4, e5, e6, rest⟩ := hstem
        subst e1; subst e2
        have hl := ih rest.2.2.2.2.2.2.2.1
        have hr := ih rest.2.2.2.2.2.2.2.2.1
        simp only [height]
        omega

theorem isWFF_retime {Dd : Nat} : ∀ {f : Nat} {t : KdTree T} {f' : Nat},
    isWFF Dd f t = true → height t ≤ f' → isWFF Dd f' t = true := by
  intro f
  induction f with
  | zero => intro t f' hw _; simp [isWFF] at hw
  | succ g ih =>
    intro t f' hw hh
    cases t with
    | mk l r cap sz minb maxb sv sd ps bs =>
      obtain ⟨g', rfl⟩ : ∃ g', f' = g' + 1 := ⟨f' - 1, by
        have h1 := height_pos (mk l r cap sz minb maxb sv sd ps bs)
        omega⟩
      obtain ⟨hbase, hleaf | hstem⟩ := isWFF_cases hw
      · obtain ⟨e1, e2, e3, e4, ps', bs', e5, e6, rest⟩ := hleaf
        subst e1; subst e2; subst e3; subst e4; subst e5; subst e6
        exact isWFF_leaf_intro hbase.1 hbase.2.1 hbase.2.2.1 hbase.2.2.2
          rest.1 rest.2.1 rest.2.2.1 rest.2.2.2.1 rest.2.2.2.2
      · obtain ⟨lt, rt, svv, dim, e1, e2, e3, e4, e5, e6, rest⟩ := hstem
        subst e1; subst e2; subst e3; subst e4; subst e5; subst e6
        have hhl : height lt ≤ g' := by
          simp only [height] at hh
          omega
        have hhr : height rt ≤ g' := by
          simp only [height] at hh
          omega
        exact isWFF_stem_intro hbase.1 hbase.2.1 hbase.2.2.1 hbase.2.2.2
          rest.1 rest.2.1 rest.2.2.1 rest.2.2.2.1 rest.2.2.2.2.1
          rest.2.2.2.2.2.1 rest.2.2.2.2.2.2.1
          (ih rest.2.2.2.2.2.2.2.1 hhl)
          (ih rest.2.2.2.2.2.2.2.2.1 hhr)
          rest.2.2.2.2.2.2.2.2.2

theorem isWF_of_isWFF {Dd f : Nat} {t : KdTree T} (hw : isWFF Dd f t = true) :
    isWF Dd t = true :=
  isWFF_retime hw (by omega)

theorem entries_leaf (c s : Nat) (mn mx : Point) (sv : Option Fp) (sd : Option Nat)
    (ps : List Point) (bs : List T) :
    entries (mk none none c s mn mx sv sd (some ps) (some bs)) = ps.zip bs := by
  simp [entries]

theorem entries_stem (lt rt : KdTree T) (c s : Nat) (mn mx : Point) (sv : Option Fp)
    (sd : Option Nat) :
    entries (mk (some lt) (some rt) c s mn mx sv sd none none) =
      entries lt ++ entries rt := by
  simp [entries]

theorem atb_small {cap sz : Nat} {minb maxb : Point} {ps : List Point}
    {bs : List T} {p : Point} {v : T} (f : Nat) (hsz : sz + 1 ≤ cap) :
    add_to_bucket (f + 1) (mk none none cap sz minb maxb none none (some ps) (some bs))
        p v =
      some (mk none none cap (sz + 1) (extendMin minb p) (extendMax maxb p) none none
        (some (ps ++ [p])) (some (bs ++ [v]))) := by
  have hc : ¬(sz + 1 > cap) := by omega
  simp [add_to_bucket, hc]

theorem splitWith_abandon {addF : KdTree T → Point → T → Option (KdTree T)}
    {cap sz : Nat} {minb maxb : Point} {ps : List Point} {bs : List T}
    (hdeg : ∀ x ∈ extents minb maxb, Fp.fle x Fp.zero = true) :
    splitWith addF (mk none none cap sz minb maxb none none none none) ps bs =
      some (mk none none cap sz minb maxb none none (some ps) (some bs)) := by
  have hsel : selectDimAux 0 (extents minb maxb) Fp.zero none = none := by
    apply selectDimAux_none
    intro x hx
    have h := hdeg x hx
    have hnn := Fp.not_nan_left_of_fle h
    right
    by_cases hc : Fp.flt Fp.zero x = true
    · exact absurd h ((Fp.flt_iff_not_fle (by decide) hnn).mp hc)
    · simpa using hc
  simp only [splitWith]
  rw [hsel]

theorem extents_self_le_zero {b : Point} (hfin : finitePt b = true) :
    ∀ x ∈ extents b b, Fp.fle x Fp.zero = true := by
  induction b with
  | nil => intro x hx; simp [extents] at hx
  | cons a bs ih =>
    intro x hx
    simp only [finitePt, List.all_cons, Bool.and_eq_true] at hfin
    simp only [extents, List.zip_cons_cons, List.map_cons, List.mem_cons] at hx
    rcases hx with hx | hx
    · subst hx
      rcases a with _ | _ | _ | q
      · simp [Fp.isFinite] at hfin
      · simp [Fp.isFinite] at hfin
      · simp [Fp.isFinite] at hfin
      · simp [Fp.sub, Fp.neg, Fp.add, Fp.fle, Fp.zero]
    · exact ih (by simpa [finitePt] using hfin.2) x (by simpa [extents] using hx)

theorem atb_abandon {cap sz : Nat} {minb maxb : Point} {ps : List Point}
    {bs : List T} {p : Point} {v : T} (f : Nat) (hsz : sz + 1 > cap)
    (hdeg : ∀ x ∈ extents (extendMin minb p) (extendMax maxb p),
      Fp.fle x Fp.zero = true) :
    add_to_bucket (f + 1) (mk none none cap sz minb maxb none none (some ps) (some bs))
        p v =
      some (mk none none cap (sz + 1) (extendMin minb p) (extendMax maxb p) none none
        (some (ps ++ [p])) (some (bs ++ [v]))) := by
  simp only [add_to_bucket, hsz, if_pos]
  exact splitWith_abandon hdeg

theorem zip_dropLast : ∀ {L : List α} {M : List β}, L.length = M.length →
    (L.zip M).dropLast = L.dropLast.zip M.dropLast := by
  intro L
  induction L with
  | nil => intro M h; simp
  | cons x L ih =>
    intro M h
    cases M with
    | nil => simp at h
    | cons a M =>
      cases L with
      | nil =>
        cases M with
        | nil => simp
        | cons b M => simp at h
      | cons y L' =>
        cases M with
        | nil => simp at h
        | cons b M' =>
          have hrec := ih (M := b :: M') (by simpa using h)
          simp only [List.zip_cons_cons] at hrec ⊢
          rw [List.dropLast_cons₂, hrec]
          simp [List.dropLast_cons₂]

theorem zip_getLastD : ∀ {L : List α} {M : List β}, L.length = M.length →
    ∀ (x : α) (y : β), (L.zip M).getLastD (x, y) = (L.getLastD x, M.getLastD y) := by
  intro L
  induction L with
  | nil => intro M h x y; cases M with
    | nil => simp
    | cons a M => simp at h
  | cons z L ih =>
    intro M h x y
    cases M with
    | nil => simp at h
    | cons a M =>
      cases L with
      | nil =>
        cases M with
        | nil => simp
        | cons b M => simp at h
      | cons w L' =>
        cases M with
        | nil => simp at h
        | cons b M' =>
          have hrec := ih (M := b :: M') (by simpa using h) z a
          simp only [List.zip_cons_cons] at hrec ⊢
          simp only [List.getLastD_cons] at hrec ⊢
          exact hrec

theorem swapRemoveZero_zip {ps : List α} {bs : List β} {p : α} {ps' : List α}
    {v : β} {bs' : List β} (hlen : ps.length = bs.length)
    (h1 : swapRemoveZero ps = some (p, ps')) (h2 : swapRemoveZero bs = some (v, bs')) :
    swapRemoveZero (ps.zip bs) = some ((p, v), ps'.zip bs') := by
  match ps, bs with
  | [], _ => simp [swapRemoveZero] at h1
  | _ :: _, [] => simp at hlen
  | [x], [y] => simp_all [swapRemoveZero]
  | [x], b1 :: b2 :: bM => simp at hlen
  | x1 :: x2 :: xM, [y] => simp at hlen
  | x1 :: x2 :: xM, y1 :: y2 :: yM =>
    simp only [swapRemoveZero, Option.some.injEq, Prod.mk.injEq] at h1 h2
    obtain ⟨e1, e2⟩ := h1
    obtain ⟨e3, e4⟩ := h2
    subst e1 e2 e3 e4
    have hl : (x2 :: xM).length = (y2 :: yM).length := by simpa using hlen
    have hg := zip_getLastD hl x1 y1
    have hd := zip_dropLast hl
    rw [List.zip_cons_cons] at hg hd
    simp only [List.zip_cons_cons, swapRemoveZero, Option.some.injEq, Prod.mk.injEq]
    exact ⟨trivial, by rw [hg, hd]⟩

theorem LeafState_nil (Dd : Nat) :
    LeafState Dd (List.replicate Dd Fp.pinf) (List.replicate Dd Fp.ninf)
      ([] : List Point) ([] : List T) := by
  refine ⟨rfl, by simp, by simp, ?_, ?_, by simp, achievedMin_nil Dd, achievedMax_nil Dd⟩
  · rw [minOk, List.all_eq_true]
    intro x hx
    rw [List.eq_of_mem_replicate hx]
    rfl
  · rw [maxOk, List.all_eq_true]
    intro x hx
    rw [List.eq_of_mem_replicate hx]
    rfl

theorem LeafState_extend {Dd : Nat} {minb maxb : Point} {ps : List Point}
    {bs : List T} {p : Point} {v : T}
    (h : LeafState Dd minb maxb ps bs) (hp : finitePt p = true) (hpl : p.length = Dd) :
    LeafState Dd (extendMin minb p) (extendMax maxb p) (ps ++ [p]) (bs ++ [v]) := by
  obtain ⟨h1, h2, h3, h4, h5, h6, h7, h8⟩ := h
  have hlmin : p.length = minb.length := by omega
  have hlmax : p.length = maxb.length := by omega
  refine ⟨by simp [h1], ?_, ?_, ?_, ?_, ?_, ?_, ?_⟩
  · rw [extendMin_length]; exact h2
  · rw [extendMax_length]; exact h3
  · exact minOk_of_finitePt (finitePt_extendMin hlmin.symm h4 hp)
  · exact maxOk_of_finitePt (finitePt_extendMax hlmax.symm h5 hp)
  · intro q hq
    rcases List.mem_append.mp hq with hq | hq
    · obtain ⟨f1, f2, f3⟩ := h6 q hq
      exact ⟨f1, f2, inBounds_extend_mono hlmin.symm hlmax.symm h4 h5 hp f3⟩
    · have : q = p := by simpa using hq
      subst this
      exact ⟨hp, hpl, inBounds_extend_self hlmin.symm hlmax.symm h4 h5 hp⟩
  · exact achievedMin_extend h7 hlmin
  · exact achievedMax_extend h8 hlmax

theorem finitePt_getElem {p : Point} (h : finitePt p = true) {i : Nat}
    (hi : i < p.length) : p[i].isFinite = true := by
  rw [finitePt, List.all_eq_true] at h
  exact h _ (List.getElem_mem hi)

theorem inBounds_getElem {minb maxb x : Point} (h : inBounds minb maxb x = true)
    {i : Nat} (hi : i < minb.length) (him : i < maxb.length) (hix : i < x.length) :
    Fp.fle minb[i] x[i] = true ∧ Fp.fle x[i] maxb[i] = true := by
  induction x generalizing minb maxb i with
  | nil => simp at hix
  | cons a xs ih =>
    cases minb with
    | nil => simp at hi
    | cons l ls =>
      cases maxb with
      | nil => simp at him
      | cons hgh hs =>
        simp only [inBounds, Bool.and_eq_true] at h
        cases i with
        | zero => simpa using ⟨h.1.1, h.1.2⟩
        | succ j =>
          exact ih h.2 (by simpa using hi) (by simpa using him) (by simpa using hix)

theorem LeafState_finite_bounds {Dd : Nat} {minb maxb : Point} {ps : List Point}
    {bs : List T} (h : LeafState Dd minb maxb ps bs) (hne : ps ≠ []) :
    finitePt minb = true ∧ finitePt maxb = true := by
  obtain ⟨h1, h2, h3, h4, h5, h6, h7, h8⟩ := h
  obtain ⟨p0, hp0⟩ := List.exists_mem_of_ne_nil ps hne
  obtain ⟨hp0f, hp0l, hp0b⟩ := h6 p0 hp0
  constructor
  · rw [finitePt, List.all_eq_true]
    intro x hx
    obtain ⟨i, hi, rfl⟩ := List.mem_iff_getElem.mp hx
    rcases h7 i hi with hpinf | ⟨pw, hw, hwi⟩
    · exfalso
      have hib := (inBounds_getElem hp0b hi (by omega) (by omega)).1
      rw [hpinf] at hib
      have : p0[i].isFinite = true := finitePt_getElem hp0f (by omega)
      rcases hq : p0[i] with _ | _ | _ | q <;> rw [hq] at hib this <;>
        simp_all [Fp.fle, Fp.isFinite]
    · obtain ⟨hwf, hwl, _⟩ := h6 pw hw
      have hiw : i < pw.length := by omega
      rw [List.getElem?_eq_getElem hiw] at hwi
      have := finitePt_getElem hwf hiw
      rw [(by simpa using hwi : pw[i] = minb[i])] at this
      exact this
  · rw [finitePt, List.all_eq_true]
    intro x hx
    obtain ⟨i, hi, rfl⟩ := List.mem_iff_getElem.mp hx
    rcases h8 i hi with hninf | ⟨pw, hw, hwi⟩
    · exfalso
      have hib := (inBounds_getElem hp0b (by omega) hi (by omega)).2
      rw [hninf] at hib
      have : p0[i].isFinite = true := finitePt_getElem hp0f (by omega)
      rcases hq : p0[i] with _ | _ | _ | q <;> rw [hq] at hib this <;>
        simp_all [Fp.fle, Fp.isFinite]
    · obtain ⟨hwf, hwl, _⟩ := h6 pw hw
      have hiw : i < pw.length := by omega
      rw [List.getElem?_eq_getElem hiw] at hwi
      have := finitePt_getElem hwf hiw
      rw [(by simpa using hwi : pw[i] = maxb[i])] at this
      exact this

theorem LeafState_isWFF {Dd cap f : Nat} {minb maxb : Point} {ps : List Point}
    {bs : List T} (h : LeafState Dd minb maxb ps bs)
    (hcap : ps.length ≤ cap ∨ minb = maxb) :
    isWFF Dd (f + 1) (mkLeaf cap minb maxb ps bs : KdTree T) = true := by
  obtain ⟨h1, h2, h3, h4, h5, h6, h7, h8⟩ := h
  refine isWFF_leaf_intro h2 h3 h4 h5 rfl h1 (fun p hp => ?_) hcap ?_
  · obtain ⟨f1, _, f3⟩ := h6 p hp
    exact ⟨f1, f3⟩
  · by_cases hne : ps = []
    · exact Or.inl hne
    · exact Or.inr (LeafState_finite_bounds ⟨h1, h2, h3, h4, h5, h6, h7, h8⟩ hne)

theorem distribute_nil (addF : KdTree T → Point → T → Option (KdTree T))
    (sd : Nat) (sv : Fp) (bs : List T) (lc rc : KdTree T) :
    distribute addF sd sv [] bs lc rc = some (lc, rc) := by
  rw [distribute]
  rfl

theorem distribute_cons {addF : KdTree T → Point → T → Option (KdTree T)}
    {sd : Nat} {sv : Fp} {ps : List Point} {bs : List T} {lc rc : KdTree T}
    {p : Point} {ps' : List Point} {v : T} {bs' : List T}
    (h1 : swapRemoveZero ps = some (p, ps')) (h2 : swapRemoveZero bs = some (v, bs')) :
    distribute addF sd sv ps bs lc rc =
      (match p[sd]? with
      | none => none
      | some c =>
        if Fp.flt c sv then
          match addF lc p v with
          | none => none
          | some lc' => distribute addF sd sv ps' bs' lc' rc
        else
          match addF rc p v with
          | none => none
          | some rc' => distribute addF sd sv ps' bs' lc rc') := by
  rw [distribute]
  split
  · rename_i heq
    rw [heq] at h1
    exact absurd h1 (by simp)
  · rename_i a b heq
    rw [heq] at h1
    simp only [Option.some.injEq, Prod.mk.injEq] at h1
    obtain ⟨e1, e2⟩ := h1
    subst e1; subst e2
    rw [h2]

theorem permHelpR {α : Type} (A B C : List α) (x : α) :
    ((A ++ (B ++ [x])) ++ C).Perm ((A ++ B) ++ (x :: C)) := by
  rw [show A ++ (B ++ [x]) = (A ++ B) ++ [x] from (List.append_assoc A B [x]).symm,
    List.append_assoc]
  exact List.Perm.refl _

theorem permHelpL {α : Type} (A B C : List α) (x : α) :
    (((A ++ [x]) ++ B) ++ C).Perm ((A ++ B) ++ (x :: C)) := by
  rw [show (A ++ [x]) ++ B = A ++ (x :: B) from by simp]
  refine List.Perm.trans (List.Perm.append_right C List.perm_middle) ?_
  simp only [List.cons_append]
  exact List.Perm.trans (List.Perm.refl _) List.perm_middle.symm

theorem distribute_no_overflow {Dd cap sd : Nat} {sv : Fp} (hsd : sd < Dd) :
    ∀ (n : Nat) (ps : List Point) (bs : List T)
      (lminb lmaxb rminb rmaxb : Point)
      (lps : List Point) (lbs : List T) (rps : List Point) (rbs : List T) (f : Nat),
      ps.length = n →
      ps.length = bs.length →
      (∀ p ∈ ps, finitePt p = true ∧ p.length = Dd) →
      LeafState Dd lminb lmaxb lps lbs →
      LeafState Dd rminb rmaxb rps rbs →
      lps.length + ps.countP (fun p => belongsB sd sv p) ≤ cap →
      rps.length + ps.countP (fun p => !belongsB sd sv p) ≤ cap →
      ∃ lminb' lmaxb' lps' lbs' rminb' rmaxb' rps' rbs',
        distribute (add_to_bucket (f + 1)) sd sv ps bs
          (mkLeaf cap lminb lmaxb lps lbs) (mkLeaf cap rminb rmaxb rps rbs) =
          some (mkLeaf cap lminb' lmaxb' lps' lbs', mkLeaf cap rminb' rmaxb' rps' rbs') ∧
        LeafState Dd lminb' lmaxb' lps' lbs' ∧
        LeafState Dd rminb' rmaxb' rps' rbs' ∧
        lps'.length = lps.length + ps.countP (fun p => belongsB sd sv p) ∧
        rps'.length = rps.length + ps.countP (fun p => !belongsB sd sv p) ∧
        (lps'.zip lbs' ++ rps'.zip rbs').Perm
          ((lps.zip lbs ++ rps.zip rbs) ++ ps.zip bs) := by
  intro n
  induction n with
  | zero =>
    intro ps bs lminb lmaxb rminb rmaxb lps lbs rps rbs f hn hlen hfin hL hR hcl hcr
    have hps : ps = [] := List.length_eq_zero.mp hn
    subst hps
    refine ⟨lminb, lmaxb, lps, lbs, rminb, rmaxb, rps, rbs,
      distribute_nil _ _ _ _ _ _, hL, hR, by simp, by simp, by simp⟩
  | succ m ih =>
    intro ps bs lminb lmaxb rminb rmaxb lps lbs rps rbs f hn hlen hfin hL hR hcl hcr
    cases hsw : swapRemoveZero ps with
    | none =>
      rw [swapRemoveZero_none] at hsw
      subst hsw
      simp at hn
    | some pr =>
      obtain ⟨p, ps'⟩ := pr
      cases hsb : swapRemoveZero bs with
      | none =>
        rw [swapRemoveZero_none] at hsb
        subst hsb
        simp only [List.length_nil] at hlen
        omega
      | some vr =>
        obtain ⟨v, bs'⟩ := vr
        have hperm : ps.Perm (p :: ps') := swapRemoveZero_perm hsw
        have hpmem : p ∈ ps := hperm.mem_iff.mpr (by simp)
        have hzip : (ps.zip bs).Perm ((p, v) :: ps'.zip bs') :=
          swapRemoveZero_perm (swapRemoveZero_zip hlen hsw hsb)
        have hlen' : ps'.length = m := by
          have := swapRemoveZero_length hsw
          omega
        have hlenb' : ps'.length = bs'.length := by
          have h1 := swapRemoveZero_length hsw
          have h2 := swapRemoveZero_length hsb
          omega
        have hfin' : ∀ q ∈ ps', finitePt q = true ∧ q.length = Dd := by
          intro q hq
          exact hfin q (hperm.mem_iff.mpr (by simp [hq]))
        obtain ⟨hpf, hpl⟩ := hfin p hpmem
        have hcnt : ps.countP (fun q => belongsB sd sv q) =
            (if belongsB sd sv p then 1 else 0) + ps'.countP (fun q => belongsB sd sv q) := by
          rw [hperm.countP_eq]
          rcases hb : belongsB sd sv p <;> simp [List.countP_cons, hb] <;> omega
        have hcnt2 : ps.countP (fun q => !belongsB sd sv q) =
            (if belongsB sd sv p then 0 else 1) +
              ps'.countP (fun q => !belongsB sd sv q) := by
          rw [hperm.countP_eq]
          rcases hb : belongsB sd sv p <;> simp [List.countP_cons, hb] <;> omega
        have hsdp : sd < p.length := by omega
        have hgetp : p[sd]? = some p[sd] := List.getElem?_eq_getElem hsdp
        have hflt : Fp.flt p[sd] sv = belongsB sd sv p := by
          rw [belongsB, hgetp]
        rw [distribute_cons hsw hsb, hgetp]
        simp only
        rcases hb : belongsB sd sv p with _ | _
        · -- goes right
          rw [hflt, hb]
          simp only [Bool.false_eq_true, if_neg, ite_false]
          have hrs : rps.length + 1 ≤ cap := by
            rw [hcnt2, hb] at hcr
            simp at hcr
            omega
          rw [show (mkLeaf cap rminb rmaxb rps rbs : KdTree T) =
            mk none none cap rps.length rminb rmaxb none none (some rps) (some rbs)
            from rfl]
          rw [atb_small f hrs]
          have hR' := LeafState_extend (v := v) hR hpf hpl
          have := ih ps' bs' lminb lmaxb (extendMin rminb p) (extendMax rmaxb p)
            lps lbs (rps ++ [p]) (rbs ++ [v]) f hlen' hlenb' hfin' hL hR'
            (by simp [hcnt, hb] at hcl ⊢; omega)
            (by simp [hcnt2, hb] at hcr ⊢; omega)
          obtain ⟨A, B, C, E, F, G, H, I, heq, hLS1, hLS2, hc1, hc2, hpm⟩ := this
          refine ⟨A, B, C, E, F, G, H, I, ?_, hLS1, hLS2, ?_, ?_, ?_⟩
          · rw [show (mk none none cap (rps.length + 1) (extendMin rminb p)
                (extendMax rmaxb p) none none (some (rps ++ [p])) (some (rbs ++ [v]))
                  : KdTree T) =
              mkLeaf cap (extendMin rminb p) (extendMax rmaxb p) (rps ++ [p]) (rbs ++ [v])
              from by simp [mkLeaf]]
            exact heq
          · simp [hcnt, hb] at hc1 ⊢; omega
          · simp [hcnt2, hb] at hc2 ⊢; omega
          · refine hpm.trans ?_
            have hz : (rps ++ [p]).zip (rbs ++ [v]) = rps.zip rbs ++ [(p, v)] := by
              rw [List.zip_append (by simpa using hR.1)]
              rfl
            rw [hz]
            exact (permHelpR (lps.zip lbs) (rps.zip rbs) (ps'.zip bs') (p, v)).trans
              (List.Perm.append_left _ hzip.symm)
        · -- goes left
          rw [hflt, hb]
          simp only [if_pos]
          have hls : lps.length + 1 ≤ cap := by
            rw [hcnt, hb] at hcl
            simp at hcl
            omega
          rw [show (mkLeaf cap lminb lmaxb lps lbs : KdTree T) =
            mk none none cap lps.length lminb lmaxb none none (some lps) (some lbs)
            from rfl]
          rw [atb_small f hls]
          have hL' := LeafState_extend (v := v) hL hpf hpl
          have := ih ps' bs' (extendMin lminb p) (extendMax lmaxb p) rminb rmaxb
            (lps ++ [p]) (lbs ++ [v]) rps rbs f hlen' hlenb' hfin' hL' hR
            (by simp [hcnt, hb] at hcl ⊢; omega)
            (by simp [hcnt2, hb] at hcr ⊢; omega)
          obtain ⟨A, B, C, E, F, G, H, I, heq, hLS1, hLS2, hc1, hc2, hpm⟩ := this
          refine ⟨A, B, C, E, F, G, H, I, ?_, hLS1, hLS2, ?_, ?_, ?_⟩
          · rw [show (mk none none cap (lps.length + 1) (extendMin lminb p)
                (extendMax lmaxb p) none none (some (lps ++ [p])) (some (lbs ++ [v]))
                  : KdTree T) =
              mkLeaf cap (extendMin lminb p) (extendMax lmaxb p) (lps ++ [p]) (lbs ++ [v])
              from by simp [mkLeaf]]
            exact heq
          · simp [hcnt, hb] at hc1 ⊢; omega
          · simp [hcnt2, hb] at hc2 ⊢; omega
          · refine hpm.trans ?_
            have hz : (lps ++ [p]).zip (lbs ++ [v]) = lps.zip lbs ++ [(p, v)] := by
              rw [List.zip_append (by simpa using hL.1)]
              rfl
            rw [hz]
            exact (permHelpL (lps.zip lbs) (rps.zip rbs) (ps'.zip bs') (p, v)).trans
              (List.Perm.append_left _ hzip.symm)

theorem countP_split (p : α → Bool) (l : List α) :
    l.length = l.countP p + l.countP (fun a => !p a) := by
  have h := List.length_eq_countP_add_countP (l := l) p
  rw [h]
  congr 1
  apply List.countP_congr
  intro a _
  simp

theorem exists_fin_of_isFinite {x : Fp} (h : x.isFinite = true) : ∃ q : ℚ, x = Fp.fin q := by
  cases x <;> simp_all [Fp.isFinite]

theorem extents_length (minb maxb : Point) :
    (extents minb maxb).length = min maxb.length minb.length := by
  simp [extents]

theorem extents_getElem {minb maxb : Point} {j : Nat}
    (hj : j < (extents minb maxb).length) (h1 : j < maxb.length) (h2 : j < minb.length) :
    (extents minb maxb)[j] = Fp.sub maxb[j] minb[j] := by
  simp [extents]

theorem midpoint_strict {a b : ℚ} (h : a < b) : a < (a + b) / 2 ∧ (a + b) / 2 < b := by
  constructor <;> linarith

/-- The midpoint formula on finite scalars is the exact midpoint. -/
theorem split_value_midpoint (a b : ℚ) :
    Fp.add (Fp.fin a) (Fp.div2 (Fp.sub (Fp.fin b) (Fp.fin a))) = Fp.fin ((a + b) / 2) := by
  simp only [Fp.sub, Fp.neg, Fp.add, Fp.div2]
  ring_nf

/-- Splitting a leaf whose bounds are attained by its own points (the state
`LeafState`) with `capacity + 1` entries: either the split is abandoned with
degenerate equal bounds, or the node becomes a stem of two well-formed leaves
each holding at most `capacity` entries.  Either way the result is
well-formed with the same size, capacity, bounds and entries. -/
theorem splitWith_achieved {Dd cap : Nat} {minb maxb : Point} {ps : List Point}
    {bs : List T} (f : Nat)
    (hL : LeafState Dd minb maxb ps bs) (hlen : ps.length = cap + 1) :
    ∃ t', splitWith (add_to_bucket (f + 1))
        (mk none none cap ps.length minb maxb none none none none) ps bs = some t' ∧
      isWFF Dd 2 t' = true ∧
      size t' = ps.length ∧ capacity t' = cap ∧
      min_bounds t' = minb ∧ max_bounds t' = maxb ∧
      (entries t').Perm (ps.zip bs) := by
  obtain ⟨h1, h2, h3, h4, h5, h6, h7, h8⟩ := hL
  have hne : ps ≠ [] := by
    intro hc
    rw [hc] at hlen
    simp at hlen
  obtain ⟨hfmin, hfmax⟩ :=
    LeafState_finite_bounds ⟨h1, h2, h3, h4, h5, h6, h7, h8⟩ hne
  obtain ⟨p0, hp0⟩ := List.exists_mem_of_ne_nil ps hne
  obtain ⟨hp0f, hp0l, hp0b⟩ := h6 p0 hp0
  have hElen : (extents minb maxb).length = Dd := by
    rw [extents_length, h2, h3]
    omega
  rcases selectDimAux_spec (extents minb maxb) with ⟨hsel, hall⟩ |
      ⟨dm, hdm, hsel, hnn, hpos, hallmax, _⟩
  · -- abandoned split: degenerate bounds
    have hbeq : minb = maxb := by
      refine List.ext_getElem (by omega) (fun j hj1 hj2 => ?_)
      have hjD : j < Dd := by omega
      obtain ⟨A, hA⟩ := exists_fin_of_isFinite (finitePt_getElem hfmin hj1)
      obtain ⟨B, hB⟩ := exists_fin_of_isFinite (finitePt_getElem hfmax hj2)
      have hjE : j < (extents minb maxb).length := by omega
      have hget : (extents minb maxb).get ⟨j, hjE⟩ = Fp.fin (B + -A) := by
        simp only [List.get_eq_getElem]
        rw [extents_getElem hjE hj2 hj1, hA, hB]
        simp [Fp.sub, Fp.neg, Fp.add]
      have hle : B ≤ A := by
        rcases hall j hjE with hh | hh
        · rw [hget] at hh; simp [Fp.isNan] at hh
        · rw [hget] at hh
          simp only [Fp.fle, Fp.zero, decide_eq_true_eq] at hh
          linarith
      have hge : A ≤ B := by
        have hib := inBounds_getElem hp0b hj1 hj2 (by omega)
        obtain ⟨C, hC⟩ :=
          exists_fin_of_isFinite (finitePt_getElem (i := j) hp0f (by omega))
        rw [hA, hC] at hib
        have g1 := hib.1
        have g2 := hib.2
        rw [hB] at g2
        simp only [Fp.fle, decide_eq_true_eq] at g1 g2
        linarith
      rw [hA, hB]
      congr 1
      linarith
    refine ⟨mk none none cap ps.length minb maxb none none (some ps) (some bs),
      ?_, ?_, rfl, rfl, rfl, rfl, by rw [entries_leaf]⟩
    · simp only [splitWith]
      rw [hsel]
    · exact isWFF_leaf_intro h2 h3 h4 h5 rfl h1
        (fun p hp => ⟨(h6 p hp).1, (h6 p hp).2.2⟩) (Or.inr hbeq)
        (Or.inr ⟨hfmin, hfmax⟩)
  · -- genuine split at dimension dm
    have hdmD : dm < Dd := by omega
    have hmn : dm < minb.length := by omega
    have hmx : dm < maxb.length := by omega
    obtain ⟨A, hA⟩ := exists_fin_of_isFinite (finitePt_getElem hfmin hmn)
    obtain ⟨B, hB⟩ := exists_fin_of_isFinite (finitePt_getElem hfmax hmx)
    have hgetE : (extents minb maxb).get ⟨dm, hdm⟩ = Fp.fin (B + -A) := by
      simp only [List.get_eq_getElem]
      rw [extents_getElem hdm hmx hmn, hA, hB]
      simp [Fp.sub, Fp.neg, Fp.add]
    have hAB : A < B := by
      rw [hgetE] at hpos
      simp only [Fp.flt, Fp.zero, decide_eq_true_eq] at hpos
      linarith
    have hsv : Fp.add minb[dm] (Fp.div2 (Fp.sub maxb[dm] minb[dm])) =
        Fp.fin ((A + B) / 2) := by
      rw [hA, hB]
      exact split_value_midpoint A B
    obtain ⟨hmid1, hmid2⟩ := midpoint_strict hAB
    -- the two counts are both positive, hence both at most cap
    have hminb_dm : minb[dm] ≠ Fp.pinf := by
      have := finitePt_getElem hfmin hmn
      intro hc; rw [hc] at this; simp [Fp.isFinite] at this
    have hmaxb_dm : maxb[dm] ≠ Fp.ninf := by
      have := finitePt_getElem hfmax hmx
      intro hc; rw [hc] at this; simp [Fp.isFinite] at this
    obtain ⟨pmin, hpmin, hpminc⟩ : ∃ p ∈ ps, p[dm]? = some minb[dm] := by
      rcases h7 dm hmn with hh | hh
      · exact absurd hh hminb_dm
      · exact hh
    obtain ⟨pmax, hpmax, hpmaxc⟩ : ∃ p ∈ ps, p[dm]? = some maxb[dm] := by
      rcases h8 dm hmx with hh | hh
      · exact absurd hh hmaxb_dm
      · exact hh
    have hbelmin : belongsB dm (Fp.fin ((A + B) / 2)) pmin = true := by
      rw [belongsB, hpminc, hA]
      simp only [Fp.flt, decide_eq_true_eq]
      exact hmid1
    have hbelmax : belongsB dm (Fp.fin ((A + B) / 2)) pmax = false := by
      rw [belongsB, hpmaxc, hB]
      simp only [Fp.flt, decide_eq_false_iff_not, decide_eq_true_eq]
      intro hc
      linarith
    have hcL1 : 0 < ps.countP (fun p => belongsB dm (Fp.fin ((A + B) / 2)) p) :=
      List.countP_pos.mpr ⟨pmin, hpmin, hbelmin⟩
    have hcR1 : 0 < ps.countP (fun p => !belongsB dm (Fp.fin ((A + B) / 2)) p) :=
      List.countP_pos.mpr ⟨pmax, hpmax, by rw [hbelmax]; rfl⟩
    have hcsum := countP_split (fun p => belongsB dm (Fp.fin ((A + B) / 2)) p) ps
    have hcL : ps.countP (fun p => belongsB dm (Fp.fin ((A + B) / 2)) p) ≤ cap := by
      omega
    have hcR : ps.countP (fun p => !belongsB dm (Fp.fin ((A + B) / 2)) p) ≤ cap := by
      omega
    have hdist := @distribute_no_overflow T _ cap _ (Fp.fin ((A + B) / 2)) hdmD
      ps.length ps bs (List.replicate Dd Fp.pinf) (List.replicate Dd Fp.ninf)
      (List.replicate Dd Fp.pinf) (List.replicate Dd Fp.ninf) [] [] [] [] f rfl h1
      (fun p hp => ⟨(h6 p hp).1, (h6 p hp).2.1⟩) (LeafState_nil Dd) (LeafState_nil Dd)
      (by simpa using hcL) (by simpa using hcR)
    obtain ⟨lmb, lxb, lps', lbs', rmb, rxb, rps', rbs', heq, hLS1, hLS2, hc1, hc2, hpm⟩ :=
      hdist
    have hpm' : (lps'.zip lbs' ++ rps'.zip rbs').Perm (ps.zip bs) := by
      simpa using hpm
    refine ⟨mk (some (mkLeaf cap lmb lxb lps' lbs')) (some (mkLeaf cap rmb rxb rps' rbs'))
      cap ps.length minb maxb (some (Fp.fin ((A + B) / 2))) (some dm) none none,
      ?_, ?_, rfl, rfl, rfl, rfl, ?_⟩
    · simp only [splitWith]
      rw [hsel]
      simp only [List.getElem?_eq_getElem hmn, List.getElem?_eq_getElem hmx]
      rw [h2, show (with_capacity Dd cap : KdTree T) =
        mkLeaf cap (List.replicate Dd Fp.pinf) (List.replicate Dd Fp.ninf) [] [] from rfl]
      rw [hA, hB, split_value_midpoint A B, heq]
    · refine isWFF_stem_intro h2 h3 h4 h5 hdmD rfl ?_ rfl rfl hfmin hfmax
        (LeafState_isWFF hLS1 (Or.inl (by simp only [List.length_nil] at hc1; omega)))
        (LeafState_isWFF hLS2 (Or.inl (by simp only [List.length_nil] at hc2; omega)))
        ?_
      · simp only [size, mkLeaf]
        simp only [List.length_nil] at hc1 hc2
        omega
      · intro e he
        simp only [mkLeaf, entries_leaf] at he
        have : e ∈ ps.zip bs := hpm'.mem_iff.mp he
        have hm := List.of_mem_zip this
        exact (h6 e.1 hm.1).2.2
    · simp only [entries_stem, mkLeaf, entries_leaf]
      exact hpm'

theorem atb_over {cap sz : Nat} {minb maxb : Point} {ps : List Point}
    {bs : List T} {p : Point} {v : T} (f : Nat) (hsz : sz + 1 > cap) :
    add_to_bucket (f + 1) (mk none none cap sz minb maxb none none (some ps) (some bs))
        p v =
      splitWith (add_to_bucket f) (mk none none cap (sz + 1) (extendMin minb p)
        (extendMax maxb p) none none none none) (ps ++ [p]) (bs ++ [v]) := by
  simp [add_to_bucket, hsz]

/-- Redistribution when every entry routes right: the left child is untouched
and the right child receives all entries one at a time; the only possible
split is on the very last entry (the right child's bounds being attained by
its own points), so the result is well-formed. -/
theorem distribute_all_right {Dd cap sd : Nat} {sv : Fp} (hsd : sd < Dd)
    (hcap : 0 < cap) :
    ∀ (n : Nat) (ps : List Point) (bs : List T)
      (rminb rmaxb : Point) (rps : List Point) (rbs : List T) (lc : KdTree T) (f : Nat),
      ps.length = n →
      ps.length = bs.length →
      (∀ p ∈ ps, finitePt p = true ∧ p.length = Dd ∧ belongsB sd sv p = false) →
      LeafState Dd rminb rmaxb rps rbs →
      rps.length + ps.length ≤ cap + 1 →
      (ps.length = 0 → rps.length ≤ cap) →
      ∃ t', distribute (add_to_bucket (f + 2)) sd sv ps bs lc
          (mkLeaf cap rminb rmaxb rps rbs) = some (lc, t') ∧
        isWFF Dd 2 t' = true ∧
        size t' = rps.length + ps.length ∧ capacity t' = cap ∧
        (entries t').Perm (rps.zip rbs ++ ps.zip bs) := by
  intro n
  induction n with
  | zero =>
    intro ps bs rminb rmaxb rps rbs lc f hn hlen hfin hR htot hz
    have hps : ps = [] := List.length_eq_zero.mp hn
    subst hps
    refine ⟨mkLeaf cap rminb rmaxb rps rbs, distribute_nil _ _ _ _ _ _,
      LeafState_isWFF hR (Or.inl (hz rfl)), by simp [mkLeaf, size], rfl,
      by simp only [mkLeaf, entries_leaf]; simp⟩
  | succ m ih =>
    intro ps bs rminb rmaxb rps rbs lc f hn hlen hfin hR htot hz
    cases hsw : swapRemoveZero ps with
    | none =>
      rw [swapRemoveZero_none] at hsw
      subst hsw
      simp at hn
    | some pr =>
      obtain ⟨p, ps'⟩ := pr
      cases hsb : swapRemoveZero bs with
      | none =>
        rw [swapRemoveZero_none] at hsb
        subst hsb
        simp only [List.length_nil] at hlen
        omega
      | some vr =>
        obtain ⟨v, bs'⟩ := vr
        have hperm : ps.Perm (p :: ps') := swapRemoveZero_perm hsw
        have hpmem : p ∈ ps := hperm.mem_iff.mpr (by simp)
        have hzip : (ps.zip bs).Perm ((p, v) :: ps'.zip bs') :=
          swapRemoveZero_perm (swapRemoveZero_zip hlen hsw hsb)
        have hlen' : ps'.length = m := by
          have := swapRemoveZero_length hsw
          omega
        have hlenb' : ps'.length = bs'.length := by
          have g1 := swapRemoveZero_length hsw
          have g2 := swapRemoveZero_length hsb
          omega
        have hfin' : ∀ x ∈ ps', finitePt x = true ∧ x.length = Dd ∧
            belongsB sd sv x = false := by
          intro x hx
          exact hfin x (hperm.mem_iff.mpr (by simp [hx]))
        obtain ⟨hpf, hpl, hpb⟩ := hfin p hpmem
        have hsdp : sd < p.length := by omega
        have hgetp : p[sd]? = some p[sd] := List.getElem?_eq_getElem hsdp
        have hflt : Fp.flt p[sd] sv = false := by
          rw [belongsB, hgetp] at hpb
          exact hpb
        rw [distribute_cons hsw hsb, hgetp]
        simp only [hflt, Bool.false_eq_true, if_false]
        rcases Nat.lt_or_ge (rps.length + 1) (cap + 1) with hsmall | hbig
        · -- the right child stays below capacity: plain append
          rw [show (mkLeaf cap rminb rmaxb rps rbs : KdTree T) =
            mk none none cap rps.length rminb rmaxb none none (some rps) (some rbs)
            from rfl]
          rw [atb_small (f + 1) (by omega)]
          have hR' := LeafState_extend (v := v) hR hpf hpl
          have := ih ps' bs' (extendMin rminb p) (extendMax rmaxb p)
            (rps ++ [p]) (rbs ++ [v]) lc f hlen' hlenb' hfin' hR'
            (by simp only [List.length_append, List.length_cons, List.length_nil]; omega)
            (fun _ => by
              simp only [List.length_append, List.length_cons, List.length_nil]
              omega)
          obtain ⟨t', heq, hwf, hsz, hcp, hpm⟩ := this
          refine ⟨t', ?_, hwf, by simp only [hsz]; simp; omega, hcp, ?_⟩
          · rw [show (mk none none cap (rps.length + 1) (extendMin rminb p)
                (extendMax rmaxb p) none none (some (rps ++ [p])) (some (rbs ++ [v]))
                  : KdTree T) =
              mkLeaf cap (extendMin rminb p) (extendMax rmaxb p) (rps ++ [p]) (rbs ++ [v])
              from by simp [mkLeaf]]
            exact heq
          · refine hpm.trans ?_
            have hz : (rps ++ [p]).zip (rbs ++ [v]) = rps.zip rbs ++ [(p, v)] := by
              rw [List.zip_append (by simpa using hR.1)]
              rfl
            rw [hz, List.append_assoc]
            refine List.Perm.append_left _ ?_
            exact (List.Perm.refl _).trans hzip.symm
        · -- the right child is exactly full: this entry forces the split,
          -- and it must be the last entry
          have hlast : m = 0 := by omega
          have hone : ps' = [] := List.length_eq_zero.mp (by omega)
          subst hone
          have hbs' : bs' = [] := List.length_eq_zero.mp (by omega)
          subst hbs'
          have hrfull : rps.length = cap := by omega
          rw [show (mkLeaf cap rminb rmaxb rps rbs : KdTree T) =
            mk none none cap rps.length rminb rmaxb none none (some rps) (some rbs)
            from rfl]
          rw [atb_over (f + 1) (by omega)]
          have hR' := LeafState_extend (v := v) hR hpf hpl
          have hfull : (rps ++ [p]).length = cap + 1 := by
            simp [hrfull]
          obtain ⟨t', heq, hwf, hsz, hcp, hmb, hxb, hpm⟩ := splitWith_achieved f hR' hfull
          rw [show (mk none none cap (rps.length + 1) (extendMin rminb p)
              (extendMax rmaxb p) none none none none : KdTree T) =
            mk none none cap (rps ++ [p]).length (extendMin rminb p)
              (extendMax rmaxb p) none none none none from by simp]
          rw [heq]
          refine ⟨t', distribute_nil _ _ _ _ _ _, hwf, ?_, hcp, ?_⟩
          · rw [hsz]
            simp only [List.length_append, List.length_cons, List.length_nil]
            omega
          · refine hpm.trans ?_
            have hz : (rps ++ [p]).zip (rbs ++ [v]) = rps.zip rbs ++ [(p, v)] := by
              rw [List.zip_append (by simpa using hR.1)]
              rfl
            rw [hz]
            refine List.Perm.append_left _ ?_
            exact (List.Perm.refl _).trans hzip.symm

/-- Redistribution when every entry routes left (mirror image of
`distribute_all_right`). -/
theorem distribute_all_left {Dd cap sd : Nat} {sv : Fp} (hsd : sd < Dd)
    (hcap : 0 < cap) :
    ∀ (n : Nat) (ps : List Point) (bs : List T)
      (lminb lmaxb : Point) (lps : List Point) (lbs : List T) (rc : KdTree T) (f : Nat),
      ps.length = n →
      ps.length = bs.length →
      (∀ p ∈ ps, finitePt p = true ∧ p.length = Dd ∧ belongsB sd sv p = true) →
      LeafState Dd lminb lmaxb lps lbs →
      lps.length + ps.length ≤ cap + 1 →
      (ps.length = 0 → lps.length ≤ cap) →
      ∃ t', distribute (add_to_bucket (f + 2)) sd sv ps bs
          (mkLeaf cap lminb lmaxb lps lbs) rc = some (t', rc) ∧
        isWFF Dd 2 t' = true ∧
        size t' = lps.length + ps.length ∧ capacity t' = cap ∧
        (entries t').Perm (lps.zip lbs ++ ps.zip bs) := by
  intro n
  induction n with
  | zero =>
    intro ps bs lminb lmaxb lps lbs rc f hn hlen hfin hL htot hz
    have hps : ps = [] := List.length_eq_zero.mp hn
    subst hps
    refine ⟨mkLeaf cap lminb lmaxb lps lbs, distribute_nil _ _ _ _ _ _,
      LeafState_isWFF hL (Or.inl (hz rfl)), by simp [mkLeaf, size], rfl,
      by simp only [mkLeaf, entries_leaf]; simp⟩
  | succ m ih =>
    intro ps bs lminb lmaxb lps lbs rc f hn hlen hfin hL htot hz
    cases hsw : swapRemoveZero ps with
    | none =>
      rw [swapRemoveZero_none] at hsw
      subst hsw
      simp at hn
    | some pr =>
      obtain ⟨p, ps'⟩ := pr
      cases hsb : swapRemoveZero bs with
      | none =>
        rw [swapRemoveZero_none] at hsb
        subst hsb
        simp only [List.length_nil] at hlen
        omega
      | some vr =>
        obtain ⟨v, bs'⟩ := vr
        have hperm : ps.Perm (p :: ps') := swapRemoveZero_perm hsw
        have hpmem : p ∈ ps := hperm.mem_iff.mpr (by simp)
        have hzip : (ps.zip bs).Perm ((p, v) :: ps'.zip bs') :=
          swapRemoveZero_perm (swapRemoveZero_zip hlen hsw hsb)
        have hlen' : ps'.length = m := by
          have := swapRemoveZero_length hsw
          omega
        have hlenb' : ps'.length = bs'.length := by
          have g1 := swapRemoveZero_length hsw
          have g2 := swapRemoveZero_length hsb
          omega
        have hfin' : ∀ x ∈ ps', finitePt x = true ∧ x.length = Dd ∧
            belongsB sd sv x = true := by
          intro x hx
          exact hfin x (hperm.mem_iff.mpr (by simp [hx]))
        obtain ⟨hpf, hpl, hpb⟩ := hfin p hpmem
        have hsdp : sd < p.length := by omega
        have hgetp : p[sd]? = some p[sd] := List.getElem?_eq_getElem hsdp
        have hflt : Fp.flt p[sd] sv = true := by
          rw [belongsB, hgetp] at hpb
          exact hpb
        rw [distribute_cons hsw hsb, hgetp]
        simp only [hflt, if_true]
        rcases Nat.lt_or_ge (lps.length + 1) (cap + 1) with hsmall | hbig
        · rw [show (mkLeaf cap lminb lmaxb lps lbs : KdTree T) =
            mk none none cap lps.length lminb lmaxb none none (some lps) (some lbs)
            from rfl]
          rw [atb_small (f + 1) (by omega)]
          have hL' := LeafState_extend (v := v) hL hpf hpl
          have := ih ps' bs' (extendMin lminb p) (extendMax lmaxb p)
            (lps ++ [p]) (lbs ++ [v]) rc f hlen' hlenb' hfin' hL'
            (by simp only [List.length_append, List.length_cons, List.length_nil]; omega)
            (fun _ => by
              simp only [List.length_append, List.length_cons, List.length_nil]
              omega)
          obtain ⟨t', heq, hwf, hsz, hcp, hpm⟩ := this
          refine ⟨t', ?_, hwf, by simp only [hsz]; simp; omega, hcp, ?_⟩
          · rw [show (mk none none cap (lps.length + 1) (extendMin lminb p)
                (extendMax lmaxb p) none none (some (lps ++ [p])) (some (lbs ++ [v]))
                  : KdTree T) =
              mkLeaf cap (extendMin lminb p) (extendMax lmaxb p) (lps ++ [p]) (lbs ++ [v])
              from by simp [mkLeaf]]
            exact heq
          · refine hpm.trans ?_
            have hz : (lps ++ [p]).zip (lbs ++ [v]) = lps.zip lbs ++ [(p, v)] := by
              rw [List.zip_append (by simpa using hL.1)]
              rfl
            rw [hz, List.append_assoc]
            refine List.Perm.append_left _ ?_
            exact (List.Perm.refl _).trans hzip.symm
        · have hlast : m = 0 := by omega
          have hone : ps' = [] := List.length_eq_zero.mp (by omega)
          subst hone
          have hbs' : bs' = [] := List.length_eq_zero.mp (by omega)
          subst hbs'
          have hlfull : lps.length = cap := by omega
          rw [show (mkLeaf cap lminb lmaxb lps lbs : KdTree T) =
            mk none none cap lps.length lminb lmaxb none none (some lps) (some lbs)
            from rfl]
          rw [atb_over (f + 1) (by omega)]
          have hL' := LeafState_extend (v := v) hL hpf hpl
          have hfull : (lps ++ [p]).length = cap + 1 := by
            simp [hlfull]
          obtain ⟨t', heq, hwf, hsz, hcp, hmb, hxb, hpm⟩ := splitWith_achieved f hL' hfull
          rw [show (mk none none cap (lps.length + 1) (extendMin lminb p)
              (extendMax lmaxb p) none none none none : KdTree T) =
            mk none none cap (lps ++ [p]).length (extendMin lminb p)
              (extendMax lmaxb p) none none none none from by simp]
          rw [heq]
          refine ⟨t', distribute_nil _ _ _ _ _ _, hwf, ?_, hcp, ?_⟩
          · rw [hsz]
            simp only [List.length_append, List.length_cons, List.length_nil]
            omega
          · refine hpm.trans ?_
            have hz : (lps ++ [p]).zip (lbs ++ [v]) = lps.zip lbs ++ [(p, v)] := by
              rw [List.zip_append (by simpa using hL.1)]
              rfl
            rw [hz]
            refine List.Perm.append_left _ ?_
            exact (List.Perm.refl _).trans hzip.symm

theorem extendMin_self (b : Point) : extendMin b b = b := by
  induction b with
  | nil => rfl
  | cons x xs ih => simp [extendMin, ih]

theorem extendMax_self (b : Point) : extendMax b b = b := by
  induction b with
  | nil => rfl
  | cons x xs ih => simp [extendMax, ih]

theorem extendMin_replicate_pinf {p : Point} (hf : finitePt p = true) :
    extendMin (List.replicate p.length Fp.pinf) p = p := by
  induction p with
  | nil => rfl
  | cons x xs ih =>
    simp only [finitePt, List.all_cons, Bool.and_eq_true] at hf
    have hx : Fp.flt x Fp.pinf = true := Fp.flt_pinf_of_finite hf.1
    simp only [List.length_cons, List.replicate_succ, extendMin, hx, if_pos]
    rw [ih (by simpa [finitePt] using hf.2)]

theorem extendMax_replicate_ninf {p : Point} (hf : finitePt p = true) :
    extendMax (List.replicate p.length Fp.ninf) p = p := by
  induction p with
  | nil => rfl
  | cons x xs ih =>
    simp only [finitePt, List.all_cons, Bool.and_eq_true] at hf
    have hx : Fp.flt Fp.ninf x = true := Fp.ninf_flt_of_finite hf.1
    simp only [List.length_cons, List.replicate_succ, extendMax, hx, if_pos]
    rw [ih (by simpa [finitePt] using hf.2)]

theorem inBounds_refl {b : Point} (hf : finitePt b = true) : inBounds b b b = true := by
  induction b with
  | nil => rfl
  | cons x xs ih =>
    simp only [finitePt, List.all_cons, Bool.and_eq_true] at hf
    have hx := Fp.fle_refl (Fp.not_nan_of_isFinite hf.1)
    simp only [inBounds, Bool.and_eq_true]
    exact ⟨⟨hx, hx⟩, ih (by simpa [finitePt] using hf.2)⟩

theorem eq_of_inBounds_self : ∀ {b p : Point}, inBounds b b p = true → p = b := by
  intro b
  induction b with
  | nil => intro p h; cases p <;> simp_all [inBounds]
  | cons x xs ih =>
    intro p h
    cases p with
    | nil => simp [inBounds] at h
    | cons y ys =>
      simp only [inBounds, Bool.and_eq_true] at h
      have hxy : y = x := Fp.fle_antisymm h.1.2 h.1.1
      rw [hxy, ih h.2]

/-- Redistribution of a list whose left-routed entries all equal a single
point `π` (the state of an oversized leaf being re-split after an insertion):
the left child only ever holds copies of `π` with degenerate bounds — splits
of it are always abandoned — while the right child stays a within-capacity
leaf built from its own points. -/
theorem distribute_pi_left {Dd cap sd : Nat} {sv : Fp} {pp : Point}
    (hsd : sd < Dd) (hcap : 0 < cap)
    (hppf : finitePt pp = true) (hppl : pp.length = Dd)
    (hppb : belongsB sd sv pp = true) :
    ∀ (n : Nat) (ps : List Point) (bs : List T)
      (k : Nat) (lminb lmaxb : Point) (lbs : List T)
      (rminb rmaxb : Point) (rps : List Point) (rbs : List T) (f : Nat),
      ps.length = n →
      ps.length = bs.length →
      (∀ p ∈ ps, p = pp ∨
        (belongsB sd sv p = false ∧ finitePt p = true ∧ p.length = Dd)) →
      lbs.length = k →
      ((k = 0 ∧ lminb = List.replicate Dd Fp.pinf ∧
          lmaxb = List.replicate Dd Fp.ninf) ∨
        (0 < k ∧ lminb = pp ∧ lmaxb = pp)) →
      LeafState Dd rminb rmaxb rps rbs →
      rps.length + ps.countP (fun p => !belongsB sd sv p) ≤ cap →
      ∃ k' lminb' lmaxb' lbs' rminb' rmaxb' rps' rbs',
        distribute (add_to_bucket (f + 1)) sd sv ps bs
          (mk none none cap k lminb lmaxb none none
            (some (List.replicate k pp)) (some lbs))
          (mkLeaf cap rminb rmaxb rps rbs) =
          some (mk none none cap k' lminb' lmaxb' none none
              (some (List.replicate k' pp)) (some lbs'),
            mkLeaf cap rminb' rmaxb' rps' rbs') ∧
        lbs'.length = k' ∧
        ((k' = 0 ∧ lminb' = List.replicate Dd Fp.pinf ∧
            lmaxb' = List.replicate Dd Fp.ninf) ∨
          (0 < k' ∧ lminb' = pp ∧ lmaxb' = pp)) ∧
        LeafState Dd rminb' rmaxb' rps' rbs' ∧
        k' = k + ps.countP (fun p => belongsB sd sv p) ∧
        rps'.length = rps.length + ps.countP (fun p => !belongsB sd sv p) ∧
        ((List.replicate k' pp).zip lbs' ++ rps'.zip rbs').Perm
          (((List.replicate k pp).zip lbs ++ rps.zip rbs) ++ ps.zip bs) := by
  intro n
  induction n with
  | zero =>
    intro ps bs k lminb lmaxb lbs rminb rmaxb rps rbs f hn hlen hfin hlk hLst hR hcr
    have hps : ps = [] := List.length_eq_zero.mp hn
    subst hps
    exact ⟨k, lminb, lmaxb, lbs, rminb, rmaxb, rps, rbs, distribute_nil _ _ _ _ _ _,
      hlk, hLst, hR, by simp, by simp, by simp⟩
  | succ m ih =>
    intro ps bs k lminb lmaxb lbs rminb rmaxb rps rbs f hn hlen hfin hlk hLst hR hcr
    cases hsw : swapRemoveZero ps with
    | none =>
      rw [swapRemoveZero_none] at hsw
      subst hsw
      simp at hn
    | some pr =>
      obtain ⟨p, ps'⟩ := pr
      cases hsb : swapRemoveZero bs with
      | none =>
        rw [swapRemoveZero_none] at hsb
        subst hsb
        simp only [List.length_nil] at hlen
        omega
      | some vr =>
        obtain ⟨v, bs'⟩ := vr
        have hperm : ps.Perm (p :: ps') := swapRemoveZero_perm hsw
        have hpmem : p ∈ ps := hperm.mem_iff.mpr (by simp)
        have hzip : (ps.zip bs).Perm ((p, v) :: ps'.zip bs') :=
          swapRemoveZero_perm (swapRemoveZero_zip hlen hsw hsb)
        have hlen' : ps'.length = m := by
          have := swapRemoveZero_length hsw
          omega
        have hlenb' : ps'.length = bs'.length := by
          have g1 := swapRemoveZero_length hsw
          have g2 := swapRemoveZero_length hsb
          omega
        have hfin' : ∀ x ∈ ps', x = pp ∨
            (belongsB sd sv x = false ∧ finitePt x = true ∧ x.length = Dd) := by
          intro x hx
          exact hfin x (hperm.mem_iff.mpr (by simp [hx]))
        rcases hfin p hpmem with hppe | ⟨hbF, hpf, hpl⟩
        · -- the entry is a copy of `pp` and routes left
          subst hppe
          have hcA : ps.countP (fun q => belongsB sd sv q) =
              ps'.countP (fun q => belongsB sd sv q) + 1 := by
            rw [hperm.countP_eq]
            simp [List.countP_cons, hppb]
          have hcB : ps.countP (fun q => !belongsB sd sv q) =
              ps'.countP (fun q => !belongsB sd sv q) := by
            rw [hperm.countP_eq]
            simp [List.countP_cons, hppb]
          have hsdp : sd < p.length := by omega
          have hgetp : p[sd]? = some p[sd] := List.getElem?_eq_getElem hsdp
          have hflt : Fp.flt p[sd] sv = true := by
            rw [belongsB, hgetp] at hppb
            exact hppb
          rw [distribute_cons hsw hsb, hgetp]
          simp only [hflt, if_true]
          -- the new left bounds are (p, p) in either starting state
          have hbounds : extendMin lminb p = p ∧ extendMax lmaxb p = p := by
            rcases hLst with ⟨hk0, hmn, hmx⟩ | ⟨hkpos, hmn, hmx⟩
            · rw [hmn, hmx, ← hppl]
              exact ⟨extendMin_replicate_pinf hppf, extendMax_replicate_ninf hppf⟩
            · rw [hmn, hmx]
              exact ⟨extendMin_self p, extendMax_self p⟩
          have hstep : add_to_bucket (f + 1)
              (mk none none cap k lminb lmaxb none none
                (some (List.replicate k p)) (some lbs)) p v =
              some (mk none none cap (k + 1) p p none none
                (some (List.replicate (k + 1) p)) (some (lbs ++ [v]))) := by
            rcases Nat.lt_or_ge k cap with hkc | hkc
            · rw [atb_small f (by omega), hbounds.1, hbounds.2, ← List.replicate_succ']
            · have hkpos : 0 < k := by omega
              rcases hLst with ⟨hk0, _, _⟩ | ⟨_, hmn, hmx⟩
              · omega
              · rw [atb_abandon f (by omega) ?_, hbounds.1, hbounds.2,
                  ← List.replicate_succ']
                rw [hbounds.1, hbounds.2]
                exact extents_self_le_zero hppf
          rw [hstep]
          have := ih ps' bs' (k + 1) p p (lbs ++ [v]) rminb rmaxb rps rbs f
            hlen' hlenb' hfin' (by simp [hlk]) (Or.inr ⟨by omega, rfl, rfl⟩) hR
            (by rw [hcB] at hcr; exact hcr)
          obtain ⟨k', A, B, C, E, F, G, H, heq, hlk', hLst', hR', hc1, hc2, hpm⟩ := this
          refine ⟨k', A, B, C, E, F, G, H, heq, hlk', hLst', hR', ?_, ?_, ?_⟩
          · rw [hcA]
            omega
          · rw [hcB]
            exact hc2
          · refine hpm.trans ?_
            have hz : (List.replicate (k + 1) p).zip (lbs ++ [v]) =
                (List.replicate k p).zip lbs ++ [(p, v)] := by
              rw [List.replicate_succ', List.zip_append (by simp [hlk])]
              rfl
            rw [hz]
            exact (permHelpL ((List.replicate k p).zip lbs) (rps.zip rbs)
              (ps'.zip bs') (p, v)).trans (List.Perm.append_left _ hzip.symm)
        · -- the entry routes right
          have hsdp : sd < p.length := by omega
          have hgetp : p[sd]? = some p[sd] := List.getElem?_eq_getElem hsdp
          have hflt : Fp.flt p[sd] sv = false := by
            rw [belongsB, hgetp] at hbF
            exact hbF
          rw [distribute_cons hsw hsb, hgetp]
          simp only [hflt, Bool.false_eq_true, if_false]
          have hcA : ps.countP (fun q => belongsB sd sv q) =
              ps'.countP (fun q => belongsB sd sv q) := by
            rw [hperm.countP_eq]
            simp [List.countP_cons, hbF]
          have hcB : ps.countP (fun q => !belongsB sd sv q) =
              ps'.countP (fun q => !belongsB sd sv q) + 1 := by
            rw [hperm.countP_eq]
            simp [List.countP_cons, hbF]
          have hrs : rps.length + 1 ≤ cap := by
            rw [hcB] at hcr
            omega
          rw [show (mkLeaf cap rminb rmaxb rps rbs : KdTree T) =
            mk none none cap rps.length rminb rmaxb none none (some rps) (some rbs)
            from rfl]
          rw [atb_small f hrs]
          have hR' := LeafState_extend (v := v) hR hpf hpl
          have := ih ps' bs' k lminb lmaxb lbs (extendMin rminb p) (extendMax rmaxb p)
            (rps ++ [p]) (rbs ++ [v]) f hlen' hlenb' hfin' hlk hLst hR'
            (by
              rw [hcB] at hcr
              simp only [List.length_append, List.length_cons, List.length_nil]
              omega)
          obtain ⟨k', A, B, C, E, F, G, H, heq, hlk', hLst', hR', hc1, hc2, hpm⟩ := this
          refine ⟨k', A, B, C, E, F, G, H, ?_, hlk', hLst', hR', ?_, ?_, ?_⟩
          · rw [show (mk none none cap (rps.length + 1) (extendMin rminb p)
                (extendMax rmaxb p) none none (some (rps ++ [p])) (some (rbs ++ [v]))
                  : KdTree T) =
              mkLeaf cap (extendMin rminb p) (extendMax rmaxb p) (rps ++ [p]) (rbs ++ [v])
              from by simp [mkLeaf]]
            exact heq
          · rw [hcA]
            exact hc1
          · rw [hcB]
            simp only [List.length_append, List.length_cons, List.length_nil] at hc2
            omega
          · refine hpm.trans ?_
            have hz : (rps ++ [p]).zip (rbs ++ [v]) = rps.zip rbs ++ [(p, v)] := by
              rw [List.zip_append (by simpa using hR.1)]
              rfl
            rw [hz]
            exact (permHelpR ((List.replicate k pp).zip lbs) (rps.zip rbs)
              (ps'.zip bs') (p, v)).trans (List.Perm.append_left _ hzip.symm)

/-- Mirror image of `distribute_pi_left`: the cluster of identical points
routes right, the remaining entries route left into a within-capacity leaf. -/
theorem distribute_pi_right {Dd cap sd : Nat} {sv : Fp} {pp : Point}
    (hsd : sd < Dd) (hcap : 0 < cap)
    (hppf : finitePt pp = true) (hppl : pp.length = Dd)
    (hppb : belongsB sd sv pp = false) :
    ∀ (n : Nat) (ps : List Point) (bs : List T)
      (k : Nat) (rminb rmaxb : Point) (rbs : List T)
      (lminb lmaxb : Point) (lps : List Point) (lbs : List T) (f : Nat),
      ps.length = n →
      ps.length = bs.length →
      (∀ p ∈ ps, p = pp ∨
        (belongsB sd sv p = true ∧ finitePt p = true ∧ p.length = Dd)) →
      rbs.length = k →
      ((k = 0 ∧ rminb = List.replicate Dd Fp.pinf ∧
          rmaxb = List.replicate Dd Fp.ninf) ∨
        (0 < k ∧ rminb = pp ∧ rmaxb = pp)) →
      LeafState Dd lminb lmaxb lps lbs →
      lps.length + ps.countP (fun p => belongsB sd sv p) ≤ cap →
      ∃ k' rminb' rmaxb' rbs' lminb' lmaxb' lps' lbs',
        distribute (add_to_bucket (f + 1)) sd sv ps bs
          (mkLeaf cap lminb lmaxb lps lbs)
          (mk none none cap k rminb rmaxb none none
            (some (List.replicate k pp)) (some rbs)) =
          some (mkLeaf cap lminb' lmaxb' lps' lbs',
            mk none none cap k' rminb' rmaxb' none none
              (some (List.replicate k' pp)) (some rbs')) ∧
        rbs'.length = k' ∧
        ((k' = 0 ∧ rminb' = List.replicate Dd Fp.pinf ∧
            rmaxb' = List.replicate Dd Fp.ninf) ∨
          (0 < k' ∧ rminb' = pp ∧ rmaxb' = pp)) ∧
        LeafState Dd lminb' lmaxb' lps' lbs' ∧
        k' = k + ps.countP (fun p => !belongsB sd sv p) ∧
        lps'.length = lps.length + ps.countP (fun p => belongsB sd sv p) ∧
        (lps'.zip lbs' ++ (List.replicate k' pp).zip rbs').Perm
          ((lps.zip lbs ++ (List.replicate k pp).zip rbs) ++ ps.zip bs) := by
  intro n
  induction n with
  | zero =>
    intro ps bs k rminb rmaxb rbs lminb lmaxb lps lbs f hn hlen hfin hrk hRst hL hcl
    have hps : ps = [] := List.length_eq_zero.mp hn
    subst hps
    exact ⟨k, rminb, rmaxb, rbs, lminb, lmaxb, lps, lbs, distribute_nil _ _ _ _ _ _,
      hrk, hRst, hL, by simp, by simp, by simp⟩
  | succ m ih =>
    intro ps bs k rminb rmaxb rbs lminb lmaxb lps lbs f hn hlen hfin hrk hRst hL hcl
    cases hsw : swapRemoveZero ps with
    | none =>
      rw [swapRemoveZero_none] at hsw
      subst hsw
      simp at hn
    | some pr =>
      obtain ⟨p, ps'⟩ := pr
      cases hsb : swapRemoveZero bs with
      | none =>
        rw [swapRemoveZero_none] at hsb
        subst hsb
        simp only [List.length_nil] at hlen
        omega
      | some vr =>
        obtain ⟨v, bs'⟩ := vr
        have hperm : ps.Perm (p :: ps') := swapRemoveZero_perm hsw
        have hpmem : p ∈ ps := hperm.mem_iff.mpr (by simp)
        have hzip : (ps.zip bs).Perm ((p, v) :: ps'.zip bs') :=
          swapRemoveZero_perm (swapRemoveZero_zip hlen hsw hsb)
        have hlen' : ps'.length = m := by
          have := swapRemoveZero_length hsw
          omega
        have hlenb' : ps'.length = bs'.length := by
          have g1 := swapRemoveZero_length hsw
          have g2 := swapRemoveZero_length hsb
          omega
        have hfin' : ∀ x ∈ ps', x = pp ∨
            (belongsB sd sv x = true ∧ finitePt x = true ∧ x.length = Dd) := by
          intro x hx
          exact hfin x (hperm.mem_iff.mpr (by simp [hx]))
        rcases hfin p hpmem with hppe | ⟨hbT, hpf, hpl⟩
        · -- the entry is a copy of `pp` and routes right
          subst hppe
          have hcA : ps.countP (fun q => belongsB sd sv q) =
              ps'.countP (fun q => belongsB sd sv q) := by
            rw [hperm.countP_eq]
            simp [List.countP_cons, hppb]
          have hcB : ps.countP (fun q => !belongsB sd sv q) =
              ps'.countP (fun q => !belongsB sd sv q) + 1 := by
            rw [hperm.countP_eq]
            simp [List.countP_cons, hppb]
          have hsdp : sd < p.length := by omega
          have hgetp : p[sd]? = some p[sd] := List.getElem?_eq_getElem hsdp
          have hflt : Fp.flt p[sd] sv = false := by
            rw [belongsB, hgetp] at hppb
            exact hppb
          rw [distribute_cons hsw hsb, hgetp]
          simp only [hflt, Bool.false_eq_true, if_false]
          have hbounds : extendMin rminb p = p ∧ extendMax rmaxb p = p := by
            rcases hRst with ⟨hk0, hmn, hmx⟩ | ⟨hkpos, hmn, hmx⟩
            · rw [hmn, hmx, ← hppl]
              exact ⟨extendMin_replicate_pinf hppf, extendMax_replicate_ninf hppf⟩
            · rw [hmn, hmx]
              exact ⟨extendMin_self p, extendMax_self p⟩
          have hstep : add_to_bucket (f + 1)
              (mk none none cap k rminb rmaxb none none
                (some (List.replicate k p)) (some rbs)) p v =
              some (mk none none cap (k + 1) p p none none
                (some (List.replicate (k + 1) p)) (some (rbs ++ [v]))) := by
            rcases Nat.lt_or_ge k cap with hkc | hkc
            · rw [atb_small f (by omega), hbounds.1, hbounds.2, ← List.replicate_succ']
            · have hkpos : 0 < k := by omega
              rcases hRst with ⟨hk0, _, _⟩ | ⟨_, hmn, hmx⟩
              · omega
              · rw [atb_abandon f (by omega) ?_, hbounds.1, hbounds.2,
                  ← List.replicate_succ']
                rw [hbounds.1, hbounds.2]
                exact extents_self_le_zero hppf
          rw [hstep]
          have := ih ps' bs' (k + 1) p p (rbs ++ [v]) lminb lmaxb lps lbs f
            hlen' hlenb' hfin' (by simp [hrk]) (Or.inr ⟨by omega, rfl, rfl⟩) hL
            (by rw [hcA] at hcl; exact hcl)
          obtain ⟨k', A, B, C, E, F, G, H, heq, hrk', hRst', hL', hc1, hc2, hpm⟩ := this
          refine ⟨k', A, B, C, E, F, G, H, heq, hrk', hRst', hL', ?_, ?_, ?_⟩
          · rw [hcB]
            omega
          · rw [hcA]
            exact hc2
          · refine hpm.trans ?_
            have hz : (List.replicate (k + 1) p).zip (rbs ++ [v]) =
                (List.replicate k p).zip rbs ++ [(p, v)] := by
              rw [List.replicate_succ', List.zip_append (by simp [hrk])]
              rfl
            rw [hz]
            exact (permHelpR (lps.zip lbs) ((List.replicate k p).zip rbs)
              (ps'.zip bs') (p, v)).trans (List.Perm.append_left _ hzip.symm)
        · -- the entry routes left
          have hcA : ps.countP (fun q => belongsB sd sv q) =
              ps'.countP (fun q => belongsB sd sv q) + 1 := by
            rw [hperm.countP_eq]
            simp [List.countP_cons, hbT]
          have hcB : ps.countP (fun q => !belongsB sd sv q) =
              ps'.countP (fun q => !belongsB sd sv q) := by
            rw [hperm.countP_eq]
            simp [List.countP_cons, hbT]
          have hsdp : sd < p.length := by omega
          have hgetp : p[sd]? = some p[sd] := List.getElem?_eq_getElem hsdp
          have hflt : Fp.flt p[sd] sv = true := by
            rw [belongsB, hgetp] at hbT
            exact hbT
          rw [distribute_cons hsw hsb, hgetp]
          simp only [hflt, if_true]
          have hls : lps.length + 1 ≤ cap := by
            rw [hcA] at hcl
            omega
          rw [show (mkLeaf cap lminb lmaxb lps lbs : KdTree T) =
            mk none none cap lps.length lminb lmaxb none none (some lps) (some lbs)
            from rfl]
          rw [atb_small f hls]
          have hL' := LeafState_extend (v := v) hL hpf hpl
          have := ih ps' bs' k rminb rmaxb rbs (extendMin lminb p) (extendMax lmaxb p)
            (lps ++ [p]) (lbs ++ [v]) f hlen' hlenb' hfin' hrk hRst hL'
            (by
              rw [hcA] at hcl
              simp only [List.length_append, List.length_cons, List.length_nil]
              omega)
          obtain ⟨k', A, B, C, E, F, G, H, heq, hrk', hRst', hL', hc1, hc2, hpm⟩ := this
          refine ⟨k', A, B, C, E, F, G, H, ?_, hrk', hRst', hL', ?_, ?_, ?_⟩
          · rw [show (mk none none cap (lps.length + 1) (extendMin lminb p)
                (extendMax lmaxb p) none none (some (lps ++ [p])) (some (lbs ++ [v]))
                  : KdTree T) =
              mkLeaf cap (extendMin lminb p) (extendMax lmaxb p) (lps ++ [p]) (lbs ++ [v])
              from by simp [mkLeaf]]
            exact heq
          · rw [hcB]
            exact hc1
          · rw [hcA]
            simp only [List.length_append, List.length_cons, List.length_nil] at hc2
            omega
          · refine hpm.trans ?_
            have hz : (lps ++ [p]).zip (lbs ++ [v]) = lps.zip lbs ++ [(p, v)] := by
              rw [List.zip_append (by simpa using hL.1)]
              rfl
            rw [hz]
            exact (permHelpL (lps.zip lbs) ((List.replicate k pp).zip rbs)
              (ps'.zip bs') (p, v)).trans (List.Perm.append_left _ hzip.symm)

theorem minOk_replicate_pinf (Dd : Nat) : minOk (List.replicate Dd Fp.pinf) = true := by
  rw [minOk, List.all_eq_true]
  intro x hx
  rw [List.eq_of_mem_replicate hx]
  rfl

theorem maxOk_replicate_ninf (Dd : Nat) : maxOk (List.replicate Dd Fp.ninf) = true := by
  rw [maxOk, List.all_eq_true]
  intro x hx
  rw [List.eq_of_mem_replicate hx]
  rfl

theorem with_capacity_isWFF {Dd cap f : Nat} :
    isWFF Dd (f + 1) (with_capacity Dd cap : KdTree T) = true :=
  isWFF_leaf_intro (by simp) (by simp) (minOk_replicate_pinf Dd) (maxOk_replicate_ninf Dd)
    rfl rfl (by simp) (Or.inl (Nat.zero_le _)) (Or.inl rfl)

/-- Well-formedness of a leaf holding `k` copies of one finite point with the
degenerate bounds the redistribution loop gives it. -/
theorem piLeaf_isWFF {Dd cap f k : Nat} {pp lA lB : Point} {lbs : List T}
    (hppf : finitePt pp = true) (hppl : pp.length = Dd)
    (hlk : lbs.length = k)
    (hLst : (k = 0 ∧ lA = List.replicate Dd Fp.pinf ∧
        lB = List.replicate Dd Fp.ninf) ∨
      (0 < k ∧ lA = pp ∧ lB = pp)) :
    isWFF Dd (f + 1) (mk none none cap k lA lB none none
      (some (List.replicate k pp)) (some lbs)) = true := by
  rcases hLst with ⟨hk0, hA, hB⟩ | ⟨hkpos, hA, hB⟩
  · subst hk0
    exact isWFF_leaf_intro (by simp [hA]) (by simp [hB])
      (by rw [hA]; exact minOk_replicate_pinf Dd) (by rw [hB]; exact maxOk_replicate_ninf Dd)
      (by simp) (by simp [hlk]) (by simp) (Or.inl (Nat.zero_le _)) (Or.inl (by simp))
  · refine isWFF_leaf_intro (by rw [hA]; exact hppl) (by rw [hB]; exact hppl)
      (by rw [hA]; exact minOk_of_finitePt hppf) (by rw [hB]; exact maxOk_of_finitePt hppf)
      (by simp) (by simp [hlk]) ?_ (Or.inr (hA.trans hB.symm)) (Or.inr ?_)
    · intro p hp
      rw [List.eq_of_mem_replicate hp, hA, hB]
      exact ⟨hppf, inBounds_refl hppf⟩
    · rw [hA, hB]
      exact ⟨hppf, hppf⟩

set_option maxHeartbeats 1000000 in
/-- Master lemma for `add_to_bucket` on a well-formed leaf: with fuel at
least `3` beyond the leaf recursion the insertion succeeds, the result is
well-formed of height at most `3`, its size grows by one, its bounds are the
extended bounds, and its entries are the old entries plus the new one. -/
theorem atb_main {Dd cap sz : Nat} {minb maxb : Point} {ps : List Point}
    {bs : List T} {q : Point} {v : T} (f : Nat) (hcap : 0 < cap)
    (hw : isWFF Dd 1 (mk none none cap sz minb maxb none none (some ps) (some bs)) = true)
    (hqf : finitePt q = true) (hql : q.length = Dd) :
    ∃ t', add_to_bucket (f + 3)
        (mk none none cap sz minb maxb none none (some ps) (some bs)) q v = some t' ∧
      isWFF Dd 3 t' = true ∧
      size t' = sz + 1 ∧ capacity t' = cap ∧
      min_bounds t' = extendMin minb q ∧ max_bounds t' = extendMax maxb q ∧
      (entries t').Perm (ps.zip bs ++ [(q, v)]) := by
  obtain ⟨⟨h2, h3, h4, h5⟩, hleaf | hstem⟩ := isWFF_cases hw
  case inr =>
    obtain ⟨_, _, _, _, _, _, _, _, e5, _⟩ := hstem
    exact absurd e5 (by simp)
  obtain ⟨_, _, _, _, ps0, bs0, hq1, hq2, hsz, hlen, hpts, hclause, hfin9⟩ := hleaf
  obtain ⟨rfl⟩ : ps0 = ps := by injection hq1 with h; exact h.symm
  obtain ⟨rfl⟩ : bs0 = bs := by injection hq2 with h; exact h.symm
  have hptlen : ∀ p ∈ ps, p.length = Dd := by
    intro p hp
    have hx := inBounds_lengths (hpts p hp).2
    omega
  have hql' : minb.length = q.length := by omega
  have hqlx : maxb.length = q.length := by omega
  have hfm : finitePt (extendMin minb q) = true := finitePt_extendMin hql' h4 hqf
  have hfM : finitePt (extendMax maxb q) = true := finitePt_extendMax hqlx h5 hqf
  have hlm : (extendMin minb q).length = Dd := by rw [extendMin_length]; exact h2
  have hlM : (extendMax maxb q).length = Dd := by rw [extendMax_length]; exact h3
  have hqin : inBounds (extendMin minb q) (extendMax maxb q) q = true :=
    inBounds_extend_self hql' hqlx h4 h5 hqf
  have hps2 : ∀ p ∈ ps ++ [q], finitePt p = true ∧ p.length = Dd ∧
      inBounds (extendMin minb q) (extendMax maxb q) p = true := by
    intro p hp
    rcases List.mem_append.mp hp with hp | hp
    · exact ⟨(hpts p hp).1, hptlen p hp,
        inBounds_extend_mono hql' hqlx h4 h5 hqf (hpts p hp).2⟩
    · have : p = q := by simpa using hp
      subst this
      exact ⟨hqf, hql, hqin⟩
  have hzipA : (ps ++ [q]).zip (bs ++ [v]) = ps.zip bs ++ [(q, v)] := by
    rw [List.zip_append (by simpa using hlen)]
    rfl
  have hlen2 : (ps ++ [q]).length = (bs ++ [v]).length := by simp [hlen]
  have hlenA : (ps ++ [q]).length = sz + 1 := by simp [hsz]
  rcases Nat.lt_or_ge cap (sz + 1) with hover | hsm
  case inr =>
    -- plain append, no split
    refine ⟨_, atb_small (f + 2) hsm, ?_, rfl, rfl, rfl, rfl, ?_⟩
    · exact isWFF_leaf_intro hlm hlM (minOk_of_finitePt hfm) (maxOk_of_finitePt hfM)
        (by simp [hsz]) (by simp [hlen]) (fun p hp => ⟨(hps2 p hp).1, (hps2 p hp).2.2⟩)
        (Or.inl (by omega)) (Or.inr ⟨hfm, hfM⟩)
    · rw [entries_leaf, hzipA]
  case inl =>
    rw [atb_over (f + 2) (by omega)]
    simp only [splitWith]
    rcases selectDimAux_spec (extents (extendMin minb q) (extendMax maxb q)) with
      ⟨hsel, hall⟩ | ⟨dm, hdm, hsel, hnn, hpos, hallmax, _⟩
    · -- split abandoned: degenerate extended bounds
      have hbeq : extendMin minb q = extendMax maxb q := by
        refine List.ext_getElem (by omega) (fun j hj1 hj2 => ?_)
        obtain ⟨A, hA⟩ := exists_fin_of_isFinite (finitePt_getElem hfm hj1)
        obtain ⟨B, hB⟩ := exists_fin_of_isFinite (finitePt_getElem hfM hj2)
        have hjE : j < (extents (extendMin minb q) (extendMax maxb q)).length := by
          rw [extents_length]
          omega
        have hget : (extents (extendMin minb q) (extendMax maxb q)).get ⟨j, hjE⟩ =
            Fp.fin (B + -A) := by
          simp only [List.get_eq_getElem]
          rw [extents_getElem hjE hj2 hj1, hA, hB]
          simp [Fp.sub, Fp.neg, Fp.add]
        have hle : B ≤ A := by
          rcases hall j hjE with hh | hh
          · rw [hget] at hh; simp [Fp.isNan] at hh
          · rw [hget] at hh
            simp only [Fp.fle, Fp.zero, decide_eq_true_eq] at hh
            linarith
        have hge : A ≤ B := by
          have hib := inBounds_getElem hqin hj1 hj2 (by omega)
          obtain ⟨C, hC⟩ :=
            exists_fin_of_isFinite (finitePt_getElem (i := j) hqf (by omega))
          rw [hA, hC] at hib
          have g1 := hib.1
          have g2 := hib.2
          rw [hB] at g2
          simp only [Fp.fle, decide_eq_true_eq] at g1 g2
          linarith
        rw [hA, hB]
        congr 1
        linarith
      rw [hsel]
      refine ⟨_, rfl, ?_, rfl, rfl, rfl, rfl, ?_⟩
      · exact isWFF_leaf_intro hlm hlM (minOk_of_finitePt hfm) (maxOk_of_finitePt hfM)
          (by simp [hsz]) (by simp [hlen]) (fun p hp => ⟨(hps2 p hp).1, (hps2 p hp).2.2⟩)
          (Or.inr hbeq) (Or.inr ⟨hfm, hfM⟩)
      · rw [entries_leaf, hzipA]
    · -- genuine split at dimension dm
      have hdmD : dm < Dd := by
        rw [extents_length] at hdm
        omega
      have hdm1 : dm < (extendMin minb q).length := by omega
      have hdm2 : dm < (extendMax maxb q).length := by omega
      obtain ⟨A, hA⟩ := exists_fin_of_isFinite (finitePt_getElem hfm hdm1)
      obtain ⟨B, hB⟩ := exists_fin_of_isFinite (finitePt_getElem hfM hdm2)
      have hgetE : (extents (extendMin minb q) (extendMax maxb q)).get ⟨dm, hdm⟩ =
          Fp.fin (B + -A) := by
        simp only [List.get_eq_getElem]
        rw [extents_getElem hdm hdm2 hdm1, hA, hB]
        simp [Fp.sub, Fp.neg, Fp.add]
      have hAB : A < B := by
        rw [hgetE] at hpos
        simp only [Fp.flt, Fp.zero, decide_eq_true_eq] at hpos
        linarith
      obtain ⟨hmid1, hmid2⟩ := midpoint_strict hAB
      rw [hsel]
      simp only [List.getElem?_eq_getElem hdm1, List.getElem?_eq_getElem hdm2]
      rw [hA, hB, split_value_midpoint A B, hlm]
      have hbel : ∀ (x : Point) (hx : dm < x.length),
          belongsB dm (Fp.fin ((A + B) / 2)) x = Fp.flt x[dm] (Fp.fin ((A + B) / 2)) := by
        intro x hx
        rw [belongsB, List.getElem?_eq_getElem hx]
      have hsum := countP_split (fun p => belongsB dm (Fp.fin ((A + B) / 2)) p) (ps ++ [q])
      -- the value of the extended lower bound at dm
      have hmA : (extendMin minb q)[dm] =
          if Fp.flt q[dm] minb[dm] then q[dm] else minb[dm] :=
        extendMin_getElem hql'.symm (by omega) (by omega) hdm1
      have hxB : (extendMax maxb q)[dm] =
          if Fp.flt maxb[dm] q[dm] then q[dm] else maxb[dm] :=
        extendMax_getElem hqlx.symm (by omega) (by omega) hdm2
      by_cases hcL0 :
          (ps ++ [q]).countP (fun p => belongsB dm (Fp.fin ((A + B) / 2)) p) = 0
      · -- every entry routes right
        have hallR : ∀ p ∈ ps ++ [q],
            belongsB dm (Fp.fin ((A + B) / 2)) p = false := by
          intro p hp
          have := List.countP_eq_zero.mp hcL0 p hp
          simpa using this
        have hszle : sz ≤ cap := by
          by_contra hgt
          push_neg at hgt
          have hbeqb : minb = maxb := hclause.resolve_left (by omega)
          have hne : ps ≠ [] := by
            intro hc
            rw [hc] at hsz
            simp at hsz
            omega
          have hfinb : finitePt minb = true := by
            rcases hfin9 with h9 | h9
            · exact absurd h9 hne
            · exact h9.1
          by_cases hqlt : Fp.flt q[dm] minb[dm] = true
          · have hqdm : q[dm] = Fp.fin A := by
              rw [hmA, if_pos hqlt] at hA
              exact hA
            have hbq : belongsB dm (Fp.fin ((A + B) / 2)) q = true := by
              rw [hbel q (by omega), hqdm]
              simp only [Fp.flt, decide_eq_true_eq]
              exact hmid1
            have hc := hallR q (by simp)
            rw [hbq] at hc
            exact absurd hc (by simp)
          · have hmdm : minb[dm] = Fp.fin A := by
              rw [hmA, if_neg hqlt] at hA
              exact hA
            obtain ⟨p0, hp0⟩ := List.exists_mem_of_ne_nil ps hne
            have hp0eq : p0 = minb := by
              have hx := (hpts p0 hp0).2
              rw [← hbeqb] at hx
              exact eq_of_inBounds_self hx
            subst hp0eq
            have hbp : belongsB dm (Fp.fin ((A + B) / 2)) p0 = true := by
              rw [hbel p0 (by omega), hmdm]
              simp only [Fp.flt, decide_eq_true_eq]
              exact hmid1
            have hc := hallR p0 (by simp [hp0])
            rw [hbp] at hc
            exact absurd hc (by simp)
        have hallR' : ∀ p ∈ ps ++ [q], finitePt p = true ∧ p.length = Dd ∧
            belongsB dm (Fp.fin ((A + B) / 2)) p = false := fun p hp =>
          ⟨(hps2 p hp).1, (hps2 p hp).2.1, hallR p hp⟩
        have hDR := @distribute_all_right T _ cap _ (Fp.fin ((A + B) / 2)) hdmD
          hcap (ps ++ [q]).length (ps ++ [q]) (bs ++ [v])
          (List.replicate Dd Fp.pinf) (List.replicate Dd Fp.ninf) [] []
          (mkLeaf cap (List.replicate Dd Fp.pinf) (List.replicate Dd Fp.ninf) [] []) f
          rfl hlen2 hallR' (LeafState_nil Dd) (by rw [hlenA]; simp; omega)
          (by rw [hlenA]; omega)
        obtain ⟨t2, heq, hwf2, hsz2, hcp2, hpm2⟩ := hDR
        rw [show (with_capacity Dd cap : KdTree T) =
          mkLeaf cap (List.replicate Dd Fp.pinf) (List.replicate Dd Fp.ninf) [] []
          from rfl, heq]
        have hpm2' : (entries t2).Perm (ps.zip bs ++ [(q, v)]) := by
          refine hpm2.trans ?_
          rw [hzipA]
          simp
        refine ⟨_, rfl, ?_, ?_, rfl, rfl, rfl, ?_⟩
        · refine isWFF_stem_intro hlm hlM (minOk_of_finitePt hfm) (maxOk_of_finitePt hfM)
            hdmD rfl ?_ rfl hcp2 hfm hfM
            (LeafState_isWFF (LeafState_nil Dd) (Or.inl (Nat.zero_le _))) hwf2 ?_
          · rw [hsz2, hlenA]
            simp [mkLeaf, size]
          · intro e he
            rw [List.mem_append] at he
            rcases he with he | he
            · simp [mkLeaf, entries_leaf] at he
            · have : e ∈ ps.zip bs ++ [(q, v)] := hpm2'.mem_iff.mp he
              rw [← hzipA] at this
              exact (hps2 e.1 (List.of_mem_zip this).1).2.2
        · simp [size, mkLeaf, hsz2, hlenA]
        · rw [entries_stem]
          simp only [mkLeaf, entries_leaf]
          simpa using hpm2'
      · by_cases hcR0 :
            (ps ++ [q]).countP (fun p => !belongsB dm (Fp.fin ((A + B) / 2)) p) = 0
        · -- every entry routes left
          have hallL : ∀ p ∈ ps ++ [q],
              belongsB dm (Fp.fin ((A + B) / 2)) p = true := by
            intro p hp
            have := List.countP_eq_zero.mp hcR0 p hp
            simpa using this
          have hszle : sz ≤ cap := by
            by_contra hgt
            push_neg at hgt
            have hbeqb : minb = maxb := hclause.resolve_left (by omega)
            have hne : ps ≠ [] := by
              intro hc
              rw [hc] at hsz
              simp at hsz
              omega
            have hfinb : finitePt maxb = true := by
              rcases hfin9 with h9 | h9
              · exact absurd h9 hne
              · exact h9.2
            by_cases hqgt : Fp.flt maxb[dm] q[dm] = true
            · have hqdm : q[dm] = Fp.fin B := by
                rw [hxB, if_pos hqgt] at hB
                exact hB
              have hbq : belongsB dm (Fp.fin ((A + B) / 2)) q = false := by
                rw [hbel q (by omega), hqdm]
                simp only [Fp.flt, decide_eq_false_iff_not, decide_eq_true_eq]
                intro hcc
                linarith
              have hc := hallL q (by simp)
              rw [hbq] at hc
              exact absurd hc (by simp)
            · have hmdm : maxb[dm] = Fp.fin B := by
                rw [hxB, if_neg hqgt] at hB
                exact hB
              obtain ⟨p0, hp0⟩ := List.exists_mem_of_ne_nil ps hne
              have hp0eq : p0 = minb := by
                have hx := (hpts p0 hp0).2
                rw [← hbeqb] at hx
                exact eq_of_inBounds_self hx
              subst hp0eq
              have hp0dm : p0[dm] = Fp.fin B := by
                simp only [hbeqb]
                exact hmdm
              have hbp : belongsB dm (Fp.fin ((A + B) / 2)) p0 = false := by
                rw [hbel p0 (by omega), hp0dm]
                simp only [Fp.flt, decide_eq_false_iff_not, decide_eq_true_eq]
                intro hcc
                linarith
              have hc := hallL p0 (by simp [hp0])
              rw [hbp] at hc
              exact absurd hc (by simp)
          have hallL' : ∀ p ∈ ps ++ [q], finitePt p = true ∧ p.length = Dd ∧
              belongsB dm (Fp.fin ((A + B) / 2)) p = true := fun p hp =>
            ⟨(hps2 p hp).1, (hps2 p hp).2.1, hallL p hp⟩
          have hDL := @distribute_all_left T _ cap _ (Fp.fin ((A + B) / 2)) hdmD
            hcap (ps ++ [q]).length (ps ++ [q])
            (bs ++ [v]) (List.replicate Dd Fp.pinf) (List.replicate Dd Fp.ninf) [] []
            (with_capacity Dd cap) f
            rfl hlen2 hallL' (LeafState_nil Dd) (by rw [hlenA]; simp; omega)
            (by rw [hlenA]; omega)
          obtain ⟨t2, heq, hwf2, hsz2, hcp2, hpm2⟩ := hDL
          rw [show (with_capacity Dd cap : KdTree T) =
            mkLeaf cap (List.replicate Dd Fp.pinf) (List.replicate Dd Fp.ninf) [] []
            from rfl] at heq ⊢
          rw [heq]
          have hpm2' : (entries t2).Perm (ps.zip bs ++ [(q, v)]) := by
            refine hpm2.trans ?_
            rw [hzipA]
            simp
          refine ⟨_, rfl, ?_, ?_, rfl, rfl, rfl, ?_⟩
          · refine isWFF_stem_intro hlm hlM (minOk_of_finitePt hfm)
              (maxOk_of_finitePt hfM) hdmD rfl ?_ hcp2 rfl hfm hfM hwf2
              (LeafState_isWFF (LeafState_nil Dd) (Or.inl (Nat.zero_le _))) ?_
            · rw [hsz2, hlenA]
              simp [mkLeaf, size]
            · intro e he
              rw [List.mem_append] at he
              rcases he with he | he
              · have : e ∈ ps.zip bs ++ [(q, v)] := hpm2'.mem_iff.mp he
                rw [← hzipA] at this
                exact (hps2 e.1 (List.of_mem_zip this).1).2.2
              · simp [mkLeaf, entries_leaf] at he
          · simp [size, mkLeaf, hsz2, hlenA]
          · rw [entries_stem]
            simp only [mkLeaf, entries_leaf]
            simpa using hpm2'
        · -- both sides receive at least one entry
          have hcL1 : 0 <
              (ps ++ [q]).countP (fun p => belongsB dm (Fp.fin ((A + B) / 2)) p) :=
            Nat.pos_of_ne_zero hcL0
          have hcR1 : 0 <
              (ps ++ [q]).countP (fun p => !belongsB dm (Fp.fin ((A + B) / 2)) p) :=
            Nat.pos_of_ne_zero hcR0
          by_cases hboth :
              (ps ++ [q]).countP (fun p => belongsB dm (Fp.fin ((A + B) / 2)) p) ≤ cap ∧
              (ps ++ [q]).countP (fun p => !belongsB dm (Fp.fin ((A + B) / 2)) p) ≤ cap
          · -- both within capacity: the no-overflow redistribution
            have hdist := @distribute_no_overflow T _ cap _ (Fp.fin ((A + B) / 2))
              hdmD (ps ++ [q]).length (ps ++ [q]) (bs ++ [v])
              (List.replicate Dd Fp.pinf) (List.replicate Dd Fp.ninf)
              (List.replicate Dd Fp.pinf) (List.replicate Dd Fp.ninf) [] [] [] [] (f + 1)
              rfl hlen2 (fun p hp => ⟨(hps2 p hp).1, (hps2 p hp).2.1⟩)
              (LeafState_nil Dd) (LeafState_nil Dd)
              (by simpa using hboth.1) (by simpa using hboth.2)
            obtain ⟨lmb, lxb, lps', lbs', rmb, rxb, rps', rbs', heq, hLS1, hLS2,
              hc1, hc2, hpm⟩ := hdist
            rw [show (with_capacity Dd cap : KdTree T) =
              mkLeaf cap (List.replicate Dd Fp.pinf) (List.replicate Dd Fp.ninf) [] []
              from rfl, heq]
            have hpm0 : (lps'.zip lbs' ++ rps'.zip rbs').Perm
                ((ps ++ [q]).zip (bs ++ [v])) := by
              simpa using hpm
            have hpm' : (lps'.zip lbs' ++ rps'.zip rbs').Perm (ps.zip bs ++ [(q, v)]) := by
              rw [← hzipA]
              exact hpm0
            refine ⟨_, rfl, ?_, ?_, rfl, rfl, rfl, ?_⟩
            · refine isWFF_stem_intro hlm hlM (minOk_of_finitePt hfm)
                (maxOk_of_finitePt hfM) hdmD rfl ?_ rfl rfl hfm hfM
                (LeafState_isWFF hLS1 (Or.inl (by
                  simp only [List.length_nil] at hc1
                  omega)))
                (LeafState_isWFF hLS2 (Or.inl (by
                  simp only [List.length_nil] at hc2
                  omega))) ?_
              · simp only [size, mkLeaf]
                simp only [List.length_nil] at hc1 hc2
                omega
              · intro e he
                simp only [mkLeaf, entries_leaf] at he
                have : e ∈ ps.zip bs ++ [(q, v)] := hpm'.mem_iff.mp he
                rw [← hzipA] at this
                exact (hps2 e.1 (List.of_mem_zip this).1).2.2
            · rfl
            · rw [entries_stem]
              simp only [mkLeaf, entries_leaf]
              exact hpm'
          · -- one side exceeds capacity: the oversized-cluster case
            have hgt : cap < sz := by
              by_contra hle
              push_neg at hle
              rcases Decidable.not_and_iff_or_not.mp hboth with h | h <;> omega
            have hbeqb : minb = maxb := hclause.resolve_left (by omega)
            have hne : ps ≠ [] := by
              intro hc
              rw [hc] at hsz
              simp at hsz
              omega
            have hfinb : finitePt minb = true := by
              rcases hfin9 with h9 | h9
              · exact absurd h9 hne
              · exact h9.1
            have hallpi : ∀ p ∈ ps, p = minb := by
              intro p hp
              have hx := (hpts p hp).2
              rw [← hbeqb] at hx
              exact eq_of_inBounds_self hx
            have hpseq : ps = List.replicate ps.length minb :=
              List.eq_replicate_of_mem hallpi
            have hπdm : dm < minb.length := by omega
            obtain ⟨pd, hpd⟩ := exists_fin_of_isFinite (finitePt_getElem hfinb hπdm)
            obtain ⟨qd, hqd⟩ :=
              exists_fin_of_isFinite (finitePt_getElem (i := dm) hqf (by omega))
            have hmaxdm : maxb[dm] = Fp.fin pd := by
              simp only [← hbeqb]
              exact hpd
            have hcntπ : ps.countP (fun p => belongsB dm (Fp.fin ((A + B) / 2)) p) =
                if belongsB dm (Fp.fin ((A + B) / 2)) minb then ps.length else 0 := by
              rcases hbm : belongsB dm (Fp.fin ((A + B) / 2)) minb with _ | _
              · simp only [Bool.false_eq_true, if_false]
                refine List.countP_eq_zero.mpr ?_
                intro p hp
                rw [hallpi p hp, hbm]
                simp
              · simp only [if_true]
                refine List.countP_eq_length.mpr ?_
                intro p hp
                rw [hallpi p hp]
                exact hbm
            rcases lt_trichotomy pd qd with hpq | hpq | hpq
            · -- the cluster routes left, the new point right
              have hflt1 : Fp.flt q[dm] minb[dm] = false := by
                rw [hqd, hpd]
                simp only [Fp.flt, decide_eq_false_iff_not, decide_eq_true_eq]
                intro hcc
                linarith
              have hAeq : A = pd := by
                rw [hmA, if_neg (by rw [hflt1]; simp), hpd] at hA
                exact (Fp.fin.injEq _ _ ▸ hA).symm
              have hflt2 : Fp.flt maxb[dm] q[dm] = true := by
                rw [hmaxdm, hqd]
                simp only [Fp.flt, decide_eq_true_eq]
                exact hpq
              have hBeq : B = qd := by
                rw [hxB, if_pos hflt2, hqd] at hB
                exact (Fp.fin.injEq _ _ ▸ hB).symm
              have hbelπ : belongsB dm (Fp.fin ((A + B) / 2)) minb = true := by
                rw [hbel minb (by omega), hpd]
                simp only [Fp.flt, decide_eq_true_eq]
                rw [← hAeq]
                exact hmid1
              have hbelq : belongsB dm (Fp.fin ((A + B) / 2)) q = false := by
                rw [hbel q (by omega), hqd]
                simp only [Fp.flt, decide_eq_false_iff_not, decide_eq_true_eq]
                rw [← hBeq]
                intro hcc
                linarith
              have hfin2 : ∀ p ∈ ps ++ [q], p = minb ∨
                  (belongsB dm (Fp.fin ((A + B) / 2)) p = false ∧ finitePt p = true ∧
                    p.length = Dd) := by
                intro p hp
                rcases List.mem_append.mp hp with hp | hp
                · exact Or.inl (hallpi p hp)
                · have : p = q := by simpa using hp
                  subst this
                  exact Or.inr ⟨hbelq, hqf, hql⟩
              have hcnt1 : (ps ++ [q]).countP
                  (fun p => !belongsB dm (Fp.fin ((A + B) / 2)) p) = 1 := by
                rw [List.countP_append]
                rw [show ps.countP (fun p => !belongsB dm (Fp.fin ((A + B) / 2)) p) = 0
                  from List.countP_eq_zero.mpr fun p hp => by
                    rw [hallpi p hp, hbelπ]; simp]
                simp [hbelq]
              have hcnt2 : (ps ++ [q]).countP
                  (fun p => belongsB dm (Fp.fin ((A + B) / 2)) p) = ps.length := by
                rw [List.countP_append, hcntπ, hbelπ]
                simp [hbelq]
              have hDP := @distribute_pi_left T _ cap _ (Fp.fin ((A + B) / 2)) _
                hdmD hcap hfinb h2 hbelπ
                (ps ++ [q]).length (ps ++ [q]) (bs ++ [v]) 0
                (List.replicate Dd Fp.pinf) (List.replicate Dd Fp.ninf) []
                (List.replicate Dd Fp.pinf) (List.replicate Dd Fp.ninf) [] [] (f + 1)
                rfl hlen2 hfin2 rfl (Or.inl ⟨rfl, rfl, rfl⟩) (LeafState_nil Dd)
                (by rw [hcnt1]; simpa using hcap)
              obtain ⟨k', lA', lB', lbs', rmb, rxb, rps', rbs', heq, hlk', hLst',
                hR', hc1, hc2, hpm⟩ := hDP
              nth_rewrite 1 [show (with_capacity Dd cap : KdTree T) =
                mk none none cap 0 (List.replicate Dd Fp.pinf) (List.replicate Dd Fp.ninf)
                  none none (some (List.replicate 0 minb)) (some ([] : List T)) from rfl]
              rw [show (with_capacity Dd cap : KdTree T) =
                mkLeaf cap (List.replicate Dd Fp.pinf) (List.replicate Dd Fp.ninf) [] []
                from rfl, heq]
              have hpm0 : ((List.replicate k' minb).zip lbs' ++ rps'.zip rbs').Perm
                  ((ps ++ [q]).zip (bs ++ [v])) := by
                simpa using hpm
              have hpm' : ((List.replicate k' minb).zip lbs' ++ rps'.zip rbs').Perm
                  (ps.zip bs ++ [(q, v)]) := by
                rw [← hzipA]
                exact hpm0
              refine ⟨_, rfl, ?_, ?_, rfl, rfl, rfl, ?_⟩
              · refine isWFF_stem_intro hlm hlM (minOk_of_finitePt hfm)
                  (maxOk_of_finitePt hfM) hdmD rfl ?_ rfl rfl hfm hfM
                  (piLeaf_isWFF hfinb h2 hlk' hLst')
                  (LeafState_isWFF hR' (Or.inl (by rw [hc2, hcnt1]; simpa using hcap))) ?_
                · simp only [size, mkLeaf]
                  rw [hc1, hc2, hcnt1, hcnt2]
                  simp only [List.length_nil, hsz]
                  omega
                · intro e he
                  rw [List.mem_append] at he
                  rcases he with he | he
                  · rw [entries_leaf] at he
                    have : e ∈ ps.zip bs ++ [(q, v)] :=
                      hpm'.mem_iff.mp (List.mem_append.mpr (Or.inl he))
                    rw [← hzipA] at this
                    exact (hps2 e.1 (List.of_mem_zip this).1).2.2
                  · simp only [mkLeaf, entries_leaf] at he
                    have : e ∈ ps.zip bs ++ [(q, v)] :=
                      hpm'.mem_iff.mp (List.mem_append.mpr (Or.inr he))
                    rw [← hzipA] at this
                    exact (hps2 e.1 (List.of_mem_zip this).1).2.2
              · rfl
              · rw [entries_stem]
                simp only [mkLeaf, entries_leaf]
                exact hpm'
            · -- a degenerate middle case cannot occur
              exfalso
              have hA' : A = pd ∨ A = qd := by
                by_cases hc : Fp.flt q[dm] minb[dm] = true
                · rw [hmA, if_pos hc, hqd] at hA
                  exact Or.inr (Fp.fin.injEq _ _ ▸ hA).symm
                · rw [hmA, if_neg hc, hpd] at hA
                  exact Or.inl (Fp.fin.injEq _ _ ▸ hA).symm
              have hB' : B = pd ∨ B = qd := by
                by_cases hc : Fp.flt maxb[dm] q[dm] = true
                · rw [hxB, if_pos hc, hqd] at hB
                  exact Or.inr (Fp.fin.injEq _ _ ▸ hB).symm
                · rw [hxB, if_neg hc, hmaxdm] at hB
                  exact Or.inl (Fp.fin.injEq _ _ ▸ hB).symm
              subst hpq
              rcases hA' with h | h <;> rcases hB' with h' | h' <;> rw [h, h'] at hAB <;>
                exact lt_irrefl _ hAB
            · -- the cluster routes right, the new point left
              have hflt1 : Fp.flt q[dm] minb[dm] = true := by
                rw [hqd, hpd]
                simp only [Fp.flt, decide_eq_true_eq]
                exact hpq
              have hAeq : A = qd := by
                rw [hmA, if_pos hflt1, hqd] at hA
                exact (Fp.fin.injEq _ _ ▸ hA).symm
              have hflt2 : Fp.flt maxb[dm] q[dm] = false := by
                rw [hmaxdm, hqd]
                simp only [Fp.flt, decide_eq_false_iff_not, decide_eq_true_eq]
                intro hcc
                linarith
              have hBeq : B = pd := by
                rw [hxB, if_neg (by rw [hflt2]; simp), hmaxdm] at hB
                exact (Fp.fin.injEq _ _ ▸ hB).symm
              have hbelπ : belongsB dm (Fp.fin ((A + B) / 2)) minb = false := by
                rw [hbel minb (by omega), hpd]
                simp only [Fp.flt, decide_eq_false_iff_not, decide_eq_true_eq]
                rw [← hBeq]
                intro hcc
                linarith
              have hbelq : belongsB dm (Fp.fin ((A + B) / 2)) q = true := by
                rw [hbel q (by omega), hqd]
                simp only [Fp.flt, decide_eq_true_eq]
                rw [← hAeq]
                exact hmid1
              have hfin2 : ∀ p ∈ ps ++ [q], p = minb ∨
                  (belongsB dm (Fp.fin ((A + B) / 2)) p = true ∧ finitePt p = true ∧
                    p.length = Dd) := by
                intro p hp
                rcases List.mem_append.mp hp with hp | hp
                · exact Or.inl (hallpi p hp)
                · have : p = q := by simpa using hp
                  subst this
                  exact Or.inr ⟨hbelq, hqf, hql⟩
              have hcnt1 : (ps ++ [q]).countP
                  (fun p => belongsB dm (Fp.fin ((A + B) / 2)) p) = 1 := by
                rw [List.countP_append, hcntπ, hbelπ]
                simp [hbelq]
              have hcnt2 : (ps ++ [q]).countP
                  (fun p => !belongsB dm (Fp.fin ((A + B) / 2)) p) = ps.length := by
                rw [List.countP_append]
                rw [show ps.countP (fun p => !belongsB dm (Fp.fin ((A + B) / 2)) p) =
                    ps.length from List.countP_eq_length.mpr fun p hp => by
                  rw [hallpi p hp, hbelπ]; rfl]
                simp [hbelq]
              have hDP := @distribute_pi_right T _ cap _ (Fp.fin ((A + B) / 2)) _
                hdmD hcap hfinb h2 hbelπ
                (ps ++ [q]).length (ps ++ [q]) (bs ++ [v]) 0
                (List.replicate Dd Fp.pinf) (List.replicate Dd Fp.ninf) []
                (List.replicate Dd Fp.pinf) (List.replicate Dd Fp.ninf) [] [] (f + 1)
                rfl hlen2 hfin2 rfl (Or.inl ⟨rfl, rfl, rfl⟩) (LeafState_nil Dd)
                (by rw [hcnt1]; simpa using hcap)
              obtain ⟨k', rA', rB', rbs', lmb, lxb, lps', lbs', heq, hrk', hRst',
                hL', hc1, hc2, hpm⟩ := hDP
              nth_rewrite 2 [show (with_capacity Dd cap : KdTree T) =
                mk none none cap 0 (List.replicate Dd Fp.pinf) (List.replicate Dd Fp.ninf)
                  none none (some (List.replicate 0 minb)) (some ([] : List T)) from rfl]
              rw [show (with_capacity Dd cap : KdTree T) =
                mkLeaf cap (List.replicate Dd Fp.pinf) (List.replicate Dd Fp.ninf) [] []
                from rfl, heq]
              have hpm0 : (lps'.zip lbs' ++ (List.replicate k' minb).zip rbs').Perm
                  ((ps ++ [q]).zip (bs ++ [v])) := by
                simpa using hpm
              have hpm' : (lps'.zip lbs' ++ (List.replicate k' minb).zip rbs').Perm
                  (ps.zip bs ++ [(q, v)]) := by
                rw [← hzipA]
                exact hpm0
              refine ⟨_, rfl, ?_, ?_, rfl, rfl, rfl, ?_⟩
              · refine isWFF_stem_intro hlm hlM (minOk_of_finitePt hfm)
                  (maxOk_of_finitePt hfM) hdmD rfl ?_ rfl rfl hfm hfM
                  (LeafState_isWFF hL' (Or.inl (by rw [hc2, hcnt1]; simpa using hcap)))
                  (piLeaf_isWFF hfinb h2 hrk' hRst') ?_
                · simp only [size, mkLeaf]
                  rw [hc1, hc2, hcnt1, hcnt2]
                  simp only [List.length_nil, hsz]
                  omega
                · intro e he
                  rw [List.mem_append] at he
                  rcases he with he | he
                  · simp only [mkLeaf, entries_leaf] at he
                    have : e ∈ ps.zip bs ++ [(q, v)] :=
                      hpm'.mem_iff.mp (List.mem_append.mpr (Or.inl he))
                    rw [← hzipA] at this
                    exact (hps2 e.1 (List.of_mem_zip this).1).2.2
                  · rw [entries_leaf] at he
                    have : e ∈ ps.zip bs ++ [(q, v)] :=
                      hpm'.mem_iff.mp (List.mem_append.mpr (Or.inr he))
                    rw [← hzipA] at this
                    exact (hps2 e.1 (List.of_mem_zip this).1).2.2
              · rfl
              · rw [entries_stem]
                simp only [mkLeaf, entries_leaf]
                exact hpm'

theorem fleList_refl_minOk {b : Point} (h : minOk b = true) : fleList b b = true := by
  induction b with
  | nil => rfl
  | cons x xs ih =>
    simp only [minOk, List.all_cons, Bool.and_eq_true] at h
    simp only [fleList, Bool.and_eq_true]
    refine ⟨?_, ih (by simpa [minOk] using h.2)⟩
    rcases Bool.or_eq_true _ _ ▸ h.1 with hh | hh
    · exact Fp.fle_refl (Fp.not_nan_of_isFinite hh)
    · have : x = Fp.pinf := by cases x <;> simp_all
      subst this
      rfl

theorem fleList_refl_maxOk {b : Point} (h : maxOk b = true) : fleList b b = true := by
  induction b with
  | nil => rfl
  | cons x xs ih =>
    simp only [maxOk, List.all_cons, Bool.and_eq_true] at h
    simp only [fleList, Bool.and_eq_true]
    refine ⟨?_, ih (by simpa [maxOk] using h.2)⟩
    rcases Bool.or_eq_true _ _ ▸ h.1 with hh | hh
    · exact Fp.fle_refl (Fp.not_nan_of_isFinite hh)
    · have : x = Fp.ninf := by cases x <;> simp_all
      subst this
      rfl

theorem boundsGrew_refl {Dd : Nat} : ∀ {f : Nat} {t : KdTree T},
    isWFF Dd f t = true → boundsGrew t t = true := by
  intro f
  induction f with
  | zero => intro t hw; simp [isWFF] at hw
  | succ g ih =>
    intro t hw
    cases t with
    | mk l r cap sz minb maxb sv sd ps bs =>
      obtain ⟨⟨_, _, h4, h5⟩, hleaf | hstem⟩ := isWFF_cases hw
      · obtain ⟨e1, e2, _⟩ := hleaf
        subst e1; subst e2
        simp [boundsGrew, fleList_refl_minOk h4, fleList_refl_maxOk h5]
      · obtain ⟨lt, rt, svv, dim, e1, e2, _, _, _, _, rest⟩ := hstem
        subst e1; subst e2
        simp [boundsGrew, fleList_refl_minOk h4, fleList_refl_maxOk h5,
          ih rest.2.2.2.2.2.2.2.1, ih rest.2.2.2.2.2.2.2.2.1]

theorem boundsGrew_of_leaf {cap sz : Nat} {minb maxb : Point} {sv : Option Fp}
    {sd : Option Nat} {ps? : Option (List Point)} {bs? : Option (List T)}
    {t' : KdTree T}
    (h1 : fleList (min_bounds t') minb = true) (h2 : fleList maxb (max_bounds t') = true) :
    boundsGrew (mk none none cap sz minb maxb sv sd ps? bs?) t' = true := by
  cases t' with
  | mk l' r' cap' sz' minb' maxb' sv' sd' ps' bs' =>
    simp only [min_bounds, max_bounds] at h1 h2
    simp only [boundsGrew, Bool.and_eq_true]
    exact ⟨⟨⟨h1, h2⟩, trivial⟩, trivial⟩

theorem perm_snoc_mid (A B : List α) (x : α) :
    ((A ++ [x]) ++ B).Perm ((A ++ B) ++ [x]) := by
  have h1 : ((A ++ [x]) ++ B).Perm (x :: (A ++ B)) := by
    rw [List.append_assoc]
    exact List.perm_middle
  have h2 : ((A ++ B) ++ [x]).Perm (x :: (A ++ B)) := by
    simpa using (@List.perm_middle _ x (A ++ B) [])
  exact h1.trans h2.symm

theorem add_unchecked_stem {g cap sz : Nat} {minb maxb : Point} {lt rt : KdTree T}
    {svv : Fp} {dim : Nat} {q : Point} {v : T} :
    add_unchecked (g + 1)
        (mk (some lt) (some rt) cap sz minb maxb (some svv) (some dim) none none) q v =
      (match q[dim]? with
      | none => none
      | some c =>
        if Fp.flt c svv then
          match add_unchecked g lt q v with
          | none => none
          | some lt' => some (mk (some lt') (some rt) cap (sz + 1) (extendMin minb q)
              (extendMax maxb q) (some svv) (some dim) none none)
        else
          match add_unchecked g rt q v with
          | none => none
          | some rt' => some (mk (some lt) (some rt') cap (sz + 1) (extendMin minb q)
              (extendMax maxb q) (some svv) (some dim) none none)) := rfl

theorem add_unchecked_leaf {g cap sz : Nat} {minb maxb : Point} {ps : List Point}
    {bs : List T} {q : Point} {v : T} :
    add_unchecked (g + 1)
        (mk none none cap sz minb maxb none none (some ps) (some bs)) q v =
      add_to_bucket (sz + 3)
        (mk none none cap sz minb maxb none none (some ps) (some bs)) q v := rfl

/-- Insertion along the tree (`add_unchecked`) on a well-formed tree with
positive capacity and a finite point of the right dimension: it succeeds,
preserves well-formedness, grows the size by one, extends the root bounds,
appends the entry, and only ever widens boxes. -/
theorem add_unchecked_main {Dd : Nat} :
    ∀ (g : Nat) (t : KdTree T) (q : Point) (v : T) (fw : Nat),
    isWFF Dd fw t = true → height t ≤ g → 0 < capacity t →
    finitePt q = true → q.length = Dd →
    ∃ t', add_unchecked g t q v = some t' ∧
      isWFF Dd (height t + 2) t' = true ∧
      size t' = size t + 1 ∧ capacity t' = capacity t ∧
      min_bounds t' = extendMin (min_bounds t) q ∧
      max_bounds t' = extendMax (max_bounds t) q ∧
      (entries t').Perm (entries t ++ [(q, v)]) ∧
      boundsGrew t t' = true := by
  intro g
  induction g with
  | zero =>
    intro t q v fw hw hg hcap hqf hql
    have := height_pos t
    omega
  | succ g ih =>
    intro t q v fw hw hg hcap hqf hql
    cases t with
    | mk l r cap sz minb maxb sv sd ps? bs? =>
      obtain ⟨⟨h2, h3, h4, h5⟩, hleaf | hstem⟩ :=
        isWFF_cases (isWFF_retime hw (Nat.le_succ _))
      · -- leaf node
        obtain ⟨e1, e2, e3, e4, ps, bs, e5, e6, hsz, hlen, hpts, hclause, hfin9⟩ := hleaf
        subst e1; subst e2; subst e3; subst e4; subst e5; subst e6
        have hw1 : isWFF Dd 1
            (mk none none cap sz minb maxb none none (some ps) (some bs)) = true :=
          isWFF_retime hw (by simp [height])
        obtain ⟨t', heq, hwf, hs, hc, hmn, hmx, hpm⟩ :=
          atb_main (q := q) (v := v) sz hcap hw1 hqf hql
        refine ⟨t', ?_, ?_, ?_, hc, hmn, hmx, ?_, ?_⟩
        · rw [add_unchecked_leaf]
          exact heq
        · refine isWFF_mono ?_ hwf
          simp [height]
        · rw [hs]
          rfl
        · rw [entries_leaf]
          exact hpm
        · refine boundsGrew_of_leaf ?_ ?_
          · rw [hmn]
            exact fleList_extendMin (by omega) h4 hqf
          · rw [hmx]
            exact fleList_extendMax (by omega) h5 hqf
      · -- stem node
        obtain ⟨lt, rt, svv, dim, e1, e2, e3, e4, e5, e6, hdim, hsvf, hsz, hcl, hcr,
          hfmn, hfmx, hwl, hwr, hcont⟩ := hstem
        subst e1; subst e2; subst e3; subst e4; subst e5; subst e6
        have hql2 : dim < q.length := by omega
        have hhl : height lt ≤ g := by
          simp only [height] at hg
          omega
        have hhr : height rt ≤ g := by
          simp only [height] at hg
          omega
        have hlm : (extendMin minb q).length = Dd := by
          rw [extendMin_length]
          exact h2
        have hlM : (extendMax maxb q).length = Dd := by
          rw [extendMax_length]
          exact h3
        have hfm : finitePt (extendMin minb q) = true :=
          finitePt_extendMin (by omega) h4 hqf
        have hfM : finitePt (extendMax maxb q) = true :=
          finitePt_extendMax (by omega) h5 hqf
        have hcont2 : ∀ e ∈ entries lt ++ entries rt,
            inBounds (extendMin minb q) (extendMax maxb q) e.1 = true := by
          intro e he
          exact inBounds_extend_mono (by omega) (by omega) h4 h5 hqf (hcont e he)
        have hqin : inBounds (extendMin minb q) (extendMax maxb q) q = true :=
          inBounds_extend_self (by omega) (by omega) h4 h5 hqf
        rw [add_unchecked_stem, List.getElem?_eq_getElem hql2]
        rcases hflt : Fp.flt q[dim] svv with _ | _
        · -- descend right
          simp only [hflt, Bool.false_eq_true, if_false]
          obtain ⟨rt', heq, hwf, hs, hc, hmn, hmx, hpm, hbg⟩ :=
            ih rt q v _ hwr hhr (by rw [hcr]; exact hcap) hqf hql
          rw [heq]
          refine ⟨_, rfl, ?_, ?_, rfl, rfl, rfl, ?_, ?_⟩
          · have hhr2 : height rt + 2 ≤ (1 + max (height lt) (height rt)) + 1 := by
              omega
            have hhl2 : height lt ≤ (1 + max (height lt) (height rt)) + 1 := by
              omega
            have hstem2 := isWFF_stem_intro (f := 1 + max (height lt) (height rt) + 1)
              hlm hlM (minOk_of_finitePt hfm) (maxOk_of_finitePt hfM) hdim hsvf
              (show sz + 1 = size lt + size rt' by omega)
              hcl (hc.trans hcr) hfm hfM (isWFF_retime hwl hhl2) (isWFF_mono hhr2 hwf)
              (by
                intro e he
                rcases List.mem_append.mp he with he | he
                · exact hcont2 e (List.mem_append.mpr (Or.inl he))
                · rcases (hpm.mem_iff.mp he) |> List.mem_append.mp with he2 | he2
                  · exact hcont2 e (List.mem_append.mpr (Or.inr he2))
                  · have : e = (q, v) := by simpa using he2
                    subst this
                    exact hqin)
            refine isWFF_retime hstem2 ?_
            have hh1 := isWFF_height hwf
            simp only [height]
            omega
          · simp only [size]
          · rw [entries_stem, entries_stem, List.append_assoc]
            exact List.Perm.append_left _ hpm
          · simp only [boundsGrew, Bool.and_eq_true]
            exact ⟨⟨⟨fleList_extendMin (by omega) h4 hqf,
              fleList_extendMax (by omega) h5 hqf⟩, boundsGrew_refl hwl⟩, hbg⟩
        · -- descend left
          simp only [hflt, if_true]
          obtain ⟨lt', heq, hwf, hs, hc, hmn, hmx, hpm, hbg⟩ :=
            ih lt q v _ hwl hhl (by rw [hcl]; exact hcap) hqf hql
          rw [heq]
          refine ⟨_, rfl, ?_, ?_, rfl, rfl, rfl, ?_, ?_⟩
          · have hhl2 : height lt + 2 ≤ (1 + max (height lt) (height rt)) + 1 := by
              omega
            have hhr2 : height rt ≤ (1 + max (height lt) (height rt)) + 1 := by
              omega
            have hstem2 := isWFF_stem_intro (f := 1 + max (height lt) (height rt) + 1)
              hlm hlM (minOk_of_finitePt hfm) (maxOk_of_finitePt hfM) hdim hsvf
              (show sz + 1 = size lt' + size rt by omega)
              (hc.trans hcl) hcr hfm hfM (isWFF_mono hhl2 hwf) (isWFF_retime hwr hhr2)
              (by
                intro e he
                rcases List.mem_append.mp he with he | he
                · rcases (hpm.mem_iff.mp he) |> List.mem_append.mp with he2 | he2
                  · exact hcont2 e (List.mem_append.mpr (Or.inl he2))
                  · have : e = (q, v) := by simpa using he2
                    subst this
                    exact hqin
                · exact hcont2 e (List.mem_append.mpr (Or.inr he)))
            refine isWFF_retime hstem2 ?_
            have hh1 := isWFF_height hwf
            simp only [height]
            omega
          · simp only [size]
          · rw [entries_stem, entries_stem]
            refine (List.Perm.append_right _ hpm).trans ?_
            exact perm_snoc_mid (entries lt) (entries rt) (q, v)
          · simp only [boundsGrew, Bool.and_eq_true]
            exact ⟨⟨⟨fleList_extendMin (by omega) h4 hqf,
              fleList_extendMax (by omega) h5 hqf⟩, hbg⟩, boundsGrew_refl hwr⟩

theorem eraseIdx_perm {l : List α} {i : Nat} (h : i < l.length) :
    l.Perm (l[i] :: l.eraseIdx i) := by
  conv_lhs => rw [← List.take_append_drop i l]
  rw [List.eraseIdx_eq_take_drop_succ]
  rw [List.drop_eq_getElem_cons h]
  exact List.perm_middle

theorem zip_eraseIdx : ∀ {L : List α} {M : List β} (i : Nat), L.length = M.length →
    (L.zip M).eraseIdx i = (L.eraseIdx i).zip (M.eraseIdx i) := by
  intro L
  induction L with
  | nil => intro M i h; simp
  | cons x xs ih =>
    intro M i h
    cases M with
    | nil => simp at h
    | cons y ys =>
      cases i with
      | zero => simp [List.eraseIdx, List.zip]
      | succ j =>
        simp only [List.zip_cons_cons, List.eraseIdx_cons_succ]
        rw [ih j (by simpa using h)]

theorem findIdx_lt_length {p : α → Bool} {l : List α} {i : Nat}
    (h : l.findIdx? p = some i) : i < l.length :=
  (List.findIdx?_eq_some_iff_findIdx_eq.mp h).1

theorem perm_four (A X B Y : List α) :
    ((A ++ X) ++ (B ++ Y)).Perm ((A ++ B) ++ (X ++ Y)) := by
  have h1 : (A ++ X) ++ (B ++ Y) = A ++ ((X ++ B) ++ Y) := by
    simp [List.append_assoc]
  have h2 : (A ++ B) ++ (X ++ Y) = A ++ ((B ++ X) ++ Y) := by
    simp [List.append_assoc]
  rw [h1, h2]
  exact List.Perm.append_left A
    (List.Perm.append_right Y List.perm_append_comm)

/-- What a successful leaf scan (`remove_scan`) guarantees: the kept lists
shrink by exactly the removed count, keep equal lengths, keep only original
points, and the original entries are a permutation of the kept entries plus
`n` removed ones. -/
theorem remove_scan_spec [DecidableEq T] :
    ∀ (fuel : Nat) (ps : List Point) (bs : List T) (p : Point) (v : T)
      (ps' : List Point) (bs' : List T) (n : Nat),
      ps.length = bs.length →
      remove_scan fuel ps bs p v = some (ps', bs', n) →
      ps'.length + n = ps.length ∧ ps'.length = bs'.length ∧
      (∀ x ∈ ps', x ∈ ps) ∧
      ∃ removed : List (Point × T), (ps.zip bs).Perm (ps'.zip bs' ++ removed) ∧
        removed.length = n := by
  intro fuel
  induction fuel with
  | zero =>
    intro ps bs p v ps' bs' n hlen h
    simp [remove_scan] at h
  | succ g ih =>
    intro ps bs p v ps' bs' n hlen h
    rw [remove_scan] at h
    cases hf : ps.findIdx? fun x => pointEq x p with
    | none =>
      rw [hf] at h
      dsimp only at h
      simp only [Option.some.injEq, Prod.mk.injEq] at h
      obtain ⟨e1, e2, e3⟩ := h
      subst e1; subst e2; subst e3
      exact ⟨by omega, hlen, fun x hx => hx, [], by simp, rfl⟩
    | some i =>
      rw [hf] at h
      dsimp only at h
      have hi : i < ps.length := findIdx_lt_length hf
      have hib : i < bs.length := by omega
      rw [List.getElem?_eq_getElem hib] at h
      dsimp only at h
      by_cases hbv : bs[i] = v
      · rw [if_pos hbv] at h
        cases hrec : remove_scan g (ps.eraseIdx i) (bs.eraseIdx i) p v with
        | none => rw [hrec] at h; simp at h
        | some res =>
          obtain ⟨psr, bsr, m⟩ := res
          rw [hrec] at h
          dsimp only at h
          simp only [Option.some.injEq, Prod.mk.injEq] at h
          obtain ⟨e1, e2, e3⟩ := h
          subst e1; subst e2
          have hlen' : (ps.eraseIdx i).length = (bs.eraseIdx i).length := by
            rw [List.length_eraseIdx_of_lt hi, List.length_eraseIdx_of_lt hib]
            omega
          obtain ⟨g1, g2, g3, removed, g4, g5⟩ :=
            ih (ps.eraseIdx i) (bs.eraseIdx i) p v psr bsr m hlen' hrec
          refine ⟨?_, g2, ?_, (ps[i], bs[i]) :: removed, ?_, by simp [g5]; omega⟩
          · rw [List.length_eraseIdx_of_lt hi] at g1
            omega
          · intro x hx
            exact (List.eraseIdx_sublist ps i).subset (g3 x hx)
          · have hzi : i < (ps.zip bs).length := by
              rw [List.length_zip]
              omega
            have hstep : (ps.zip bs).Perm ((ps[i], bs[i]) ::
                ((ps.eraseIdx i).zip (bs.eraseIdx i))) := by
              have := eraseIdx_perm hzi
              rw [zip_eraseIdx i hlen] at this
              simpa using this
            refine hstep.trans ?_
            refine (List.Perm.cons _ g4).trans ?_
            exact List.perm_middle.symm
      · rw [if_neg hbv] at h
        obtain ⟨g1, g2, g3, removed, g4, g5⟩ := ih ps bs p v ps' bs' n hlen h
        exact ⟨g1, g2, g3, removed, g4, g5⟩

/-- What a successful removal (`removeF` returning `Ok`) guarantees on a
well-formed tree: well-formedness is preserved, the tree's shape and every
node's bounds are unchanged, the size drops by exactly the removed count, and
the entries are the old entries minus `n` removed ones. -/
theorem removeF_main [DecidableEq T] {Dd : Nat} :
    ∀ (g : Nat) (t : KdTree T) (p : Point) (v : T) (fw : Nat) (t' : KdTree T) (n : Nat),
    isWFF Dd fw t = true → height t ≤ g →
    removeF g t p v = some (Except.ok (t', n)) →
    isWFF Dd (height t + 1) t' = true ∧ n ≤ size t ∧ size t' = size t - n ∧
    capacity t' = capacity t ∧ sameBounds t t' = true ∧
    ∃ removed : List (Point × T), (entries t).Perm (entries t' ++ removed) ∧
      removed.length = n := by
  intro g
  induction g with
  | zero =>
    intro t p v fw t' n hw hg h
    have := height_pos t
    omega
  | succ g ih =>
    intro t p v fw t' n hw hg h
    cases t with
    | mk l r cap sz minb maxb sv sd ps? bs? =>
      obtain ⟨⟨h2, h3, h4, h5⟩, hleaf | hstem⟩ :=
        isWFF_cases (isWFF_retime hw (Nat.le_succ _))
      · -- leaf
        obtain ⟨e1, e2, e3, e4, ps, bs, e5, e6, hsz, hlen, hpts, hclause, hfin9⟩ := hleaf
        subst e1; subst e2; subst e3; subst e4; subst e5; subst e6
        rw [removeF] at h
        cases hcp : check_point p with
        | error e =>
          rw [hcp] at h
          dsimp only at h
          simp at h
        | ok u =>
          rw [hcp] at h
          dsimp only at h
          cases hscan : remove_scan (ps.length + 1) ps bs p v with
          | none =>
            rw [hscan] at h
            simp at h
          | some res =>
            obtain ⟨ps', bs', m⟩ := res
            rw [hscan] at h
            dsimp only at h
            simp only [Option.some.injEq, Except.ok.injEq, Prod.mk.injEq] at h
            obtain ⟨e7, e8⟩ := h
            subst e7
            obtain ⟨g1, g2, g3, removed, g4, g5⟩ :=
              remove_scan_spec (ps.length + 1) ps bs p v ps' bs' m hlen hscan
            have hx1 : size (mk none none cap sz minb maxb none none
                (some ps) (some bs) : KdTree T) = sz := rfl
            have hx2 : size (mk none none cap (sz - m) minb maxb none none
                (some ps') (some bs') : KdTree T) = sz - m := rfl
            refine ⟨?_, by omega, by omega, rfl, ?_, ?_⟩
            · refine isWFF_leaf_intro h2 h3 h4 h5 (by omega) g2
                (fun x hx => hpts x (g3 x hx)) ?_ ?_
              · rcases hclause with hc | hc
                · exact Or.inl (by omega)
                · exact Or.inr hc
              · by_cases hps' : ps' = []
                · exact Or.inl hps'
                · obtain ⟨x0, hx0⟩ := List.exists_mem_of_ne_nil ps' hps'
                  have : ps ≠ [] := fun hc => by
                    rw [hc] at g3
                    exact absurd (g3 x0 hx0) (by simp)
                  exact Or.inr (hfin9.resolve_left this)
            · simp [sameBounds]
            · rw [entries_leaf, entries_leaf]
              exact ⟨removed, g4, by omega⟩
      · -- stem
        obtain ⟨lt, rt, svv, dim, e1, e2, e3, e4, e5, e6, hdim, hsvf, hsz, hcl, hcr,
          hfmn, hfmx, hwl, hwr, hcont⟩ := hstem
        subst e1; subst e2; subst e3; subst e4; subst e5; subst e6
        rw [removeF] at h
        on_goal 2 => simp
        cases hcp : check_point p with
        | error e =>
          rw [hcp] at h
          dsimp only at h
          simp at h
        | ok u =>
          rw [hcp] at h
          dsimp only at h
          cases hR : removeF g rt p v with
          | none =>
            rw [hR] at h
            simp at h
          | some resR =>
            cases resR with
            | error e =>
              rw [hR] at h
              dsimp only at h
              simp at h
            | ok prR =>
              obtain ⟨rt', rn⟩ := prR
              rw [hR] at h
              dsimp only at h
              cases hL : removeF g lt p v with
              | none =>
                rw [hL] at h
                simp at h
              | some resL =>
                cases resL with
                | error e =>
                  rw [hL] at h
                  dsimp only at h
                  simp at h
                | ok prL =>
                  obtain ⟨lt', ln⟩ := prL
                  rw [hL] at h
                  dsimp only at h
                  simp only [Option.some.injEq, Except.ok.injEq, Prod.mk.injEq] at h
                  obtain ⟨e7, e8⟩ := h
                  subst e8
                  have hhl : height lt ≤ g := by
                    simp only [height] at hg
                    omega
                  have hhr : height rt ≤ g := by
                    simp only [height] at hg
                    omega
                  obtain ⟨hwfR, hnR, hsR, hcR2, hsbR, remR, hpR, hlR⟩ :=
                    ih rt p v _ rt' rn hwr hhr hR
                  obtain ⟨hwfL, hnL, hsL, hcL2, hsbL, remL, hpL, hlL⟩ :=
                    ih lt p v _ lt' ln hwl hhl hL
                  subst e7
                  have hentL : ∀ e ∈ entries lt', e ∈ entries lt := by
                    intro e he
                    have := hpL.mem_iff.mpr (List.mem_append.mpr (Or.inl he))
                    exact this
                  have hentR : ∀ e ∈ entries rt', e ∈ entries rt := by
                    intro e he
                    exact hpR.mem_iff.mpr (List.mem_append.mpr (Or.inl he))
                  have hx1 : size (mk (some lt) (some rt) cap sz minb maxb (some svv)
                      (some dim) none none : KdTree T) = sz := rfl
                  have hx2 : size (mk (some lt') (some rt') cap (sz - rn - ln) minb maxb
                      (some svv) (some dim) none none : KdTree T) = sz - rn - ln := rfl
                  refine ⟨?_, by omega, by omega, rfl, ?_, ?_⟩
                  · refine isWFF_stem_intro (f := 1 + max (height lt) (height rt))
                      h2 h3 h4 h5 hdim hsvf
                      (by omega)
                      (hcL2.trans hcl) (hcR2.trans hcr) hfmn hfmx
                      (isWFF_mono (by omega) hwfL) (isWFF_mono (by omega) hwfR) ?_
                    intro e he
                    rcases List.mem_append.mp he with he | he
                    · exact hcont e (List.mem_append.mpr (Or.inl (hentL e he)))
                    · exact hcont e (List.mem_append.mpr (Or.inr (hentR e he)))
                  · simp [sameBounds, hsbL, hsbR]
                  · rw [entries_stem, entries_stem]
                    refine ⟨remL ++ remR, ?_,
                      by simp only [List.length_append]; omega⟩
                    refine ((List.Perm.append_right _ hpL).trans
                      (List.Perm.append_left _ hpR)).trans ?_
                    exact perm_four (entries lt') remL (entries rt') remR

/-- The `add` wrapper on a well-formed tree: checks pass, insertion succeeds,
and all the `add_unchecked` guarantees hold. -/
theorem add_main {Dd : Nat} {t : KdTree T} {q : Point} {v : T} {fw : Nat}
    (hw : isWFF Dd fw t = true) (hcap : 0 < capacity t)
    (hqf : finitePt q = true) (hql : q.length = Dd) :
    ∃ t', add t q v = some (Except.ok t') ∧
      isWF Dd t' = true ∧ size t' = size t + 1 ∧ capacity t' = capacity t ∧
      (entries t').Perm (entries t ++ [(q, v)]) ∧ boundsGrew t t' = true := by
  obtain ⟨t', heq, hwf, hs, hc, _, _, hpm, hbg⟩ :=
    add_unchecked_main (height t + 1) t q v fw hw (Nat.le_succ _) hcap hqf hql
  refine ⟨t', ?_, isWF_of_isWFF hwf, hs, hc, hpm, hbg⟩
  have hcp : check_point q = Except.ok () := by
    rw [check_point, if_pos (show List.all q Fp.isFinite = true from hqf)]
  rw [add, if_neg (by simp only [beq_iff_eq]; omega), hcp, heq]
  rfl

/-- `add` on a well-formed tree never panics: some result is always
returned (an error value for a zero-capacity tree or a non-finite point,
otherwise the updated tree). -/
theorem add_total {Dd : Nat} {t : KdTree T} {q : Point} {v : T} {fw : Nat}
    (hw : isWFF Dd fw t = true) (hql : q.length = Dd) :
    ∃ res, add t q v = some res := by
  by_cases hc0 : capacity t = 0
  · exact ⟨Except.error ErrorKind.ZeroCapacity, by rw [add, if_pos (by simp [hc0])]⟩
  · by_cases hqf : finitePt q = true
    · obtain ⟨t', heq, _⟩ := add_main hw (by omega) hqf hql
      exact ⟨Except.ok t', heq⟩
    · refine ⟨Except.error ErrorKind.NonFiniteCoordinate, ?_⟩
      rw [add, if_neg (by simp only [beq_iff_eq]; omega), check_point,
        if_neg (fun hcontra : List.all q Fp.isFinite = true => hqf hcontra)]

/-- The `remove` wrapper preserves well-formedness, shape and bounds, and
decrements the size by exactly the removed count. -/
theorem remove_main [DecidableEq T] {Dd : Nat} {t : KdTree T} {p : Point} {v : T}
    {fw : Nat} {t' : KdTree T} {n : Nat}
    (hw : isWFF Dd fw t = true)
    (h : remove t p v = some (Except.ok (t', n))) :
    isWF Dd t' = true ∧ n ≤ size t ∧ size t' = size t - n ∧
    capacity t' = capacity t ∧ sameBounds t t' = true ∧
    ∃ removed : List (Point × T), (entries t).Perm (entries t' ++ removed) ∧
      removed.length = n := by
  obtain ⟨hwf, rest⟩ := removeF_main (height t + 1) t p v fw t' n hw (Nat.le_succ _) h
  exact ⟨isWF_of_isWFF hwf, rest⟩

/-- Invariant of all reachable trees: well-formedness, the fixed capacity,
and the size accounting `size + removed = inserted`. -/
theorem reachable_inv [DecidableEq T] {Dd cap : Nat} {t : KdTree T} {ins rem : Nat}
    (h : Reachable Dd cap t ins rem) :
    isWF Dd t = true ∧ capacity t = cap ∧ 0 < cap ∧ size t + rem = ins := by
  induction h with
  | init hcap =>
    exact ⟨isWF_of_isWFF (with_capacity_isWFF (f := 0)), rfl, hcap, rfl⟩
  | addStep p v hr hlen heq ihr =>
    obtain ⟨hwf, hcap2, hcpos, hsz⟩ := ihr
    rename_i t0 ins0 rem0 t1
    have hqf : finitePt p = true := by
      by_contra hnf
      rw [add, if_neg (by simp only [beq_iff_eq]; omega), check_point,
        if_neg (fun hcontra : List.all p Fp.isFinite = true => hnf hcontra)] at heq
      simp at heq
    obtain ⟨t1', heq', hwf', hs', hc', _⟩ := add_main hwf (by omega) hqf hlen
    rw [heq'] at heq
    simp only [Option.some.injEq, Except.ok.injEq] at heq
    subst heq
    exact ⟨hwf', by omega, hcpos, by omega⟩
  | removeStep p v hr heq ihr =>
    obtain ⟨hwf, hcap2, hcpos, hsz⟩ := ihr
    obtain ⟨hwf', hn, hs', hc', _⟩ := remove_main hwf heq
    exact ⟨hwf', by omega, hcpos, by omega⟩

/-- Well-formedness implies the `size` fields are exactly the entry counts
of the subtrees (the `sizesOk` invariant). -/
theorem sizesOk_of_isWFF {Dd : Nat} : ∀ {f : Nat} {t : KdTree T},
    isWFF Dd f t = true → sizesOk t = true ∧ (entries t).length = size t := by
  intro f
  induction f with
  | zero => intro t hw; simp [isWFF] at hw
  | succ g ih =>
    intro t hw
    cases t with
    | mk l r cap sz minb maxb sv sd ps? bs? =>
      obtain ⟨_, hleaf | hstem⟩ := isWFF_cases hw
      · obtain ⟨e1, e2, e3, e4, ps, bs, e5, e6, hsz, hlen, _⟩ := hleaf
        subst e1; subst e2; subst e3; subst e4; subst e5; subst e6
        have hml : (entries (mk none none cap sz minb maxb none none (some ps)
            (some bs) : KdTree T)).length = sz := by
          rw [entries_leaf, List.length_zip]
          omega
        constructor
        · simp [sizesOk, hml, size]
        · exact hml
      · obtain ⟨lt, rt, svv, dim, e1, e2, e3, e4, e5, e6, _, _, hsz, _, _, _, _,
          hwl, hwr, _⟩ := hstem
        subst e1; subst e2; subst e3; subst e4; subst e5; subst e6
        obtain ⟨hsoL, hslL⟩ := ih hwl
        obtain ⟨hsoR, hslR⟩ := ih hwr
        have hml : (entries (mk (some lt) (some rt) cap sz minb maxb (some svv)
            (some dim) none none : KdTree T)).length = sz := by
          rw [entries_stem, List.length_append]
          omega
        constructor
        · simp [sizesOk, hml, size, hsoL, hsoR]
        · exact hml

/-- Well-formedness implies every stored point lies inside every enclosing
node's box (the `containOk` invariant). -/
theorem containOk_of_isWFF {Dd : Nat} : ∀ {f : Nat} {t : KdTree T},
    isWFF Dd f t = true → containOk t = true := by
  intro f
  induction f with
  | zero => intro t hw; simp [isWFF] at hw
  | succ g ih =>
    intro t hw
    cases t with
    | mk l r cap sz minb maxb sv sd ps? bs? =>
      obtain ⟨_, hleaf | hstem⟩ := isWFF_cases hw
      · obtain ⟨e1, e2, e3, e4, ps, bs, e5, e6, hsz, hlen, hpts, _⟩ := hleaf
        subst e1; subst e2; subst e3; subst e4; subst e5; subst e6
        have : ∀ e ∈ (entries (mk none none cap sz minb maxb none none (some ps)
            (some bs) : KdTree T)), inBounds minb maxb e.1 = true := by
          intro e he
          rw [entries_leaf] at he
          exact (hpts e.1 (List.of_mem_zip he).1).2
        simp only [containOk, Bool.and_eq_true, List.all_eq_true]
        exact ⟨⟨fun e he => this e he, trivial⟩, trivial⟩
      · obtain ⟨lt, rt, svv, dim, e1, e2, e3, e4, e5, e6, _, _, hsz, _, _, _, _,
          hwl, hwr, hcont⟩ := hstem
        subst e1; subst e2; subst e3; subst e4; subst e5; subst e6
        have : ∀ e ∈ (entries (mk (some lt) (some rt) cap sz minb maxb (some svv)
            (some dim) none none : KdTree T)), inBounds minb maxb e.1 = true := by
          intro e he
          rw [entries_stem] at he
          exact hcont e he
        simp only [containOk, Bool.and_eq_true, List.all_eq_true]
        exact ⟨⟨fun e he => this e he, ih hwl⟩, ih hwr⟩

/-- On a well-formed tree the removal traversal enters `2 · #stems`
children: both children of every stem, never just one. -/
theorem removeDescentsF_eq [DecidableEq T] {Dd : Nat} {p : Point} {v : T}
    (hpf : finitePt p = true) :
    ∀ (g : Nat) (t : KdTree T) (fw : Nat), isWFF Dd fw t = true → height t ≤ g →
    removeDescentsF g t p v = 2 * countStems t := by
  have hcp : check_point p = Except.ok () := by
    rw [check_point, if_pos (show List.all p Fp.isFinite = true from hpf)]
  intro g
  induction g with
  | zero =>
    intro t fw hw hg
    have := height_pos t
    omega
  | succ g ih =>
    intro t fw hw hg
    cases t with
    | mk l r cap sz minb maxb sv sd ps? bs? =>
      obtain ⟨_, hleaf | hstem⟩ := isWFF_cases (isWFF_retime hw (Nat.le_succ _))
      · obtain ⟨e1, e2, e3, e4, ps, bs, e5, e6, _⟩ := hleaf
        subst e1; subst e2; subst e3; subst e4; subst e5; subst e6
        rw [removeDescentsF, hcp]
        simp [countStems, is_leaf, bucket, points, split_value, split_dimension,
          left, right]
      · obtain ⟨lt, rt, svv, dim, e1, e2, e3, e4, e5, e6, _, _, _, _, _, _, _,
          hwl, hwr, _⟩ := hstem
        subst e1; subst e2; subst e3; subst e4; subst e5; subst e6
        have hhl : height lt ≤ g := by
          simp only [height] at hg
          omega
        have hhr : height rt ≤ g := by
          simp only [height] at hg
          omega
        rw [removeDescentsF, hcp]
        on_goal 2 => simp
        dsimp only
        rw [ih lt _ hwl hhl, ih rt _ hwr hhr]
        simp [countStems, is_leaf, bucket, points, split_value, split_dimension,
          left, right]
        omega

theorem eq_of_pointEq {x p : Point} (h : pointEq x p = true) : x = p := by
  induction x generalizing p with
  | nil => cases p <;> simp_all [pointEq]
  | cons a as ih =>
    cases p with
    | nil => simp [pointEq] at h
    | cons b bs =>
      simp only [pointEq, List.zip_cons_cons, List.all_cons, Bool.and_eq_true,
        beq_iff_eq] at h
      obtain ⟨hlen, hab, hrest⟩ := h
      have h1 : a = b := Fp.eq_of_feq hab
      have h2 : as = bs := ih (by
        simp only [pointEq, Bool.and_eq_true, beq_iff_eq]
        exact ⟨by simpa using hlen, by simpa using hrest⟩)
      rw [h1, h2]

end KdTree

/-! Groundwork for the search stack: heap `pop`, sorting, and the pending-heap
book-keeping used by `nearest`, `within` and the nearest iterator. -/

namespace Fp

theorem neg_zero_eq : neg zero = zero := by
  simp [neg, zero]

theorem fmin_pinf {k : Fp} (h : k.isNan = false) : fmin pinf k = k := by
  cases k <;> simp_all [fmin, fle, isNan]

theorem pinf_flt (x : Fp) : flt pinf x = false := by
  cases x <;> rfl

theorem fmin_isNan {a b : Fp} (ha : a.isNan = false) (hb : b.isNan = false) :
    (fmin a b).isNan = false := by
  simp only [fmin, ha, hb, Bool.false_eq_true, if_false]
  split
  · exact ha
  · exact hb

theorem fle_eq_false_of_flt {a b : Fp} (h : flt a b = true) : fle b a = false := by
  cases a <;> cases b <;> simp_all [fle, flt]

theorem flt_of_fle_eq_false {a b : Fp} (ha : a.isNan = false) (hb : b.isNan = false)
    (h : fle a b = false) : flt b a = true := by
  cases a <;> cases b <;> simp_all [fle, flt, isNan]

theorem fle_nan (a : Fp) : fle a nan = false := by
  cases a <;> rfl

theorem eq_nan_of_isNan {a : Fp} (h : a.isNan = true) : a = nan := by
  cases a <;> simp_all [isNan]

end Fp

theorem perm_of_multiset {α : Type} {l1 l2 : List α}
    (h : (l1 : Multiset α) = (l2 : Multiset α)) : l1.Perm l2 :=
  Multiset.coe_eq_coe.mp h

theorem popMax_eq_none {α : Type} {l : List (Fp × α)} : popMax l = none ↔ l = [] := by
  cases l with
  | nil => simp [popMax]
  | cons x xs =>
    simp only [popMax]
    constructor
    · intro h
      rcases hm : popMax xs with _ | ⟨m, rest⟩ <;> rw [hm] at h
      · simp at h
      · dsimp only at h
        split at h <;> simp at h
    · intro h
      simp at h

theorem popMax_perm {α : Type} {l : List (Fp × α)} {m : Fp × α} {rest : List (Fp × α)}
    (h : popMax l = some (m, rest)) : l.Perm (m :: rest) := by
  induction l generalizing m rest with
  | nil => simp [popMax] at h
  | cons x xs ih =>
    rw [popMax] at h
    rcases hm : popMax xs with _ | ⟨m2, rest2⟩ <;> rw [hm] at h
    · have hxs : xs = [] := popMax_eq_none.mp hm
      subst hxs
      simp only [Option.some.injEq, Prod.mk.injEq] at h
      obtain ⟨h1, h2⟩ := h
      subst h1
      subst h2
      exact List.Perm.refl _
    · dsimp only at h
      have hperm := ih hm
      split at h <;> simp only [Option.some.injEq, Prod.mk.injEq] at h <;>
          obtain ⟨h1, h2⟩ := h <;> subst h1 <;> subst h2
      · exact (hperm.cons x).trans (List.Perm.swap _ _ _)
      · exact hperm.cons x

theorem popMax_mem {α : Type} {l : List (Fp × α)} {m : Fp × α} {rest : List (Fp × α)}
    (h : popMax l = some (m, rest)) : m ∈ l :=
  (popMax_perm h).symm.mem_iff.mp (List.mem_cons_self _ _)

theorem popMax_max {α : Type} {l : List (Fp × α)} {m : Fp × α} {rest : List (Fp × α)}
    (h : popMax l = some (m, rest)) (hnn : ∀ x ∈ l, x.1.isNan = false) :
    ∀ x ∈ l, Fp.fle x.1 m.1 = true := by
  induction l generalizing m rest with
  | nil => simp [popMax] at h
  | cons x xs ih =>
    rw [popMax] at h
    rcases hm : popMax xs with _ | ⟨m2, rest2⟩ <;> rw [hm] at h
    · have hxs : xs = [] := popMax_eq_none.mp hm
      subst hxs
      simp only [Option.some.injEq, Prod.mk.injEq] at h
      obtain ⟨h1, h2⟩ := h
      subst h1
      intro y hy
      have hyx : y = x := by simpa using hy
      subst hyx
      exact Fp.fle_refl (hnn y (List.mem_cons_self _ _))
    · dsimp only at h
      have hmax2 := ih hm fun y hy => hnn y (List.mem_cons_of_mem _ hy)
      have hm2nn : m2.1.isNan = false := hnn m2 (List.mem_cons_of_mem _ (popMax_mem hm))
      have hxnn : x.1.isNan = false := hnn x (List.mem_cons_self _ _)
      by_cases hlt : Fp.flt x.1 m2.1 = true
      · rw [if_pos hlt] at h
        simp only [Option.some.injEq, Prod.mk.injEq] at h
        obtain ⟨h1, h2⟩ := h
        subst h1
        subst h2
        intro y hy
        rcases List.mem_cons.mp hy with hyx | hy2
        · subst hyx
          exact Fp.fle_of_flt hlt
        · exact hmax2 y hy2
      · rw [if_neg hlt] at h
        simp only [Option.some.injEq, Prod.mk.injEq] at h
        obtain ⟨h1, h2⟩ := h
        subst h1
        subst h2
        have hle2 : Fp.fle m2.1 x.1 = true := by
          by_contra hc
          exact hlt ((Fp.flt_iff_not_fle hxnn hm2nn).mpr hc)
        intro y hy
        rcases List.mem_cons.mp hy with hyx | hy2
        · subst hyx
          exact Fp.fle_refl hxnn
        · exact Fp.fle_trans (hmax2 y hy2) hle2

theorem peekKey_eq_none {α : Type} {l : List (Fp × α)} : peekKey l = none ↔ l = [] := by
  rw [peekKey]
  rcases hm : popMax l with _ | p
  · simp [popMax_eq_none.mp hm]
  · constructor
    · intro h
      simp at h
    · intro h
      subst h
      simp [popMax] at hm

theorem peekKey_some {α : Type} {l : List (Fp × α)} {k : Fp} (h : peekKey l = some k) :
    ∃ v rest, popMax l = some ((k, v), rest) := by
  rw [peekKey] at h
  rcases hm : popMax l with _ | ⟨⟨k2, v⟩, rest⟩ <;> rw [hm] at h
  · simp at h
  · simp at h
    obtain rfl := h
    exact ⟨v, rest, rfl⟩

theorem intoSortedVec_perm {α : Type} (l : List (Fp × α)) : (intoSortedVec l).Perm l :=
  List.perm_insertionSort _ _

theorem intoSortedVec_pairwise {α : Type} (l : List (Fp × α)) :
    (intoSortedVec l).Pairwise heLE :=
  List.sorted_insertionSort _ _

theorem pairwise_fle_of_heLE {α : Type} {l : List (Fp × α)}
    (hnn : ∀ x ∈ l, x.1.isNan = false) (hs : l.Pairwise heLE) :
    l.Pairwise fun a b => Fp.fle a.1 b.1 = true := by
  refine List.Pairwise.imp_of_mem ?_ hs
  intro a b ha hb hR
  have hR2 : Fp.leT a.1 b.1 = true := hR
  rwa [Fp.leT_eq_fle (hnn a ha) (hnn b hb)] at hR2

theorem map_fst_eq_of_perm_of_sorted {α : Type} {l1 l2 : List (Fp × α)}
    (hp : l1.Perm l2) (h1 : l1.Pairwise fun a b => Fp.fle a.1 b.1 = true)
    (h2 : l2.Pairwise fun a b => Fp.fle a.1 b.1 = true) :
    l1.map Prod.fst = l2.map Prod.fst := by
  haveI : IsAntisymm Fp fun a b => Fp.fle a b = true := ⟨fun a b => Fp.fle_antisymm⟩
  have h1m : (l1.map Prod.fst).Pairwise fun a b => Fp.fle a b = true := by
    rw [List.pairwise_map]
    exact h1
  have h2m : (l2.map Prod.fst).Pairwise fun a b => Fp.fle a b = true := by
    rw [List.pairwise_map]
    exact h2
  exact List.eq_of_perm_of_sorted (hp.map Prod.fst) h1m h2m

theorem perm_filter_of_split {α : Type} {l A B : List (Fp × α)} (p : Fp × α → Bool)
    (hperm : l.Perm (A ++ B)) (hA : ∀ a ∈ A, p a = true) (hB : ∀ b ∈ B, p b = false) :
    (l.filter p).Perm A := by
  have h1 : (l.filter p).Perm ((A ++ B).filter p) := hperm.filter p
  rw [List.filter_append] at h1
  have hA2 : A.filter p = A := List.filter_eq_self.mpr hA
  have hB2 : B.filter p = [] := by
    rw [List.filter_eq_nil_iff]
    intro a ha
    simp [hB a ha]
  rw [hA2, hB2] at h1
  simpa using h1

namespace KdTree

variable {T : Type}

theorem entries_inBounds {Dd f : Nat} {t : KdTree T} (hw : isWFF Dd f t = true) :
    ∀ e ∈ entries t, inBounds (min_bounds t) (max_bounds t) e.1 = true := by
  obtain ⟨g, rfl⟩ : ∃ g, f = g + 1 := by
    cases f with
    | zero => simp [isWFF] at hw
    | succ g => exact ⟨g, rfl⟩
  cases t with
  | mk l r cap sz minb maxb sv sd ps? bs? =>
    obtain ⟨_, hleaf | hstem⟩ := isWFF_cases hw
    · obtain ⟨e1, e2, e3, e4, ps, bs, e5, e6, hsz, hlen, hpts, _⟩ := hleaf
      subst e1; subst e2; subst e3; subst e4; subst e5; subst e6
      intro e he
      rw [entries_leaf] at he
      simpa [min_bounds, max_bounds] using (hpts e.1 (List.of_mem_zip he).1).2
    · obtain ⟨lt, rt, svv, dim, e1, e2, e3, e4, e5, e6, _, _, _, _, _, _, _, _, _,
        hcont⟩ := hstem
      subst e1; subst e2; subst e3; subst e4; subst e5; subst e6
      intro e he
      rw [entries_stem] at he
      simpa [min_bounds, max_bounds] using hcont e he

theorem nodeCount_pos (t : KdTree T) : 1 ≤ nodeCount t := by
  cases t with
  | mk l r cap sz minb maxb sv sd ps bs =>
    rcases l with _ | lt <;> rcases r with _ | rt <;> simp [nodeCount] <;> omega

theorem is_leaf_leaf (cap sz : Nat) (minb maxb : Point) (ps : List Point) (bs : List T) :
    is_leaf (mk none none cap sz minb maxb none none (some ps) (some bs) : KdTree T)
      = true := rfl

theorem is_leaf_stem (lt rt : KdTree T) (cap sz : Nat) (minb maxb : Point) (svv : Fp)
    (dim : Nat) :
    is_leaf (mk (some lt) (some rt) cap sz minb maxb (some svv) (some dim) none none)
      = false := rfl

theorem entryDists_length (d : Point → Point → Fp) (q : Point) (l : List (Point × T)) :
    (entryDists d q l).length = l.length := by
  simp [entryDists]

theorem entryDists_append (d : Point → Point → Fp) (q : Point) (l1 l2 : List (Point × T)) :
    entryDists d q (l1 ++ l2) = entryDists d q l1 ++ entryDists d q l2 := by
  simp [entryDists]

theorem entryDists_key_nonNan (d : Point → Point → Fp) (q : Point)
    (Hnn : ∀ a b, Fp.fle Fp.zero (d a b) = true) (l : List (Point × T)) :
    ∀ x ∈ entryDists d q l, x.1.isNan = false := by
  intro x hx
  simp only [entryDists, List.mem_map] at hx
  obtain ⟨e, he, rfl⟩ := hx
  exact Fp.not_nan_right_of_fle (Hnn q e.1)

theorem pendEntries_nil (d : Point → Point → Fp) (q : Point) :
    pendEntries d q ([] : List (Fp × KdTree T)) = [] := rfl

theorem pendEntries_cons (d : Point → Point → Fp) (q : Point) (x : Fp × KdTree T)
    (P : List (Fp × KdTree T)) :
    pendEntries d q (x :: P) = entryDists d q (entries x.2) ++ pendEntries d q P := by
  simp [pendEntries]

theorem pendEntries_append (d : Point → Point → Fp) (q : Point)
    (P1 P2 : List (Fp × KdTree T)) :
    pendEntries d q (P1 ++ P2) = pendEntries d q P1 ++ pendEntries d q P2 := by
  simp [pendEntries]

theorem pendEntries_perm (d : Point → Point → Fp) (q : Point)
    {P1 P2 : List (Fp × KdTree T)} (h : P1.Perm P2) :
    (pendEntries d q P1).Perm (pendEntries d q P2) :=
  (h.map _).flatten

theorem pendingCount_cons (x : Fp × KdTree T) (P : List (Fp × KdTree T)) :
    pendingCount (x :: P) = nodeCount x.2 + pendingCount P := by
  simp [pendingCount]

theorem pendingCount_append (P1 P2 : List (Fp × KdTree T)) :
    pendingCount (P1 ++ P2) = pendingCount P1 + pendingCount P2 := by
  simp [pendingCount]

theorem pendingCount_perm {P1 P2 : List (Fp × KdTree T)} (h : P1.Perm P2) :
    pendingCount P1 = pendingCount P2 :=
  (h.map _).sum_eq

theorem nodeCount_leaf (cap sz : Nat) (minb maxb : Point) (sv : Option Fp)
    (sd : Option Nat) (ps : Option (List Point)) (bs : Option (List T)) :
    nodeCount (mk none none cap sz minb maxb sv sd ps bs) = 1 := rfl

theorem nodeCount_stem (lt rt : KdTree T) (cap sz : Nat) (minb maxb : Point)
    (sv : Option Fp) (sd : Option Nat) (ps : Option (List Point))
    (bs : Option (List T)) :
    nodeCount (mk (some lt) (some rt) cap sz minb maxb sv sd ps bs) =
      1 + nodeCount lt + nodeCount rt := rfl

theorem nearest_descend_leaf (d : Point → Point → Fp) (q : Point) (edist : Fp)
    (g cap sz : Nat) (minb maxb : Point) (ps : List Point) (bs : List T)
    (pending : List (Fp × KdTree T)) :
    nearest_descend d q edist (g + 1)
      (mk none none cap sz minb maxb none none (some ps) (some bs)) pending =
    some (mk none none cap sz minb maxb none none (some ps) (some bs), pending) := rfl

theorem nearest_descend_stem (d : Point → Point → Fp) (q : Point) (edist : Fp)
    (g : Nat) (lt rt : KdTree T) (cap sz : Nat) (minb maxb : Point) (svv : Fp)
    (dim : Nat) (pending : List (Fp × KdTree T)) :
    nearest_descend d q edist (g + 1)
      (mk (some lt) (some rt) cap sz minb maxb (some svv) (some dim) none none)
      pending =
    match q[dim]? with
    | none => none
    | some c =>
      if Fp.flt c svv then
        nearest_descend d q edist g lt
          (if Fp.fle (distance_to_space d q rt.min_bounds rt.max_bounds) edist then
            (Fp.neg (distance_to_space d q rt.min_bounds rt.max_bounds), rt) :: pending
          else pending)
      else
        nearest_descend d q edist g rt
          (if Fp.fle (distance_to_space d q lt.min_bounds lt.max_bounds) edist then
            (Fp.neg (distance_to_space d q lt.min_bounds lt.max_bounds), lt) :: pending
          else pending) := rfl

theorem iter_descend_leaf (d : Point → Point → Fp) (q : Point)
    (g cap sz : Nat) (minb maxb : Point) (ps : List Point) (bs : List T)
    (pending : List (Fp × KdTree T)) :
    iter_descend d q (g + 1)
      (mk none none cap sz minb maxb none none (some ps) (some bs)) pending =
    some (mk none none cap sz minb maxb none none (some ps) (some bs), pending) := rfl

theorem iter_descend_stem (d : Point → Point → Fp) (q : Point)
    (g : Nat) (lt rt : KdTree T) (cap sz : Nat) (minb maxb : Point) (svv : Fp)
    (dim : Nat) (pending : List (Fp × KdTree T)) :
    iter_descend d q (g + 1)
      (mk (some lt) (some rt) cap sz minb maxb (some svv) (some dim) none none)
      pending =
    match q[dim]? with
    | none => none
    | some c =>
      if Fp.flt c svv then
        iter_descend d q g lt
          ((Fp.neg (distance_to_space d q rt.min_bounds rt.max_bounds), rt) :: pending)
      else
        iter_descend d q g rt
          ((Fp.neg (distance_to_space d q lt.min_bounds lt.max_bounds), lt) :: pending)
      := rfl

theorem entryDists_flatten (d : Point → Point → Fp) (q : Point)
    (pushed : List (Fp × KdTree T)) :
    entryDists d q ((pushed.map fun x => entries x.2).flatten) =
      pendEntries d q pushed := by
  induction pushed with
  | nil => rfl
  | cons x P ih =>
    simp only [List.map_cons, List.flatten_cons, pendEntries_cons, entryDists_append, ih]

theorem eval_entries_total {num : Nat} (hnum : 0 < num) (mdist : Fp) :
    ∀ (els ev : List (Fp × T)), ∃ ev2, eval_entries num mdist els ev = some ev2 := by
  intro els
  induction els with
  | nil =>
    intro ev
    exact ⟨ev, rfl⟩
  | cons e rest ih =>
    intro ev
    rw [eval_entries]
    by_cases h1 : Fp.fle e.1 mdist = true
    · rw [if_pos h1]
      by_cases h2 : ev.length < num
      · rw [if_pos h2]
        exact ih _
      · rw [if_neg h2]
        have hne : ev ≠ [] := by
          intro hc
          rw [hc] at h2
          simp at h2
          omega
        rcases hm : popMax ev with _ | ⟨m, restEv⟩
        · exact absurd (popMax_eq_none.mp hm) hne
        · dsimp only
          split
          · exact ih _
          · exact ih _
    · rw [if_neg h1]
      exact ih _

theorem eval_entries_no_evict (num : Nat) (mdist : Fp) :
    ∀ (els ev : List (Fp × T)), ev.length + els.length ≤ num →
      eval_entries num mdist els ev =
        some ((els.filter fun e => Fp.fle e.1 mdist).reverse ++ ev) := by
  intro els
  induction els with
  | nil =>
    intro ev h
    simp [eval_entries]
  | cons e rest ih =>
    intro ev h
    rw [eval_entries]
    by_cases h1 : Fp.fle e.1 mdist = true
    · rw [if_pos h1, if_pos (by simp only [List.length_cons] at h; omega)]
      rw [ih (e :: ev) (by simp only [List.length_cons] at h ⊢; omega)]
      simp [List.filter_cons, h1]
    · rw [if_neg h1]
      rw [ih ev (by simp only [List.length_cons] at h; omega)]
      simp [List.filter_cons, h1]

theorem eval_entries_top {num : Nat} (hnum : 0 < num) :
    ∀ (els ev rest : List (Fp × T)),
      (∀ x ∈ ev, x.1.isNan = false) → (∀ x ∈ els, x.1.isNan = false) →
      TopSplit num ev rest →
      ∃ ev2 restNew, eval_entries num Fp.pinf els ev = some ev2 ∧
        (ev ++ els).Perm (ev2 ++ restNew) ∧
        TopSplit num ev2 (rest ++ restNew) ∧
        (∀ x ∈ ev2, x.1.isNan = false) ∧
        (∀ k, (∀ x ∈ ev, Fp.fle x.1 k = true) → ev.length = num →
          ∀ x ∈ ev2, Fp.fle x.1 k = true) := by
  intro els
  induction els with
  | nil =>
    intro ev rest hevnn _ hts
    exact ⟨ev, [], rfl, by simp, by simpa using hts, hevnn, fun k hk _ => hk⟩
  | cons e els2 ih =>
    intro ev rest hevnn helsnn hts
    obtain ⟨hlen, hdom⟩ := hts
    have hennn : e.1.isNan = false := helsnn e (List.mem_cons_self _ _)
    have hfle : Fp.fle e.1 Fp.pinf = true := Fp.fle_pinf hennn
    rw [eval_entries, if_pos hfle]
    by_cases h2 : ev.length < num
    · rw [if_pos h2]
      have hrest : rest = [] := by
        rcases rest with _ | ⟨b, rb⟩
        · rfl
        · exfalso
          simp only [List.length_cons] at hlen
          omega
      subst hrest
      have hts2 : TopSplit num (e :: ev) [] := by
        refine ⟨?_, ?_⟩
        · simp only [List.length_cons, List.length_nil]
          omega
        · intro a ha b hb
          simp at hb
      have hev2nn : ∀ x ∈ e :: ev, x.1.isNan = false := by
        intro x hx
        rcases List.mem_cons.mp hx with rfl | hx2
        · exact hennn
        · exact hevnn x hx2
      obtain ⟨ev2, restNew, heq, hperm, hts3, hnn3, _⟩ :=
        ih (e :: ev) [] hev2nn (fun x hx => helsnn x (List.mem_cons_of_mem _ hx)) hts2
      refine ⟨ev2, restNew, heq, ?_, ?_, hnn3, ?_⟩
      · exact List.perm_middle.trans hperm
      · simpa using hts3
      · intro k hk hlenk
        exact absurd hlenk (by omega)
    · rw [if_neg h2]
      have hevlen : ev.length = num := by
        omega
      have hevne : ev ≠ [] := by
        intro hc
        rw [hc] at hevlen
        simp at hevlen
        omega
      rcases hm : popMax ev with _ | ⟨m, restEv⟩
      · exact absurd (popMax_eq_none.mp hm) hevne
      · dsimp only
        have hperm0 : ev.Perm (m :: restEv) := popMax_perm hm
        have hmax : ∀ x ∈ ev, Fp.fle x.1 m.1 = true := popMax_max hm hevnn
        have hmnn : m.1.isNan = false := hevnn m (popMax_mem hm)
        have hrestEvnn : ∀ x ∈ restEv, x.1.isNan = false := fun x hx =>
          hevnn x (hperm0.symm.mem_iff.mp (List.mem_cons_of_mem _ hx))
        have hlrev : restEv.length + 1 = ev.length := by
          have hl0 := hperm0.length_eq
          simp only [List.length_cons] at hl0
          omega
        by_cases h3 : Fp.flt e.1 m.1 = true
        · rw [if_pos h3]
          have hts2 : TopSplit num (e :: restEv) (rest ++ [m]) := by
            refine ⟨?_, ?_⟩
            · simp only [List.length_cons, List.length_append, List.length_nil]
              omega
            · intro a ha b hb
              rcases List.mem_cons.mp ha with rfl | ha2
              · rcases List.mem_append.mp hb with hb1 | hb2
                · exact Fp.fle_of_flt
                    (Fp.flt_of_flt_of_fle h3 (hdom m (popMax_mem hm) b hb1))
                · have hbm : b = m := by simpa using hb2
                  subst hbm
                  exact Fp.fle_of_flt h3
              · have haev : a ∈ ev :=
                  hperm0.symm.mem_iff.mp (List.mem_cons_of_mem _ ha2)
                rcases List.mem_append.mp hb with hb1 | hb2
                · exact hdom a haev b hb1
                · have hbm : b = m := by simpa using hb2
                  subst hbm
                  exact hmax a haev
          have hnn2 : ∀ x ∈ e :: restEv, x.1.isNan = false := by
            intro x hx
            rcases List.mem_cons.mp hx with rfl | hx2
            · exact hennn
            · exact hrestEvnn x hx2
          obtain ⟨ev2, restNew, heq, hperm, hts3, hnn3, hmono⟩ :=
            ih (e :: restEv) (rest ++ [m]) hnn2
              (fun x hx => helsnn x (List.mem_cons_of_mem _ hx)) hts2
          refine ⟨ev2, m :: restNew, heq, ?_, ?_, hnn3, ?_⟩
          · exact (hperm0.append_right _).trans
              ((List.Perm.cons m (List.perm_middle.trans hperm)).trans
                List.perm_middle.symm)
          · have hre : (rest ++ [m]) ++ restNew = rest ++ m :: restNew := by simp
            rwa [hre] at hts3
          · intro k hk hlenk
            refine hmono k ?_ ?_
            · intro x hx
              rcases List.mem_cons.mp hx with rfl | hx2
              · exact Fp.fle_of_flt (Fp.flt_of_flt_of_fle h3 (hk m (popMax_mem hm)))
              · exact hk x (hperm0.symm.mem_iff.mp (List.mem_cons_of_mem _ hx2))
            · simp only [List.length_cons]
              omega
        · rw [if_neg h3]
          have hmle : Fp.fle m.1 e.1 = true := by
            by_contra hc
            exact h3 ((Fp.flt_iff_not_fle hennn hmnn).mpr hc)
          have hts2 : TopSplit num ev (rest ++ [e]) := by
            refine ⟨?_, ?_⟩
            · simp only [List.length_append, List.length_cons, List.length_nil]
              omega
            · intro a ha b hb
              rcases List.mem_append.mp hb with hb1 | hb2
              · exact hdom a ha b hb1
              · have hbe : b = e := by simpa using hb2
                subst hbe
                exact Fp.fle_trans (hmax a ha) hmle
          obtain ⟨ev2, restNew, heq, hperm, hts3, hnn3, hmono⟩ :=
            ih ev (rest ++ [e]) hevnn
              (fun x hx => helsnn x (List.mem_cons_of_mem _ hx)) hts2
          refine ⟨ev2, e :: restNew, heq, ?_, ?_, hnn3, ?_⟩
          · exact List.perm_middle.trans ((hperm.cons e).trans List.perm_middle.symm)
          · have hre : (rest ++ [e]) ++ restNew = rest ++ e :: restNew := by simp
            rwa [hre] at hts3
          · intro k hk hlenk
            exact hmono k hk hlenk

theorem nearest_descend_spec {Dd : Nat} {d : Point → Point → Fp} {q : Point}
    (Hnn : ∀ a b, Fp.fle Fp.zero (d a b) = true)
    (Hcons : ∀ minb maxb x, inBounds minb maxb x = true →
      Fp.fle (d q (clampPoint q minb maxb)) (d q x) = true)
    (hq : q.length = Dd) {edist : Fp} (hed : edist.isNan = false) :
    ∀ (g : Nat) (t : KdTree T) (fw : Nat) (pending : List (Fp × KdTree T)),
      isWFF Dd fw t = true → height t ≤ g →
      ∃ leaf pending2 pushed dropped,
        nearest_descend d q edist g t pending = some (leaf, pending2) ∧
        (∃ ps bs, points leaf = some ps ∧ bucket leaf = some bs ∧
          entries leaf = ps.zip bs) ∧
        pending2 = pushed ++ pending ∧
        (∀ x ∈ pushed, (∃ fx, isWFF Dd fx x.2 = true) ∧ x.1.isNan = false ∧
          ∀ e ∈ entries x.2, Fp.fle (Fp.neg x.1) (d q e.1) = true) ∧
        (entries t).Perm (entries leaf ++ (pushed.map fun x => entries x.2).flatten
          ++ dropped) ∧
        (∀ e ∈ dropped, Fp.flt edist (d q e.1) = true) ∧
        nodeCount leaf + pendingCount pushed ≤ nodeCount t := by
  intro g
  induction g with
  | zero =>
    intro t fw pending hw hg
    exact absurd hg (by have := height_pos t; omega)
  | succ g ih =>
    intro t fw pending hw hg
    cases t with
    | mk l r cap sz minb maxb sv sd ps? bs? =>
      obtain ⟨hbase, hleaf | hstem⟩ := isWFF_cases (isWFF_retime hw (Nat.le_succ _))
      · obtain ⟨e1, e2, e3, e4, ps, bs, e5, e6, hsz, hlen, hpts, _⟩ := hleaf
        subst e1; subst e2; subst e3; subst e4; subst e5; subst e6
        refine ⟨_, pending, [], [], nearest_descend_leaf d q edist g cap sz minb maxb
          ps bs pending, ⟨ps, bs, rfl, rfl, entries_leaf _ _ _ _ _ _ _ _⟩, by simp,
          by simp, ?_, by simp, ?_⟩
        · simp only [List.map_nil, List.flatten_nil, List.append_nil]
          exact List.Perm.refl _
        · simp only [pendingCount, List.map_nil, List.sum_nil, nodeCount_leaf]
          omega
      · obtain ⟨lt, rt, svv, dim, e1, e2, e3, e4, e5, e6, hdim, hsvf, hszs, hcl, hcr,
          hfmin, hfmax, hwl, hwr, hcont⟩ := hstem
        subst e1; subst e2; subst e3; subst e4; subst e5; subst e6
        have hhl : height lt ≤ g := by
          simp only [height] at hg
          omega
        have hhr : height rt ≤ g := by
          simp only [height] at hg
          omega
        obtain ⟨c, hqd⟩ : ∃ c, q[dim]? = some c :=
          ⟨_, List.getElem?_eq_getElem (show dim < q.length by omega)⟩
        rw [nearest_descend_stem, hqd]
        dsimp only
        by_cases hflt : Fp.flt c svv = true
        · rw [if_pos hflt]
          have hctsnn : (distance_to_space d q rt.min_bounds rt.max_bounds).isNan
              = false := by
            rw [distance_to_space]
            exact Fp.not_nan_right_of_fle (Hnn q _)
          by_cases hpush :
              Fp.fle (distance_to_space d q rt.min_bounds rt.max_bounds) edist = true
          · rw [if_pos hpush]
            obtain ⟨leaf, pending2, pushed, dropped, hrec, hleafS, hpend2, hpushed,
              hperm, hdrop, hcount⟩ := ih lt _ ((Fp.neg (distance_to_space d q
                rt.min_bounds rt.max_bounds), rt) :: pending) hwl hhl
            refine ⟨leaf, pending2, pushed ++ [(Fp.neg (distance_to_space d q
              rt.min_bounds rt.max_bounds), rt)], dropped, hrec, hleafS, ?_, ?_, ?_,
              hdrop, ?_⟩
            · rw [hpend2]
              simp
            · intro x hx
              rcases List.mem_append.mp hx with hx1 | hx2
              · exact hpushed x hx1
              · have hxe : x = (Fp.neg (distance_to_space d q rt.min_bounds
                    rt.max_bounds), rt) := by simpa using hx2
                subst hxe
                refine ⟨⟨_, hwr⟩, ?_, ?_⟩
                · simp [Fp.neg_isNan, hctsnn]
                · intro e he
                  simp only [Fp.neg_neg]
                  rw [distance_to_space]
                  exact Hcons _ _ _ (entries_inBounds hwr e he)
            · rw [entries_stem]
              apply perm_of_multiset
              have c1 := Multiset.coe_eq_coe.mpr hperm
              simp only [List.map_append, List.map_cons, List.map_nil,
                List.flatten_append, List.flatten_cons, List.flatten_nil,
                List.append_nil]
              simp only [← Multiset.coe_add] at c1 ⊢
              rw [c1]
              abel
            · have hpc : pendingCount (pushed ++ [(Fp.neg (distance_to_space d q
                  rt.min_bounds rt.max_bounds), rt)]) =
                  pendingCount pushed + nodeCount rt := by
                rw [pendingCount_append, pendingCount_cons]
                simp [pendingCount]
              rw [nodeCount_stem, hpc]
              omega
          · rw [if_neg hpush]
            obtain ⟨leaf, pending2, pushed, dropped, hrec, hleafS, hpend2, hpushed,
              hperm, hdrop, hcount⟩ := ih lt _ pending hwl hhl
            have hflt2 : Fp.flt edist (distance_to_space d q rt.min_bounds
                rt.max_bounds) = true :=
              Fp.flt_of_fle_eq_false hctsnn hed (by simpa using hpush)
            refine ⟨leaf, pending2, pushed, dropped ++ entries rt, hrec, hleafS,
              hpend2, hpushed, ?_, ?_, ?_⟩
            · rw [entries_stem]
              apply perm_of_multiset
              have c1 := Multiset.coe_eq_coe.mpr hperm
              simp only [← Multiset.coe_add] at c1 ⊢
              rw [c1]
              abel
            · intro e he
              rcases List.mem_append.mp he with he1 | he2
              · exact hdrop e he1
              · refine Fp.flt_of_flt_of_fle hflt2 ?_
                rw [distance_to_space]
                exact Hcons _ _ _ (entries_inBounds hwr e he2)
            · rw [nodeCount_stem]
              omega
        · rw [if_neg hflt]
          have hctsnn : (distance_to_space d q lt.min_bounds lt.max_bounds).isNan
              = false := by
            rw [distance_to_space]
            exact Fp.not_nan_right_of_fle (Hnn q _)
          by_cases hpush :
              Fp.fle (distance_to_space d q lt.min_bounds lt.max_bounds) edist = true
          · rw [if_pos hpush]
            obtain ⟨leaf, pending2, pushed, dropped, hrec, hleafS, hpend2, hpushed,
              hperm, hdrop, hcount⟩ := ih rt _ ((Fp.neg (distance_to_space d q
                lt.min_bounds lt.max_bounds), lt) :: pending) hwr hhr
            refine ⟨leaf, pending2, pushed ++ [(Fp.neg (distance_to_space d q
              lt.min_bounds lt.max_bounds), lt)], dropped, hrec, hleafS, ?_, ?_, ?_,
              hdrop, ?_⟩
            · rw [hpend2]
              simp
            · intro x hx
              rcases List.mem_append.mp hx with hx1 | hx2
              · exact hpushed x hx1
              · have hxe : x = (Fp.neg (distance_to_space d q lt.min_bounds
                    lt.max_bounds), lt) := by simpa using hx2
                subst hxe
                refine ⟨⟨_, hwl⟩, ?_, ?_⟩
                · simp [Fp.neg_isNan, hctsnn]
                · intro e he
                  simp only [Fp.neg_neg]
                  rw [distance_to_space]
                  exact Hcons _ _ _ (entries_inBounds hwl e he)
            · rw [entries_stem]
              apply perm_of_multiset
              have c1 := Multiset.coe_eq_coe.mpr hperm
              simp only [List.map_append, List.map_cons, List.map_nil,
                List.flatten_append, List.flatten_cons, List.flatten_nil,
                List.append_nil]
              simp only [← Multiset.coe_add] at c1 ⊢
              rw [c1]
              abel
            · have hpc : pendingCount (pushed ++ [(Fp.neg (distance_to_space d q
                  lt.min_bounds lt.max_bounds), lt)]) =
                  pendingCount pushed + nodeCount lt := by
                rw [pendingCount_append, pendingCount_cons]
                simp [pendingCount]
              rw [nodeCount_stem, hpc]
              omega
          · rw [if_neg hpush]
            obtain ⟨leaf, pending2, pushed, dropped, hrec, hleafS, hpend2, hpushed,
              hperm, hdrop, hcount⟩ := ih rt _ pending hwr hhr
            have hflt2 : Fp.flt edist (distance_to_space d q lt.min_bounds
                lt.max_bounds) = true :=
              Fp.flt_of_fle_eq_false hctsnn hed (by simpa using hpush)
            refine ⟨leaf, pending2, pushed, dropped ++ entries lt, hrec, hleafS,
              hpend2, hpushed, ?_, ?_, ?_⟩
            · rw [entries_stem]
              apply perm_of_multiset
              have c1 := Multiset.coe_eq_coe.mpr hperm
              simp only [← Multiset.coe_add] at c1 ⊢
              rw [c1]
              abel
            · intro e he
              rcases List.mem_append.mp he with he1 | he2
              · exact hdrop e he1
              · refine Fp.flt_of_flt_of_fle hflt2 ?_
                rw [distance_to_space]
                exact Hcons _ _ _ (entries_inBounds hwl e he2)
            · rw [nodeCount_stem]
              omega

theorem iter_descend_spec {Dd : Nat} {d : Point → Point → Fp} {q : Point}
    (Hnn : ∀ a b, Fp.fle Fp.zero (d a b) = true)
    (Hcons : ∀ minb maxb x, inBounds minb maxb x = true →
      Fp.fle (d q (clampPoint q minb maxb)) (d q x) = true)
    (hq : q.length = Dd) :
    ∀ (g : Nat) (t : KdTree T) (fw : Nat) (pending : List (Fp × KdTree T)),
      isWFF Dd fw t = true → height t ≤ g →
      ∃ leaf pending2 pushed,
        iter_descend d q g t pending = some (leaf, pending2) ∧
        (∃ ps bs, points leaf = some ps ∧ bucket leaf = some bs ∧
          entries leaf = ps.zip bs) ∧
        pending2 = pushed ++ pending ∧
        (∀ x ∈ pushed, (∃ fx, isWFF Dd fx x.2 = true) ∧ x.1.isNan = false ∧
          ∀ e ∈ entries x.2, Fp.fle (Fp.neg x.1) (d q e.1) = true) ∧
        (entries t).Perm (entries leaf ++ (pushed.map fun x => entries x.2).flatten) ∧
        nodeCount leaf + pendingCount pushed ≤ nodeCount t := by
  intro g
  induction g with
  | zero =>
    intro t fw pending hw hg
    exact absurd hg (by have := height_pos t; omega)
  | succ g ih =>
    intro t fw pending hw hg
    cases t with
    | mk l r cap sz minb maxb sv sd ps? bs? =>
      obtain ⟨hbase, hleaf | hstem⟩ := isWFF_cases (isWFF_retime hw (Nat.le_succ _))
      · obtain ⟨e1, e2, e3, e4, ps, bs, e5, e6, hsz, hlen, hpts, _⟩ := hleaf
        subst e1; subst e2; subst e3; subst e4; subst e5; subst e6
        refine ⟨_, pending, [], iter_descend_leaf d q g cap sz minb maxb
          ps bs pending, ⟨ps, bs, rfl, rfl, entries_leaf _ _ _ _ _ _ _ _⟩, by simp,
          by simp, ?_, ?_⟩
        · simp only [List.map_nil, List.flatten_nil, List.append_nil]
          exact List.Perm.refl _
        · simp only [pendingCount, List.map_nil, List.sum_nil, nodeCount_leaf]
          omega
      · obtain ⟨lt, rt, svv, dim, e1, e2, e3, e4, e5, e6, hdim, hsvf, hszs, hcl, hcr,
          hfmin, hfmax, hwl, hwr, hcont⟩ := hstem
        subst e1; subst e2; subst e3; subst e4; subst e5; subst e6
        have hhl : height lt ≤ g := by
          simp only [height] at hg
          omega
        have hhr : height rt ≤ g := by
          simp only [height] at hg
          omega
        obtain ⟨c, hqd⟩ : ∃ c, q[dim]? = some c :=
          ⟨_, List.getElem?_eq_getElem (show dim < q.length by omega)⟩
        rw [iter_descend_stem, hqd]
        dsimp only
        by_cases hflt : Fp.flt c svv = true
        · rw [if_pos hflt]
          have hctsnn : (distance_to_space d q rt.min_bounds rt.max_bounds).isNan
              = false := by
            rw [distance_to_space]
            exact Fp.not_nan_right_of_fle (Hnn q _)
          obtain ⟨leaf, pending2, pushed, hrec, hleafS, hpend2, hpushed,
            hperm, hcount⟩ := ih lt _ ((Fp.neg (distance_to_space d q
              rt.min_bounds rt.max_bounds), rt) :: pending) hwl hhl
          refine ⟨leaf, pending2, pushed ++ [(Fp.neg (distance_to_space d q
            rt.min_bounds rt.max_bounds), rt)], hrec, hleafS, ?_, ?_, ?_, ?_⟩
          · rw [hpend2]
            simp
          · intro x hx
            rcases List.mem_append.mp hx with hx1 | hx2
            · exact hpushed x hx1
            · have hxe : x = (Fp.neg (distance_to_space d q rt.min_bounds
                  rt.max_bounds), rt) := by simpa using hx2
              subst hxe
              refine ⟨⟨_, hwr⟩, ?_, ?_⟩
              · simp [Fp.neg_isNan, hctsnn]
              · intro e he
                simp only [Fp.neg_neg]
                rw [distance_to_space]
                exact Hcons _ _ _ (entries_inBounds hwr e he)
          · rw [entries_stem]
            apply perm_of_multiset
            have c1 := Multiset.coe_eq_coe.mpr hperm
            simp only [List.map_append, List.map_cons, List.map_nil,
              List.flatten_append, List.flatten_cons, List.flatten_nil,
              List.append_nil]
            simp only [← Multiset.coe_add] at c1 ⊢
            rw [c1]
            abel
          · have hpc : pendingCount (pushed ++ [(Fp.neg (distance_to_space d q
                rt.min_bounds rt.max_bounds), rt)]) =
                pendingCount pushed + nodeCount rt := by
              rw [pendingCount_append, pendingCount_cons]
              simp [pendingCount]
            rw [nodeCount_stem, hpc]
            omega
        · rw [if_neg hflt]
          have hctsnn : (distance_to_space d q lt.min_bounds lt.max_bounds).isNan
              = false := by
            rw [distance_to_space]
            exact Fp.not_nan_right_of_fle (Hnn q _)
          obtain ⟨leaf, pending2, pushed, hrec, hleafS, hpend2, hpushed,
            hperm, hcount⟩ := ih rt _ ((Fp.neg (distance_to_space d q
              lt.min_bounds lt.max_bounds), lt) :: pending) hwr hhr
          refine ⟨leaf, pending2, pushed ++ [(Fp.neg (distance_to_space d q
            lt.min_bounds lt.max_bounds), lt)], hrec, hleafS, ?_, ?_, ?_, ?_⟩
          · rw [hpend2]
            simp
          · intro x hx
            rcases List.mem_append.mp hx with hx1 | hx2
            · exact hpushed x hx1
            · have hxe : x = (Fp.neg (distance_to_space d q lt.min_bounds
                  lt.max_bounds), lt) := by simpa using hx2
              subst hxe
              refine ⟨⟨_, hwl⟩, ?_, ?_⟩
              · simp [Fp.neg_isNan, hctsnn]
              · intro e he
                simp only [Fp.neg_neg]
                rw [distance_to_space]
                exact Hcons _ _ _ (entries_inBounds hwl e he)
          · rw [entries_stem]
            apply perm_of_multiset
            have c1 := Multiset.coe_eq_coe.mpr hperm
            simp only [List.map_append, List.map_cons, List.map_nil,
              List.flatten_append, List.flatten_cons, List.flatten_nil,
              List.append_nil]
            simp only [← Multiset.coe_add] at c1 ⊢
            rw [c1]
            abel
          · have hpc : pendingCount (pushed ++ [(Fp.neg (distance_to_space d q
                lt.min_bounds lt.max_bounds), lt)]) =
                pendingCount pushed + nodeCount lt := by
              rw [pendingCount_append, pendingCount_cons]
              simp [pendingCount]
            rw [nodeCount_stem, hpc]
            omega

theorem nearest_descend_total {Dd : Nat} (d : Point → Point → Fp) (q : Point)
    (hq : q.length = Dd) (edist : Fp) :
    ∀ (g : Nat) (t : KdTree T) (fw : Nat) (pending : List (Fp × KdTree T)),
      isWFF Dd fw t = true → height t ≤ g →
      ∃ leaf pending2 pushed,
        nearest_descend d q edist g t pending = some (leaf, pending2) ∧
        (∃ ps bs, points leaf = some ps ∧ bucket leaf = some bs ∧
          entries leaf = ps.zip bs) ∧
        pending2 = pushed ++ pending ∧
        (∀ x ∈ pushed, ∃ fx, isWFF Dd fx x.2 = true) ∧
        nodeCount leaf + pendingCount pushed ≤ nodeCount t := by
  intro g
  induction g with
  | zero =>
    intro t fw pending hw hg
    exact absurd hg (by have := height_pos t; omega)
  | succ g ih =>
    intro t fw pending hw hg
    cases t with
    | mk l r cap sz minb maxb sv sd ps? bs? =>
      obtain ⟨hbase, hleaf | hstem⟩ := isWFF_cases (isWFF_retime hw (Nat.le_succ _))
      · obtain ⟨e1, e2, e3, e4, ps, bs, e5, e6, hsz, hlen, hpts, _⟩ := hleaf
        subst e1; subst e2; subst e3; subst e4; subst e5; subst e6
        refine ⟨_, pending, [], nearest_descend_leaf d q edist g cap sz minb maxb
          ps bs pending, ⟨ps, bs, rfl, rfl, entries_leaf _ _ _ _ _ _ _ _⟩, by simp,
          by simp, ?_⟩
        simp only [pendingCount, List.map_nil, List.sum_nil, nodeCount_leaf]
        omega
      · obtain ⟨lt, rt, svv, dim, e1, e2, e3, e4, e5, e6, hdim, hsvf, hszs, hcl, hcr,
          hfmin, hfmax, hwl, hwr, hcont⟩ := hstem
        subst e1; subst e2; subst e3; subst e4; subst e5; subst e6
        have hhl : height lt ≤ g := by
          simp only [height] at hg
          omega
        have hhr : height rt ≤ g := by
          simp only [height] at hg
          omega
        obtain ⟨c, hqd⟩ : ∃ c, q[dim]? = some c :=
          ⟨_, List.getElem?_eq_getElem (show dim < q.length by omega)⟩
        rw [nearest_descend_stem, hqd]
        dsimp only
        by_cases hflt : Fp.flt c svv = true
        · rw [if_pos hflt]
          by_cases hpush :
              Fp.fle (distance_to_space d q rt.min_bounds rt.max_bounds) edist = true
          · rw [if_pos hpush]
            obtain ⟨leaf, pending2, pushed, hrec, hleafS, hpend2, hpushed, hcount⟩ :=
              ih lt _ ((Fp.neg (distance_to_space d q rt.min_bounds rt.max_bounds),
                rt) :: pending) hwl hhl
            refine ⟨leaf, pending2, pushed ++ [(Fp.neg (distance_to_space d q
              rt.min_bounds rt.max_bounds), rt)], hrec, hleafS, ?_, ?_, ?_⟩
            · rw [hpend2]
              simp
            · intro x hx
              rcases List.mem_append.mp hx with hx1 | hx2
              · exact hpushed x hx1
              · have hxe : x = (Fp.neg (distance_to_space d q rt.min_bounds
                    rt.max_bounds), rt) := by simpa using hx2
                subst hxe
                exact ⟨_, hwr⟩
            · have hpc : pendingCount (pushed ++ [(Fp.neg (distance_to_space d q
                  rt.min_bounds rt.max_bounds), rt)]) =
                  pendingCount pushed + nodeCount rt := by
                rw [pendingCount_append, pendingCount_cons]
                simp [pendingCount]
              rw [nodeCount_stem, hpc]
              omega
          · rw [if_neg hpush]
            obtain ⟨leaf, pending2, pushed, hrec, hleafS, hpend2, hpushed, hcount⟩ :=
              ih lt _ pending hwl hhl
            refine ⟨leaf, pending2, pushed, hrec, hleafS, hpend2, hpushed, ?_⟩
            rw [nodeCount_stem]
            omega
        · rw [if_neg hflt]
          by_cases hpush :
              Fp.fle (distance_to_space d q lt.min_bounds lt.max_bounds) edist = true
          · rw [if_pos hpush]
            obtain ⟨leaf, pending2, pushed, hrec, hleafS, hpend2, hpushed, hcount⟩ :=
              ih rt _ ((Fp.neg (distance_to_space d q lt.min_bounds lt.max_bounds),
                lt) :: pending) hwr hhr
            refine ⟨leaf, pending2, pushed ++ [(Fp.neg (distance_to_space d q
              lt.min_bounds lt.max_bounds), lt)], hrec, hleafS, ?_, ?_, ?_⟩
            · rw [hpend2]
              simp
            · intro x hx
              rcases List.mem_append.mp hx with hx1 | hx2
              · exact hpushed x hx1
              · have hxe : x = (Fp.neg (distance_to_space d q lt.min_bounds
                    lt.max_bounds), lt) := by simpa using hx2
                subst hxe
                exact ⟨_, hwl⟩
            · have hpc : pendingCount (pushed ++ [(Fp.neg (distance_to_space d q
                  lt.min_bounds lt.max_bounds), lt)]) =
                  pendingCount pushed + nodeCount lt := by
                rw [pendingCount_append, pendingCount_cons]
                simp [pendingCount]
              rw [nodeCount_stem, hpc]
              omega
          · rw [if_neg hpush]
            obtain ⟨leaf, pending2, pushed, hrec, hleafS, hpend2, hpushed, hcount⟩ :=
              ih rt _ pending hwr hhr
            refine ⟨leaf, pending2, pushed, hrec, hleafS, hpend2, hpushed, ?_⟩
            rw [nodeCount_stem]
            omega

theorem nearest_step_spec {Dd : Nat} {d : Point → Point → Fp} {q : Point}
    (Hnn : ∀ a b, Fp.fle Fp.zero (d a b) = true)
    (Hcons : ∀ minb maxb x, inBounds minb maxb x = true →
      Fp.fle (d q (clampPoint q minb maxb)) (d q x) = true)
    (hq : q.length = Dd) {num : Nat} (hnum : 0 < num) {mdist : Fp}
    (hmd : mdist.isNan = false) {pending : List (Fp × KdTree T)}
    {ev : List (Fp × T)} (hpi : PendInv Dd d q pending)
    (hevnn : ∀ x ∈ ev, x.1.isNan = false) (hevlen : ev.length ≤ num)
    {pk : Fp} {t : KdTree T} {pendingRest : List (Fp × KdTree T)}
    (hpop : popMax pending = some ((pk, t), pendingRest)) :
    ∃ pushed els edist ev2,
      nearest_step d q num mdist pending ev = some (pushed ++ pendingRest, ev2) ∧
      PendInv Dd d q (pushed ++ pendingRest) ∧
      eval_entries num mdist els ev = some ev2 ∧
      (∀ x ∈ els, x.1.isNan = false) ∧
      els.length ≤ (entries t).length ∧
      edist.isNan = false ∧
      ((ev.length = num ∧ ∃ ek, peekKey ev = some ek ∧ ek.isNan = false ∧
          edist = Fp.fmin mdist ek) ∨ (ev.length < num ∧ edist = mdist)) ∧
      (∃ dropped,
        (entryDists d q (entries t)).Perm (els ++ pendEntries d q pushed ++ dropped) ∧
        (∀ b ∈ dropped, Fp.flt edist b.1 = true)) ∧
      pendingCount (pushed ++ pendingRest) < pendingCount pending := by
  have htmem : (pk, t) ∈ pending := popMax_mem hpop
  obtain ⟨⟨ft, hwt⟩, hpknn, hbddt⟩ := hpi (pk, t) htmem
  have hpermP : pending.Perm ((pk, t) :: pendingRest) := popMax_perm hpop
  have hpiRest : PendInv Dd d q pendingRest := fun x hx =>
    hpi x (hpermP.symm.mem_iff.mp (List.mem_cons_of_mem _ hx))
  have hpcP : pendingCount pending = nodeCount t + pendingCount pendingRest := by
    rw [pendingCount_perm hpermP, pendingCount_cons]
  rw [nearest_step, hpop]
  dsimp only
  by_cases hc : ev.length = num
  · have hbeq : (ev.length == num) = true := by
      simpa using hc
    rw [if_pos hbeq]
    have hevne : ev ≠ [] := by
      intro h0
      rw [h0] at hc
      simp at hc
      omega
    rcases hpe : peekKey ev with _ | ek
    · exact absurd (peekKey_eq_none.mp hpe) hevne
    · dsimp only
      obtain ⟨vk, restk, hpopEv⟩ := peekKey_some hpe
      have heknn : ek.isNan = false := hevnn (ek, vk) (popMax_mem hpopEv)
      have hednn : (Fp.fmin mdist ek).isNan = false := Fp.fmin_isNan hmd heknn
      obtain ⟨leaf, pending2, pushed, dropped, hrec, ⟨ps, bs, hps, hbs, hzip⟩,
        hpend2, hpushed, hperm, hdrop, hcount⟩ :=
        nearest_descend_spec Hnn Hcons hq hednn (height t + 1) t ft pendingRest hwt
          (Nat.le_succ _)
      rw [hrec]
      dsimp only
      rw [hps, hbs]
      dsimp only
      obtain ⟨ev2, heval⟩ := eval_entries_total hnum mdist
        ((ps.zip bs).map fun x => (d q x.1, x.2)) ev
      rw [heval]
      dsimp only
      subst hpend2
      refine ⟨pushed, (ps.zip bs).map fun x => (d q x.1, x.2), Fp.fmin mdist ek, ev2,
        rfl, ?_, heval, ?_, ?_, hednn, Or.inl ⟨hc, ek, rfl, heknn, rfl⟩,
        ⟨entryDists d q dropped, ?_, ?_⟩, ?_⟩
      · intro x hx
        rcases List.mem_append.mp hx with hx1 | hx2
        · exact (hpushed x hx1).1.elim fun fx hfx => ⟨⟨fx, hfx⟩, (hpushed x hx1).2⟩
        · exact hpiRest x hx2
      · intro x hx
        simp only [List.mem_map] at hx
        obtain ⟨e, he, rfl⟩ := hx
        exact Fp.not_nan_right_of_fle (Hnn q e.1)
      · have hl := hperm.length_eq
        simp only [List.length_append] at hl
        rw [List.length_map, ← hzip]
        omega
      · have hm := hperm.map fun e => (d q e.1, e.2)
        simp only [List.map_append] at hm
        have hflat2 : ((pushed.map fun x => entries x.2).flatten).map
            (fun e => (d q e.1, e.2)) = pendEntries d q pushed :=
          entryDists_flatten d q pushed
        rw [hflat2, hzip] at hm
        exact hm
      · intro b hb
        simp only [entryDists, List.mem_map] at hb
        obtain ⟨e, he, rfl⟩ := hb
        exact hdrop e he
      · rw [pendingCount_append]
        have h1 := nodeCount_pos leaf
        omega
  · have hbeq : ¬ ((ev.length == num) = true) := by
      simpa using hc
    rw [if_neg hbeq]
    dsimp only
    obtain ⟨leaf, pending2, pushed, dropped, hrec, ⟨ps, bs, hps, hbs, hzip⟩,
      hpend2, hpushed, hperm, hdrop, hcount⟩ :=
      nearest_descend_spec Hnn Hcons hq hmd (height t + 1) t ft pendingRest hwt
        (Nat.le_succ _)
    rw [hrec]
    dsimp only
    rw [hps, hbs]
    dsimp only
    obtain ⟨ev2, heval⟩ := eval_entries_total hnum mdist
      ((ps.zip bs).map fun x => (d q x.1, x.2)) ev
    rw [heval]
    dsimp only
    subst hpend2
    refine ⟨pushed, (ps.zip bs).map fun x => (d q x.1, x.2), mdist, ev2,
      rfl, ?_, heval, ?_, ?_, hmd, Or.inr ⟨by omega, rfl⟩,
      ⟨entryDists d q dropped, ?_, ?_⟩, ?_⟩
    · intro x hx
      rcases List.mem_append.mp hx with hx1 | hx2
      · exact (hpushed x hx1).1.elim fun fx hfx => ⟨⟨fx, hfx⟩, (hpushed x hx1).2⟩
      · exact hpiRest x hx2
    · intro x hx
      simp only [List.mem_map] at hx
      obtain ⟨e, he, rfl⟩ := hx
      exact Fp.not_nan_right_of_fle (Hnn q e.1)
    · have hl := hperm.length_eq
      simp only [List.length_append] at hl
      rw [List.length_map, ← hzip]
      omega
    · have hm := hperm.map fun e => (d q e.1, e.2)
      simp only [List.map_append] at hm
      have hflat2 : ((pushed.map fun x => entries x.2).flatten).map
          (fun e => (d q e.1, e.2)) = pendEntries d q pushed :=
        entryDists_flatten d q pushed
      rw [hflat2, hzip] at hm
      exact hm
    · intro b hb
      simp only [entryDists, List.mem_map] at hb
      obtain ⟨e, he, rfl⟩ := hb
      exact hdrop e he
    · rw [pendingCount_append]
      have h1 := nodeCount_pos leaf
      omega

theorem nearest_step_total {Dd : Nat} (d : Point → Point → Fp) (q : Point)
    (hq : q.length = Dd) {num : Nat} (hnum : 0 < num) (mdist : Fp)
    {pending : List (Fp × KdTree T)} (ev : List (Fp × T))
    (hpi : PendInvW Dd pending)
    {pk : Fp} {t : KdTree T} {pendingRest : List (Fp × KdTree T)}
    (hpop : popMax pending = some ((pk, t), pendingRest)) :
    ∃ pending3 ev2,
      nearest_step d q num mdist pending ev = some (pending3, ev2) ∧
      PendInvW Dd pending3 ∧
      pendingCount pending3 < pendingCount pending := by
  have htmem : (pk, t) ∈ pending := popMax_mem hpop
  obtain ⟨ft, hwt⟩ := hpi (pk, t) htmem
  have hpermP : pending.Perm ((pk, t) :: pendingRest) := popMax_perm hpop
  have hpiRest : PendInvW Dd pendingRest := fun x hx =>
    hpi x (hpermP.symm.mem_iff.mp (List.mem_cons_of_mem _ hx))
  have hpcP : pendingCount pending = nodeCount t + pendingCount pendingRest := by
    rw [pendingCount_perm hpermP, pendingCount_cons]
  rw [nearest_step, hpop]
  dsimp only
  by_cases hc : ev.length = num
  · have hbeq : (ev.length == num) = true := by
      simpa using hc
    rw [if_pos hbeq]
    have hevne : ev ≠ [] := by
      intro h0
      rw [h0] at hc
      simp at hc
      omega
    rcases hpe : peekKey ev with _ | ek
    · exact absurd (peekKey_eq_none.mp hpe) hevne
    · dsimp only
      obtain ⟨leaf, pending2, pushed, hrec, ⟨ps, bs, hps, hbs, hzip⟩,
        hpend2, hpushed, hcount⟩ :=
        nearest_descend_total d q hq (Fp.fmin mdist ek) (height t + 1) t ft
          pendingRest hwt (Nat.le_succ _)
      rw [hrec]
      dsimp only
      rw [hps, hbs]
      dsimp only
      obtain ⟨ev2, heval⟩ := eval_entries_total hnum mdist
        ((ps.zip bs).map fun x => (d q x.1, x.2)) ev
      rw [heval]
      dsimp only
      subst hpend2
      refine ⟨pushed ++ pendingRest, ev2, rfl, ?_, ?_⟩
      · intro x hx
        rcases List.mem_append.mp hx with hx1 | hx2
        · exact hpushed x hx1
        · exact hpiRest x hx2
      · rw [pendingCount_append]
        have h1 := nodeCount_pos leaf
        omega
  · have hbeq : ¬ ((ev.length == num) = true) := by
      simpa using hc
    rw [if_neg hbeq]
    dsimp only
    obtain ⟨leaf, pending2, pushed, hrec, ⟨ps, bs, hps, hbs, hzip⟩,
      hpend2, hpushed, hcount⟩ :=
      nearest_descend_total d q hq mdist (height t + 1) t ft pendingRest hwt
        (Nat.le_succ _)
    rw [hrec]
    dsimp only
    rw [hps, hbs]
    dsimp only
    obtain ⟨ev2, heval⟩ := eval_entries_total hnum mdist
      ((ps.zip bs).map fun x => (d q x.1, x.2)) ev
    rw [heval]
    dsimp only
    subst hpend2
    refine ⟨pushed ++ pendingRest, ev2, rfl, ?_, ?_⟩
    · intro x hx
      rcases List.mem_append.mp hx with hx1 | hx2
      · exact hpushed x hx1
      · exact hpiRest x hx2
    · rw [pendingCount_append]
      have h1 := nodeCount_pos leaf
      omega

theorem pendEntries_mem {d : Point → Point → Fp} {q : Point}
    {P : List (Fp × KdTree T)} {b : Fp × T} (hb : b ∈ pendEntries d q P) :
    ∃ x ∈ P, ∃ e ∈ entries x.2, b = (d q e.1, e.2) := by
  simp only [pendEntries, List.mem_flatten, List.mem_map, entryDists] at hb
  obtain ⟨L, ⟨x, hx, rfl⟩, hbL⟩ := hb
  simp only [List.mem_map] at hbL
  obtain ⟨e, he, rfl⟩ := hbL
  exact ⟨x, hx, e, he, rfl⟩

theorem within_loop_spec {Dd : Nat} {d : Point → Point → Fp} {q : Point}
    (Hnn : ∀ a b, Fp.fle Fp.zero (d a b) = true)
    (Hcons : ∀ minb maxb x, inBounds minb maxb x = true →
      Fp.fle (d q (clampPoint q minb maxb)) (d q x) = true)
    (hq : q.length = Dd) {num : Nat} (hnum : 0 < num) (radius : Fp)
    (allE : List (Fp × T)) (hallnn : ∀ x ∈ allE, x.1.isNan = false)
    (hallLen : allE.length ≤ num) :
    ∀ (fuel : Nat) (pending : List (Fp × KdTree T)) (ev rest : List (Fp × T)),
      PendInv Dd d q pending →
      pendingCount pending < fuel →
      allE.Perm (pendEntries d q pending ++ ev ++ rest) →
      (∀ a ∈ ev, Fp.fle a.1 radius = true) →
      (∀ b ∈ rest, Fp.fle b.1 radius = false) →
      ∃ ev2 rest2, within_loop d q num radius fuel pending ev = some ev2 ∧
        allE.Perm (ev2 ++ rest2) ∧
        (∀ a ∈ ev2, Fp.fle a.1 radius = true) ∧
        (∀ b ∈ rest2, Fp.fle b.1 radius = false) := by
  intro fuel
  induction fuel with
  | zero =>
    intro pending ev rest hpi hfuel hperm hev hrest
    exact absurd hfuel (by omega)
  | succ fuel ih =>
    intro pending ev rest hpi hfuel hperm hev hrest
    rw [within_loop]
    rcases hpk : peekKey pending with _ | pk
    · dsimp only
      have hpe : pending = [] := peekKey_eq_none.mp hpk
      subst hpe
      refine ⟨ev, rest, rfl, ?_, hev, hrest⟩
      simpa [pendEntries_nil] using hperm
    · dsimp only
      obtain ⟨t, pendingRest, hpop⟩ := peekKey_some hpk
      have hpknn : pk.isNan = false := (hpi (pk, t) (popMax_mem hpop)).2.1
      have hpermP : pending.Perm ((pk, t) :: pendingRest) := popMax_perm hpop
      have hpendPerm : (pendEntries d q pending).Perm
          (entryDists d q (entries t) ++ pendEntries d q pendingRest) := by
        have hpp := pendEntries_perm d q hpermP
        rwa [pendEntries_cons] at hpp
      by_cases hle : Fp.fle (Fp.neg pk) radius = true
      · rw [if_pos hle]
        have hradnn : radius.isNan = false := Fp.not_nan_right_of_fle hle
        have hevnn : ∀ x ∈ ev, x.1.isNan = false := fun x hx =>
          hallnn x (hperm.symm.mem_iff.mp (by simp [hx]))
        have hevlen2 : ev.length ≤ num := by
          have hl := hperm.length_eq
          simp only [List.length_append] at hl
          omega
        obtain ⟨pushed, els, edist, ev2, hstep, hpi2, heval, helsnn, helslen, hednn,
          hedist, ⟨dropped, hpermT, hdropped⟩, hdec⟩ :=
          nearest_step_spec Hnn Hcons hq hnum hradnn hpi hevnn hevlen2 hpop
        have hcnt : ev.length + els.length ≤ num := by
          have h1 := hperm.length_eq
          have h2 := hpendPerm.length_eq
          have h3 := entryDists_length d q (entries t)
          simp only [List.length_append] at h1 h2
          omega
        have hevalEq := eval_entries_no_evict num radius els ev hcnt
        rw [heval] at hevalEq
        have hev2eq : ev2 = (els.filter fun e => Fp.fle e.1 radius).reverse ++ ev :=
          Option.some.inj hevalEq
        subst hev2eq
        have hdropOut : ∀ b ∈ dropped, Fp.fle b.1 radius = false := by
          rcases hedist with ⟨hfull, ek, hpeek, heknn, hedeq⟩ | ⟨hlt2, hedeq⟩
          · have h1 := hperm.length_eq
            have h2 := hpendPerm.length_eq
            have h3 := hpermT.length_eq
            have h4 := entryDists_length d q (entries t)
            simp only [List.length_append] at h1 h2 h3
            intro b hb
            have hdl : dropped.length = 0 := by omega
            rw [List.length_eq_zero.mp hdl] at hb
            simp at hb
          · intro b hb
            have hdb := hdropped b hb
            rw [hedeq] at hdb
            exact Fp.fle_eq_false_of_flt hdb
        rw [hstep]
        dsimp only
        have hfilterPerm : ((els.filter fun e => Fp.fle e.1 radius) ++
            els.filter fun e => !(Fp.fle e.1 radius)).Perm els :=
          List.filter_append_perm _ els
        have hperm2 : allE.Perm (pendEntries d q (pushed ++ pendingRest) ++
            ((els.filter fun e => Fp.fle e.1 radius).reverse ++ ev) ++
            ((els.filter fun e => !(Fp.fle e.1 radius)) ++ dropped ++ rest)) := by
          apply perm_of_multiset
          have c1 := Multiset.coe_eq_coe.mpr hperm
          have c2 := Multiset.coe_eq_coe.mpr hpendPerm
          have c3 := Multiset.coe_eq_coe.mpr hpermT
          have c4 := Multiset.coe_eq_coe.mpr hfilterPerm
          have c5 := Multiset.coe_eq_coe.mpr
            (List.reverse_perm (els.filter fun e => Fp.fle e.1 radius))
          rw [pendEntries_append]
          simp only [← Multiset.coe_add] at c1 c2 c3 c4 c5 ⊢
          rw [c1, c2, c3, ← c4, c5]
          abel
        have hev2 : ∀ a ∈ (els.filter fun e => Fp.fle e.1 radius).reverse ++ ev,
            Fp.fle a.1 radius = true := by
          intro a ha
          rcases List.mem_append.mp ha with ha1 | ha2
          · rw [List.mem_reverse] at ha1
            exact (List.mem_filter.mp ha1).2
          · exact hev a ha2
        have hrest2 : ∀ b ∈ (els.filter fun e => !(Fp.fle e.1 radius)) ++ dropped
            ++ rest, Fp.fle b.1 radius = false := by
          intro b hb
          rcases List.mem_append.mp hb with hb0 | hb3
          · rcases List.mem_append.mp hb0 with hb1 | hb2
            · have hbf := (List.mem_filter.mp hb1).2
              simpa using hbf
            · exact hdropOut b hb2
          · exact hrest b hb3
        exact ih (pushed ++ pendingRest) _ _ hpi2 (by omega) hperm2 hev2 hrest2
      · rw [if_neg hle]
        refine ⟨ev, rest ++ pendEntries d q pending, rfl, ?_, hev, ?_⟩
        · apply perm_of_multiset
          have c1 := Multiset.coe_eq_coe.mpr hperm
          simp only [← Multiset.coe_add] at c1 ⊢
          rw [c1]
          abel
        · intro b hb
          rcases List.mem_append.mp hb with hb1 | hb2
          · exact hrest b hb1
          · rcases Bool.eq_false_or_eq_true radius.isNan with hrad | hradnn
            · rw [Fp.eq_nan_of_isNan hrad]
              exact Fp.fle_nan _
            · obtain ⟨x, hxP, e, he, rfl⟩ := pendEntries_mem hb2
              have hxfacts := hpi x hxP
              have hkeysnn : ∀ y ∈ pending, (y : Fp × KdTree T).1.isNan = false :=
                fun y hy => (hpi y hy).2.1
              have hxle : Fp.fle x.1 pk = true := popMax_max hpop hkeysnn x hxP
              have h1 : Fp.fle (Fp.neg pk) (Fp.neg x.1) = true := Fp.fle_neg hxle
              have h2 : Fp.fle (Fp.neg x.1) (d q e.1) = true := hxfacts.2.2 e he
              have h3 : Fp.fle (Fp.neg pk) (d q e.1) = true := Fp.fle_trans h1 h2
              have h4 : Fp.flt radius (Fp.neg pk) = true :=
                Fp.flt_of_fle_eq_false (by simp [Fp.neg_isNan, hpknn]) hradnn
                  (by simpa using hle)
              exact Fp.fle_eq_false_of_flt (Fp.flt_of_flt_of_fle h4 h3)

theorem perm_step_assemble {α : Type}
    {allE pendP entT pendR els pendPush dropped ev rest ev2 restNew : List α}
    (P0 : allE.Perm (pendP ++ ev ++ rest))
    (P1 : pendP.Perm (entT ++ pendR))
    (P2 : entT.Perm (els ++ pendPush ++ dropped))
    (P3 : (ev ++ els).Perm (ev2 ++ restNew)) :
    allE.Perm ((pendPush ++ pendR) ++ ev2 ++ (rest ++ restNew ++ dropped)) := by
  apply perm_of_multiset
  have c0 := Multiset.coe_eq_coe.mpr P0
  have c1 := Multiset.coe_eq_coe.mpr P1
  have c2 := Multiset.coe_eq_coe.mpr P2
  have c3 := Multiset.coe_eq_coe.mpr P3
  simp only [← Multiset.coe_add] at c0 c1 c2 c3 ⊢
  rw [c0, c1, c2]
  calc (els : Multiset α) + (pendPush : Multiset α) + (dropped : Multiset α)
        + (pendR : Multiset α) + (ev : Multiset α) + (rest : Multiset α)
      = ((ev : Multiset α) + (els : Multiset α)) + ((pendPush : Multiset α)
        + (dropped : Multiset α) + (pendR : Multiset α) + (rest : Multiset α)) := by
        abel
    _ = ((ev2 : Multiset α) + (restNew : Multiset α)) + ((pendPush : Multiset α)
        + (dropped : Multiset α) + (pendR : Multiset α) + (rest : Multiset α)) := by
        rw [c3]
    _ = ((pendPush : Multiset α) + (pendR : Multiset α)) + (ev2 : Multiset α)
        + ((rest : Multiset α) + (restNew : Multiset α) + (dropped : Multiset α)) := by
        abel

theorem nearest_loop_spec {Dd : Nat} {d : Point → Point → Fp} {q : Point}
    (Hnn : ∀ a b, Fp.fle Fp.zero (d a b) = true)
    (Hcons : ∀ minb maxb x, inBounds minb maxb x = true →
      Fp.fle (d q (clampPoint q minb maxb)) (d q x) = true)
    (hq : q.length = Dd) {num : Nat} (hnum : 0 < num) (allE : List (Fp × T))
    (hallnn : ∀ x ∈ allE, x.1.isNan = false) :
    ∀ (fuel : Nat) (pending : List (Fp × KdTree T)) (ev rest : List (Fp × T)),
      PendInv Dd d q pending →
      pendingCount pending < fuel →
      allE.Perm (pendEntries d q pending ++ ev ++ rest) →
      TopSplit num ev rest →
      ∃ ev2 rest2, nearest_loop d q num fuel pending ev = some ev2 ∧
        allE.Perm (ev2 ++ rest2) ∧
        TopSplit num ev2 rest2 := by
  intro fuel
  induction fuel with
  | zero =>
    intro pending ev rest hpi hfuel hperm hts
    exact absurd hfuel (by omega)
  | succ fuel ih =>
    intro pending ev rest hpi hfuel hperm hts
    rw [nearest_loop]
    rcases hpk : peekKey pending with _ | pk
    · dsimp only
      have hpe0 : pending = [] := peekKey_eq_none.mp hpk
      subst hpe0
      refine ⟨ev, rest, rfl, ?_, hts⟩
      simpa [pendEntries_nil] using hperm
    · dsimp only
      obtain ⟨t, pendingRest, hpop⟩ := peekKey_some hpk
      have hpknn : pk.isNan = false := (hpi (pk, t) (popMax_mem hpop)).2.1
      have hpermP : pending.Perm ((pk, t) :: pendingRest) := popMax_perm hpop
      have hpendPerm : (pendEntries d q pending).Perm
          (entryDists d q (entries t) ++ pendEntries d q pendingRest) := by
        have hpp := pendEntries_perm d q hpermP
        rwa [pendEntries_cons] at hpp
      have hevnn : ∀ x ∈ ev, x.1.isNan = false := fun x hx =>
        hallnn x (hperm.symm.mem_iff.mp (by simp [hx]))
      obtain ⟨htsLen, htsDom⟩ := hts
      by_cases hlt : ev.length < num
      · rw [if_pos hlt]
        obtain ⟨pushed, els, edist, ev2, hstep, hpi2, heval, helsnn, helslen, hednn,
          hedist, ⟨dropped, hpermT, hdropped⟩, hdec⟩ :=
          nearest_step_spec Hnn Hcons hq hnum (show Fp.pinf.isNan = false from rfl)
            hpi hevnn (by omega) hpop
        obtain ⟨ev2T, restNew, hevalT, hpermE, htsE, hnnE, hmonoE⟩ :=
          eval_entries_top hnum els ev rest hevnn helsnn ⟨htsLen, htsDom⟩
        rw [heval] at hevalT
        obtain rfl := Option.some.inj hevalT
        rcases hedist with ⟨hfull, _⟩ | ⟨hlt2, hedeq⟩
        · exact absurd hfull (by omega)
        · subst hedeq
          have hdropNil : dropped = [] := by
            rcases dropped with _ | ⟨b, db⟩
            · rfl
            · have hfb := hdropped b (List.mem_cons_self _ _)
              rw [Fp.pinf_flt] at hfb
              exact absurd hfb (by simp)
          subst hdropNil
          rw [hstep]
          dsimp only
          have hperm2 := perm_step_assemble hperm hpendPerm hpermT hpermE
          rw [← pendEntries_append] at hperm2
          have hts2 : TopSplit num ev2 (rest ++ restNew ++ []) := by
            rw [List.append_nil]
            exact htsE
          exact ih (pushed ++ pendingRest) ev2 (rest ++ restNew ++ []) hpi2
            (by omega) hperm2 hts2
      · rw [if_neg hlt]
        have hevfull : ev.length = num := by omega
        have hevne : ev ≠ [] := by
          intro h0
          rw [h0] at hevfull
          simp at hevfull
          omega
        rcases hpe : peekKey ev with _ | ek
        · exact absurd (peekKey_eq_none.mp hpe) hevne
        · dsimp only
          obtain ⟨vk, restk, hpopEv⟩ := peekKey_some hpe
          have heknn : ek.isNan = false := hevnn (ek, vk) (popMax_mem hpopEv)
          have hekmax : ∀ x ∈ ev, Fp.fle x.1 ek = true := fun x hx =>
            popMax_max hpopEv hevnn x hx
          by_cases hle : Fp.fle (Fp.neg pk) ek = true
          · rw [if_pos hle]
            obtain ⟨pushed, els, edist, ev2, hstep, hpi2, heval, helsnn, helslen,
              hednn, hedist, ⟨dropped, hpermT, hdropped⟩, hdec⟩ :=
              nearest_step_spec Hnn Hcons hq hnum
                (show Fp.pinf.isNan = false from rfl) hpi hevnn (by omega) hpop
            obtain ⟨ev2T, restNew, hevalT, hpermE, htsE, hnnE, hmonoE⟩ :=
              eval_entries_top hnum els ev rest hevnn helsnn ⟨htsLen, htsDom⟩
            rw [heval] at hevalT
            obtain rfl := Option.some.inj hevalT
            have hedek : edist = ek := by
              rcases hedist with ⟨hfull, ek2, hpeek2, heknn2, hedeq⟩ | ⟨hlt2, _⟩
              · rw [hpe] at hpeek2
                obtain rfl := Option.some.inj hpeek2
                rw [Fp.fmin_pinf heknn] at hedeq
                exact hedeq
              · exact absurd hlt2 (by omega)
            subst hedek
            have hev2le : ∀ x ∈ ev2, Fp.fle x.1 edist = true :=
              hmonoE edist hekmax hevfull
            have hdropDom : ∀ a ∈ ev2, ∀ b ∈ dropped, Fp.fle a.1 b.1 = true := by
              intro a ha b hb
              exact Fp.fle_of_flt
                (Fp.flt_of_fle_of_flt (hev2le a ha) (hdropped b hb))
            rw [hstep]
            dsimp only
            have hperm2 := perm_step_assemble hperm hpendPerm hpermT hpermE
            rw [← pendEntries_append] at hperm2
            have hts2 : TopSplit num ev2 (rest ++ restNew ++ dropped) := by
              obtain ⟨hlenE, hdomE⟩ := htsE
              refine ⟨?_, ?_⟩
              · have h1 := hpermE.length_eq
                simp only [List.length_append] at h1 hlenE ⊢
                omega
              · intro a ha b hb
                rcases List.mem_append.mp hb with hb1 | hb2
                · exact hdomE a ha b hb1
                · exact hdropDom a ha b hb2
            exact ih (pushed ++ pendingRest) ev2 (rest ++ restNew ++ dropped) hpi2
              (by omega) hperm2 hts2
          · rw [if_neg hle]
            refine ⟨ev, rest ++ pendEntries d q pending, rfl, ?_, ?_, ?_⟩
            · apply perm_of_multiset
              have c1 := Multiset.coe_eq_coe.mpr hperm
              simp only [← Multiset.coe_add] at c1 ⊢
              rw [c1]
              abel
            · simp only [List.length_append]
              omega
            · intro a ha b hb
              rcases List.mem_append.mp hb with hb1 | hb2
              · exact htsDom a ha b hb1
              · obtain ⟨x, hxP, e, he, rfl⟩ := pendEntries_mem hb2
                have hxfacts := hpi x hxP
                have hkeysnn : ∀ y ∈ pending, (y : Fp × KdTree T).1.isNan = false :=
                  fun y hy => (hpi y hy).2.1
                have hxle : Fp.fle x.1 pk = true := popMax_max hpop hkeysnn x hxP
                have h1 : Fp.fle (Fp.neg pk) (Fp.neg x.1) = true := Fp.fle_neg hxle
                have h2 : Fp.fle (Fp.neg x.1) (d q e.1) = true := hxfacts.2.2 e he
                have h3 : Fp.fle (Fp.neg pk) (d q e.1) = true := Fp.fle_trans h1 h2
                have h4 : Fp.flt ek (Fp.neg pk) = true :=
                  Fp.flt_of_fle_eq_false (by simp [Fp.neg_isNan, hpknn]) heknn
                    (by simpa using hle)
                exact Fp.fle_of_flt
                  (Fp.flt_of_fle_of_flt (hekmax a ha)
                    (Fp.flt_of_flt_of_fle h4 h3))

theorem iter_state_next {Dd : Nat} {d : Point → Point → Fp} {q : Point}
    (Hnn : ∀ a b, Fp.fle Fp.zero (d a b) = true)
    (Hcons : ∀ minb maxb x, inBounds minb maxb x = true →
      Fp.fle (d q (clampPoint q minb maxb)) (d q x) = true)
    (hq : q.length = Dd) (allE : List (Fp × T))
    {pending : List (Fp × KdTree T)} {ev : List (Fp × T)}
    {pk : Fp} {t : KdTree T} {pendingRest : List (Fp × KdTree T)}
    (hpi : PendInv Dd d q pending)
    (hperm : allE.Perm (pendEntries d q pending ++ ev.map fun x => (Fp.neg x.1, x.2)))
    (hevnn : ∀ x ∈ ev, x.1.isNan = false)
    (hpop : popMax pending = some ((pk, t), pendingRest)) :
    ∃ leaf pending2 ps bs,
      iter_descend d q (height t + 1) t pendingRest = some (leaf, pending2) ∧
      points leaf = some ps ∧ bucket leaf = some bs ∧
      PendInv Dd d q pending2 ∧
      pendingCount pending2 < pendingCount pending ∧
      allE.Perm (pendEntries d q pending2 ++
        (((ps.zip bs).map fun x => (Fp.neg (d q x.1), x.2)) ++ ev).map
          fun x => (Fp.neg x.1, x.2)) ∧
      (∀ x ∈ ((ps.zip bs).map fun x => (Fp.neg (d q x.1), x.2)) ++ ev,
        x.1.isNan = false) := by
  have htmem : (pk, t) ∈ pending := popMax_mem hpop
  obtain ⟨⟨ft, hwt⟩, hpknn, _⟩ := hpi (pk, t) htmem
  have hpermP : pending.Perm ((pk, t) :: pendingRest) := popMax_perm hpop
  have hpiRest : PendInv Dd d q pendingRest := fun x hx =>
    hpi x (hpermP.symm.mem_iff.mp (List.mem_cons_of_mem _ hx))
  have hpcP : pendingCount pending = nodeCount t + pendingCount pendingRest := by
    rw [pendingCount_perm hpermP, pendingCount_cons]
  obtain ⟨leaf, pending2, pushed, hrec, ⟨ps, bs, hps, hbs, hzip⟩, hpend2, hpushed,
    hpermD, hcount⟩ :=
    iter_descend_spec Hnn Hcons hq (height t + 1) t ft pendingRest hwt (Nat.le_succ _)
  subst hpend2
  have hm0 := hpermD.map fun e => (d q e.1, e.2)
  rw [List.map_append] at hm0
  have hflat2 : ((pushed.map fun x => entries x.2).flatten).map
      (fun e => (d q e.1, e.2)) = pendEntries d q pushed :=
    entryDists_flatten d q pushed
  rw [hflat2, hzip] at hm0
  have hm : (entryDists d q (entries t)).Perm
      (entryDists d q (ps.zip bs) ++ pendEntries d q pushed) := hm0
  refine ⟨leaf, pushed ++ pendingRest, ps, bs, hrec, hps, hbs, ?_, ?_, ?_, ?_⟩
  · intro x hx
    rcases List.mem_append.mp hx with hx1 | hx2
    · exact (hpushed x hx1).1.elim fun fx hfx => ⟨⟨fx, hfx⟩, (hpushed x hx1).2⟩
    · exact hpiRest x hx2
  · rw [pendingCount_append]
    have h1 := nodeCount_pos leaf
    omega
  · have hElsU : (((ps.zip bs).map fun x => (Fp.neg (d q x.1), x.2)).map
        fun x => (Fp.neg x.1, x.2)) = entryDists d q (ps.zip bs) := by
      simp only [List.map_map]
      simp [entryDists, Function.comp, Fp.neg_neg]
    have hpendPerm : (pendEntries d q pending).Perm
        (entryDists d q (entries t) ++ pendEntries d q pendingRest) := by
      have hpp := pendEntries_perm d q hpermP
      rwa [pendEntries_cons] at hpp
    apply perm_of_multiset
    rw [pendEntries_append, List.map_append, hElsU]
    have c0 := Multiset.coe_eq_coe.mpr hperm
    have c1 := Multiset.coe_eq_coe.mpr hpendPerm
    have c2 := Multiset.coe_eq_coe.mpr hm
    simp only [← Multiset.coe_add] at c0 c1 c2 ⊢
    rw [c0, c1, c2]
    abel
  · intro x hx
    rcases List.mem_append.mp hx with hx1 | hx2
    · simp only [List.mem_map] at hx1
      obtain ⟨e, he, rfl⟩ := hx1
      simp only [Fp.neg_isNan]
      exact Fp.not_nan_right_of_fle (Hnn q e.1)
    · exact hevnn x hx2

theorem iter_expand_spec {Dd : Nat} {d : Point → Point → Fp} {q : Point}
    (Hnn : ∀ a b, Fp.fle Fp.zero (d a b) = true)
    (Hcons : ∀ minb maxb x, inBounds minb maxb x = true →
      Fp.fle (d q (clampPoint q minb maxb)) (d q x) = true)
    (hq : q.length = Dd) (allE : List (Fp × T)) :
    ∀ (fuel : Nat) (pending : List (Fp × KdTree T)) (ev : List (Fp × T)),
      PendInv Dd d q pending →
      pendingCount pending < fuel →
      allE.Perm (pendEntries d q pending ++ ev.map fun x => (Fp.neg x.1, x.2)) →
      (∀ x ∈ ev, x.1.isNan = false) →
      ∃ pending2 ev2,
        iter_expand d q fuel ⟨pending, ev⟩ = some ⟨pending2, ev2⟩ ∧
        PendInv Dd d q pending2 ∧
        allE.Perm (pendEntries d q pending2 ++ ev2.map fun x => (Fp.neg x.1, x.2)) ∧
        (∀ x ∈ ev2, x.1.isNan = false) ∧
        (pending2 = [] ∨
          ∃ pk ek, peekKey pending2 = some pk ∧ peekKey ev2 = some ek ∧
            Fp.flt (Fp.neg ek) (Fp.neg pk) = true) := by
  intro fuel
  induction fuel with
  | zero =>
    intro pending ev hpi hfuel hperm hevnn
    exact absurd hfuel (by omega)
  | succ fuel ih =>
    intro pending ev hpi hfuel hperm hevnn
    rw [iter_expand]
    dsimp only
    rcases hpk : peekKey pending with _ | pk
    · dsimp only
      exact ⟨pending, ev, rfl, hpi, hperm, hevnn, Or.inl (peekKey_eq_none.mp hpk)⟩
    · dsimp only
      obtain ⟨t, pendingRest, hpop⟩ := peekKey_some hpk
      have hpknn : pk.isNan = false := (hpi (pk, t) (popMax_mem hpop)).2.1
      rcases hpe : peekKey ev with _ | ek
      · dsimp only
        rw [if_pos (Fp.fle_pinf (by simp [Fp.neg_isNan, hpknn]))]
        rw [hpop]
        dsimp only
        obtain ⟨leaf, pending2, ps, bs, hrec, hps, hbs, hpi2, hdec, hperm2, hnn2⟩ :=
          iter_state_next Hnn Hcons hq allE hpi hperm hevnn hpop
        rw [hrec]
        dsimp only
        rw [hps, hbs]
        dsimp only
        exact ih pending2 _ hpi2 (by omega) hperm2 hnn2
      · dsimp only
        have heknn : ek.isNan = false := by
          obtain ⟨vk, restk, hpopEv⟩ := peekKey_some hpe
          exact hevnn (ek, vk) (popMax_mem hpopEv)
        by_cases hcond : Fp.fle (Fp.neg pk) (Fp.neg ek) = true
        · rw [if_pos hcond]
          rw [hpop]
          dsimp only
          obtain ⟨leaf, pending2, ps, bs, hrec, hps, hbs, hpi2, hdec, hperm2, hnn2⟩ :=
            iter_state_next Hnn Hcons hq allE hpi hperm hevnn hpop
          rw [hrec]
          dsimp only
          rw [hps, hbs]
          dsimp only
          exact ih pending2 _ hpi2 (by omega) hperm2 hnn2
        · rw [if_neg hcond]
          refine ⟨pending, ev, rfl, hpi, hperm, hevnn, Or.inr ⟨pk, ek, hpk, hpe, ?_⟩⟩
          exact Fp.flt_of_fle_eq_false (by simp [Fp.neg_isNan, hpknn])
            (by simp [Fp.neg_isNan, heknn]) (by simpa using hcond)

theorem iter_next_spec {Dd : Nat} {d : Point → Point → Fp} {q : Point}
    (Hnn : ∀ a b, Fp.fle Fp.zero (d a b) = true)
    (Hcons : ∀ minb maxb x, inBounds minb maxb x = true →
      Fp.fle (d q (clampPoint q minb maxb)) (d q x) = true)
    (hq : q.length = Dd) (allE : List (Fp × T))
    {pending : List (Fp × KdTree T)} {ev : List (Fp × T)}
    (hpi : PendInv Dd d q pending)
    (hperm : allE.Perm (pendEntries d q pending ++ ev.map fun x => (Fp.neg x.1, x.2)))
    (hevnn : ∀ x ∈ ev, x.1.isNan = false) :
    (allE = [] ∧ iter_next d q ⟨pending, ev⟩ = some none) ∨
    (∃ x p2 e2 allE2, iter_next d q ⟨pending, ev⟩ = some (some (x, ⟨p2, e2⟩)) ∧
      allE.Perm (x :: allE2) ∧
      PendInv Dd d q p2 ∧
      allE2.Perm (pendEntries d q p2 ++ e2.map fun y => (Fp.neg y.1, y.2)) ∧
      (∀ y ∈ e2, y.1.isNan = false) ∧
      (∀ y ∈ allE2, Fp.fle x.1 y.1 = true) ∧ x.1.isNan = false) := by
  obtain ⟨pending2, ev2, hexp, hpi2, hperm2, hevnn2, hstop⟩ :=
    iter_expand_spec Hnn Hcons hq allE (pendingCount pending + 1) pending ev hpi
      (by omega) hperm hevnn
  rw [iter_next]
  dsimp only
  rw [hexp]
  dsimp only
  rcases hpm : popMax ev2 with _ | ⟨⟨nd, v⟩, rest⟩
  · dsimp only
    left
    have hev2nil : ev2 = [] := popMax_eq_none.mp hpm
    subst hev2nil
    have hp2nil : pending2 = [] := by
      rcases hstop with h1 | ⟨pk, ek, hpk2, hpe2, _⟩
      · exact h1
      · have hn : peekKey ([] : List (Fp × T)) = none := peekKey_eq_none.mpr rfl
        rw [hn] at hpe2
        exact absurd hpe2 (by simp)
    subst hp2nil
    refine ⟨?_, rfl⟩
    have hnil : allE.Perm [] := by
      simpa [pendEntries_nil] using hperm2
    exact hnil.eq_nil
  · dsimp only
    right
    have hpermEv : ev2.Perm ((nd, v) :: rest) := popMax_perm hpm
    have hmax : ∀ y ∈ ev2, Fp.fle y.1 nd = true := popMax_max hpm hevnn2
    have hndnn : nd.isNan = false := hevnn2 (nd, v) (popMax_mem hpm)
    have hrestnn : ∀ y ∈ rest, y.1.isNan = false := fun y hy =>
      hevnn2 y (hpermEv.symm.mem_iff.mp (List.mem_cons_of_mem _ hy))
    refine ⟨(Fp.neg nd, v), pending2, rest,
      pendEntries d q pending2 ++ rest.map fun y => (Fp.neg y.1, y.2), rfl, ?_, hpi2,
      List.Perm.refl _, hrestnn, ?_, by simp [Fp.neg_isNan, hndnn]⟩
    · refine hperm2.trans ?_
      refine (List.Perm.append_left _ (hpermEv.map _)).trans ?_
      rw [List.map_cons]
      exact List.perm_middle
    · intro y hy
      rcases List.mem_append.mp hy with hy1 | hy2
      · rcases hstop with h1 | ⟨pk, ek, hpk2, hpe2, hflt⟩
        · subst h1
          rw [pendEntries_nil] at hy1
          simp at hy1
        · obtain ⟨vk, rek, hpopEv2⟩ := peekKey_some hpe2
          rw [hpm] at hpopEv2
          have hnd : nd = ek := by
            simpa using congrArg (fun z => z.1.1) (Option.some.inj hpopEv2)
          subst hnd
          obtain ⟨xx, hxxP, e, he, rfl⟩ := pendEntries_mem hy1
          have hkeysnn : ∀ z ∈ pending2, (z : Fp × KdTree T).1.isNan = false :=
            fun z hz => (hpi2 z hz).2.1
          obtain ⟨tx, prr, hpop2⟩ := peekKey_some hpk2
          have hxle : Fp.fle xx.1 pk = true := popMax_max hpop2 hkeysnn xx hxxP
          have h1 : Fp.fle (Fp.neg pk) (Fp.neg xx.1) = true := Fp.fle_neg hxle
          have h2 : Fp.fle (Fp.neg xx.1) (d q e.1) = true := (hpi2 xx hxxP).2.2 e he
          exact Fp.fle_of_flt (Fp.flt_of_flt_of_fle hflt (Fp.fle_trans h1 h2))
      · simp only [List.mem_map] at hy2
        obtain ⟨z, hz, rfl⟩ := hy2
        exact Fp.fle_neg (hmax z (hpermEv.symm.mem_iff.mp (List.mem_cons_of_mem _ hz)))

theorem iter_consume_spec {Dd : Nat} {d : Point → Point → Fp} {q : Point}
    (Hnn : ∀ a b, Fp.fle Fp.zero (d a b) = true)
    (Hcons : ∀ minb maxb x, inBounds minb maxb x = true →
      Fp.fle (d q (clampPoint q minb maxb)) (d q x) = true)
    (hq : q.length = Dd) :
    ∀ (fuel : Nat) (pending : List (Fp × KdTree T)) (ev : List (Fp × T))
      (allE : List (Fp × T)),
      PendInv Dd d q pending →
      allE.Perm (pendEntries d q pending ++ ev.map fun x => (Fp.neg x.1, x.2)) →
      (∀ x ∈ ev, x.1.isNan = false) →
      allE.length < fuel →
      ∃ L, iter_consume d q fuel ⟨pending, ev⟩ = some L ∧
        L.Perm allE ∧
        L.Pairwise fun a b => Fp.fle a.1 b.1 = true := by
  intro fuel
  induction fuel with
  | zero =>
    intro pending ev allE hpi hperm hevnn hlen
    exact absurd hlen (by omega)
  | succ fuel ih =>
    intro pending ev allE hpi hperm hevnn hlen
    rw [iter_consume]
    rcases iter_next_spec Hnn Hcons hq allE hpi hperm hevnn with
      ⟨hnil, hnext⟩ | ⟨x, p2, e2, allE2, hnext, hpermX, hpi2, hperm2, hnn2, hdom, hxnn⟩
    · rw [hnext]
      dsimp only
      exact ⟨[], rfl, by simp [hnil], List.Pairwise.nil⟩
    · rw [hnext]
      dsimp only
      have hlen2 : allE2.length < fuel := by
        have hx := hpermX.length_eq
        simp only [List.length_cons] at hx
        omega
      obtain ⟨L2, hrec, hpermL2, hpwL2⟩ := ih p2 e2 allE2 hpi2 hperm2 hnn2 hlen2
      rw [hrec]
      dsimp only
      refine ⟨x :: L2, rfl, ?_, ?_⟩
      · exact (hpermL2.cons x).trans hpermX.symm
      · refine List.pairwise_cons.mpr ⟨?_, hpwL2⟩
        intro y hy
        exact hdom y (hpermL2.mem_iff.mp hy)

theorem nearest_all_spec {Dd fw : Nat} {t : KdTree T} {q : Point}
    {d : Point → Point → Fp}
    (hw : isWFF Dd fw t = true) (hqf : finitePt q = true) (hql : q.length = Dd)
    (Hnn : ∀ a b, Fp.fle Fp.zero (d a b) = true)
    (Hcons : ∀ minb maxb x, inBounds minb maxb x = true →
      Fp.fle (d q (clampPoint q minb maxb)) (d q x) = true) :
    ∃ res, nearest t q (size t) d = some (Except.ok res) ∧
      res.Perm ((entries t).map fun e => (d q e.1, e.2)) ∧
      res.Pairwise fun a b => Fp.fle a.1 b.1 = true := by
  have hcp : check_point q = Except.ok () := by
    rw [check_point, if_pos (show List.all q Fp.isFinite = true from hqf)]
  have hentlen : (entries t).length = size t := (sizesOk_of_isWFF hw).2
  have hallnn : ∀ x ∈ ((entries t).map fun e => (d q e.1, e.2)),
      x.1.isNan = false := by
    intro x hx
    simp only [List.mem_map] at hx
    obtain ⟨e, he, rfl⟩ := hx
    exact Fp.not_nan_right_of_fle (Hnn q e.1)
  rw [nearest, hcp]
  dsimp only
  by_cases hz : min (size t) (size t) = 0
  · rw [if_pos (show (min (size t) t.size == 0) = true by simpa using hz)]
    have hent : entries t = [] := List.length_eq_zero.mp (by omega)
    refine ⟨[], rfl, ?_, List.Pairwise.nil⟩
    rw [hent]
    simp
  · rw [if_neg (show ¬ ((min (size t) t.size == 0) = true) by simpa using hz)]
    have hnum : 0 < min (size t) (size t) := by omega
    have hpi0 : PendInv Dd d q [(Fp.zero, t)] := by
      intro x hx
      have hxe : x = (Fp.zero, t) := by simpa using hx
      subst hxe
      refine ⟨⟨fw, hw⟩, rfl, ?_⟩
      intro e he
      rw [Fp.neg_zero_eq]
      exact Hnn q e.1
    have hfuel : pendingCount [(Fp.zero, t)] < nodeCount t + 1 := by
      rw [pendingCount_cons]
      dsimp only
      simp only [pendingCount, List.map_nil, List.sum_nil]
      omega
    have hperm0 : ((entries t).map fun e => (d q e.1, e.2)).Perm
        (pendEntries d q [(Fp.zero, t)] ++ [] ++ []) := by
      rw [pendEntries_cons, pendEntries_nil]
      simp only [List.append_nil]
      exact List.Perm.refl _
    obtain ⟨ev2, rest2, hloop, hpermF, htsLen, htsDom⟩ :=
      nearest_loop_spec Hnn Hcons hql hnum
        ((entries t).map fun e => (d q e.1, e.2)) hallnn
        (nodeCount t + 1) [(Fp.zero, t)] [] [] hpi0 hfuel hperm0
        ⟨by simp, by simp⟩
    rw [hloop]
    dsimp only
    have hlenAll := hpermF.length_eq
    simp only [List.length_append, List.length_map] at hlenAll
    have hev2len : ev2.length = size t := by
      omega
    have hrest2nil : rest2 = [] := List.length_eq_zero.mp (by omega)
    subst hrest2nil
    have htake : (intoSortedVec ev2).take (min (size t) (size t)) =
        intoSortedVec ev2 := by
      refine List.take_of_length_le ?_
      rw [(intoSortedVec_perm ev2).length_eq]
      omega
    rw [htake]
    have hev2nn : ∀ x ∈ ev2, x.1.isNan = false := fun x hx =>
      hallnn x (hpermF.symm.mem_iff.mp (by simp [hx]))
    have hsortnn : ∀ x ∈ intoSortedVec ev2, x.1.isNan = false := fun x hx =>
      hev2nn x ((intoSortedVec_perm ev2).mem_iff.mp hx)
    refine ⟨intoSortedVec ev2, rfl, ?_, ?_⟩
    · refine (intoSortedVec_perm ev2).trans ?_
      have hpe : ((entries t).map fun e => (d q e.1, e.2)).Perm ev2 := by
        simpa using hpermF
      exact hpe.symm
    · exact pairwise_fle_of_heLE hsortnn (intoSortedVec_pairwise ev2)

theorem within_loop_total {Dd : Nat} (d : Point → Point → Fp) (q : Point)
    (hq : q.length = Dd) {num : Nat} (hnum : 0 < num) (radius : Fp) :
    ∀ (fuel : Nat) (pending : List (Fp × KdTree T)) (ev : List (Fp × T)),
      PendInvW Dd pending →
      pendingCount pending < fuel →
      ∃ ev2, within_loop d q num radius fuel pending ev = some ev2 := by
  intro fuel
  induction fuel with
  | zero =>
    intro pending ev hpi hfuel
    exact absurd hfuel (by omega)
  | succ fuel ih =>
    intro pending ev hpi hfuel
    rw [within_loop]
    rcases hpk : peekKey pending with _ | pk
    · dsimp only
      exact ⟨ev, rfl⟩
    · dsimp only
      by_cases hle : Fp.fle (Fp.neg pk) radius = true
      · rw [if_pos hle]
        obtain ⟨t, pendingRest, hpop⟩ := peekKey_some hpk
        obtain ⟨pending3, ev2, hstep, hpi3, hdec⟩ :=
          nearest_step_total d q hq hnum radius ev hpi hpop
        rw [hstep]
        dsimp only
        exact ih pending3 ev2 hpi3 (by omega)
      · rw [if_neg hle]
        exact ⟨ev, rfl⟩

theorem nearest_loop_total {Dd : Nat} (d : Point → Point → Fp) (q : Point)
    (hq : q.length = Dd) {num : Nat} (hnum : 0 < num) :
    ∀ (fuel : Nat) (pending : List (Fp × KdTree T)) (ev : List (Fp × T)),
      PendInvW Dd pending →
      pendingCount pending < fuel →
      ∃ ev2, nearest_loop d q num fuel pending ev = some ev2 := by
  intro fuel
  induction fuel with
  | zero =>
    intro pending ev hpi hfuel
    exact absurd hfuel (by omega)
  | succ fuel ih =>
    intro pending ev hpi hfuel
    rw [nearest_loop]
    rcases hpk : peekKey pending with _ | pk
    · dsimp only
      exact ⟨ev, rfl⟩
    · dsimp only
      obtain ⟨t, pendingRest, hpop⟩ := peekKey_some hpk
      by_cases hlt : ev.length < num
      · rw [if_pos hlt]
        obtain ⟨pending3, ev2, hstep, hpi3, hdec⟩ :=
          nearest_step_total d q hq hnum Fp.pinf ev hpi hpop
        rw [hstep]
        dsimp only
        exact ih pending3 ev2 hpi3 (by omega)
      · rw [if_neg hlt]
        have hevne : ev ≠ [] := by
          intro h0
          rw [h0] at hlt
          simp at hlt
          omega
        rcases hpe : peekKey ev with _ | ek
        · exact absurd (peekKey_eq_none.mp hpe) hevne
        · dsimp only
          by_cases hle : Fp.fle (Fp.neg pk) ek = true
          · rw [if_pos hle]
            obtain ⟨pending3, ev2, hstep, hpi3, hdec⟩ :=
              nearest_step_total d q hq hnum Fp.pinf ev hpi hpop
            rw [hstep]
            dsimp only
            exact ih pending3 ev2 hpi3 (by omega)
          · rw [if_neg hle]
            exact ⟨ev, rfl⟩

theorem leafStemOk_of_isWFF {Dd : Nat} : ∀ {f : Nat} {t : KdTree T},
    isWFF Dd f t = true → leafStemOk t = true := by
  intro f
  induction f with
  | zero =>
    intro t hw
    simp [isWFF] at hw
  | succ g ih =>
    intro t hw
    cases t with
    | mk l r cap sz minb maxb sv sd ps? bs? =>
      obtain ⟨_, hleaf | hstem⟩ := isWFF_cases hw
      · obtain ⟨e1, e2, e3, e4, ps, bs, e5, e6, hsz, hlen, _⟩ := hleaf
        subst e1; subst e2; subst e3; subst e4; subst e5; subst e6
        simp [leafStemOk, hlen]
      · obtain ⟨lt, rt, svv, dim, e1, e2, e3, e4, e5, e6, _, _, _, _, _, _, _,
          hwl, hwr, _⟩ := hstem
        subst e1; subst e2; subst e3; subst e4; subst e5; subst e6
        simp [leafStemOk, ih hwl, ih hwr]

theorem nearest_total {Dd fw : Nat} {t : KdTree T} {q : Point} (k : Nat)
    (d : Point → Point → Fp)
    (hw : isWFF Dd fw t = true) (hqf : finitePt q = true) (hql : q.length = Dd) :
    ∃ res, nearest t q k d = some (Except.ok res) := by
  have hcp : check_point q = Except.ok () := by
    rw [check_point, if_pos (show List.all q Fp.isFinite = true from hqf)]
  rw [nearest, hcp]
  dsimp only
  by_cases hz : min k (size t) = 0
  · rw [if_pos (show (min k t.size == 0) = true by simpa using hz)]
    exact ⟨[], rfl⟩
  · rw [if_neg (show ¬ ((min k t.size == 0) = true) by simpa using hz)]
    have hnum : 0 < min k (size t) := by omega
    have hpiW : PendInvW Dd [(Fp.zero, t)] := by
      intro x hx
      have hxe : x = (Fp.zero, t) := by simpa using hx
      subst hxe
      exact ⟨fw, hw⟩
    have hfuel : pendingCount [(Fp.zero, t)] < nodeCount t + 1 := by
      rw [pendingCount_cons]
      dsimp only
      simp only [pendingCount, List.map_nil, List.sum_nil]
      omega
    obtain ⟨ev2, hloop⟩ :=
      nearest_loop_total d q hql hnum (nodeCount t + 1) [(Fp.zero, t)] [] hpiW hfuel
    rw [hloop]
    exact ⟨_, rfl⟩

theorem within_total {Dd fw : Nat} {t : KdTree T} {q : Point} (r : Fp)
    (d : Point → Point → Fp)
    (hw : isWFF Dd fw t = true) (hqf : finitePt q = true) (hql : q.length = Dd) :
    ∃ res, within t q r d = some (Except.ok res) := by
  have hcp : check_point q = Except.ok () := by
    rw [check_point, if_pos (show List.all q Fp.isFinite = true from hqf)]
  rw [within, hcp]
  dsimp only
  by_cases hsz : size t = 0
  · rw [if_pos (show (size t == 0) = true by simpa using hsz)]
    exact ⟨[], rfl⟩
  · rw [if_neg (show ¬ ((size t == 0) = true) by simpa using hsz)]
    have hnum : 0 < size t := by omega
    have hpiW : PendInvW Dd [(Fp.zero, t)] := by
      intro x hx
      have hxe : x = (Fp.zero, t) := by simpa using hx
      subst hxe
      exact ⟨fw, hw⟩
    have hfuel : pendingCount [(Fp.zero, t)] < nodeCount t + 1 := by
      rw [pendingCount_cons]
      dsimp only
      simp only [pendingCount, List.map_nil, List.sum_nil]
      omega
    obtain ⟨ev2, hloop⟩ :=
      within_loop_total d q hql hnum r (nodeCount t + 1) [(Fp.zero, t)] [] hpiW hfuel
    rw [hloop]
    exact ⟨_, rfl⟩

end KdTree

section Claims78

open KdTree

/-- **C7.**  When a leaf's entry count exceeds capacity, `split` abandons the
split whenever every dimension's extent is zero or NaN — the node stays a
leaf holding all its entries with no children and no error — and otherwise
chooses the split dimension of greatest extent (the first such dimension in
index order on ties) with the midpoint of that dimension's bounds as split
value. -/
theorem claim_C7 {T : Type} (addF : KdTree T → Point → T → Option (KdTree T))
    (cap sz : Nat) (minb maxb : Point) (ps : List Point) (bs : List T) :
    ((∀ x ∈ extents minb maxb, x.isNan = true ∨ x = Fp.zero) →
      splitWith addF (mk none none cap sz minb maxb none none none none) ps bs =
        some (mk none none cap sz minb maxb none none (some ps) (some bs))) ∧
    ((∃ x ∈ extents minb maxb, x.isNan = false ∧ Fp.flt Fp.zero x = true) →
      ∃ dm, ∃ hdm : dm < (extents minb maxb).length,
        ((extents minb maxb).get ⟨dm, hdm⟩).isNan = false ∧
        Fp.flt Fp.zero ((extents minb maxb).get ⟨dm, hdm⟩) = true ∧
        (∀ j, (hj : j < (extents minb maxb).length) →
          ((extents minb maxb).get ⟨j, hj⟩).isNan = true ∨
          Fp.fle ((extents minb maxb).get ⟨j, hj⟩)
            ((extents minb maxb).get ⟨dm, hdm⟩) = true) ∧
        (∀ j, (hj : j < dm) →
          ((extents minb maxb).get ⟨j, Nat.lt_trans hj hdm⟩).isNan = true ∨
          Fp.flt ((extents minb maxb).get ⟨j, Nat.lt_trans hj hdm⟩)
            ((extents minb maxb).get ⟨dm, hdm⟩) = true) ∧
        (∀ res, splitWith addF (mk none none cap sz minb maxb none none none none) ps bs =
            some res →
          res.split_dimension = some dm ∧
          ∃ hmn : dm < minb.length, ∃ hmx : dm < maxb.length,
            res.split_value = some (Fp.add (minb.get ⟨dm, hmn⟩)
              (Fp.div2 (Fp.sub (maxb.get ⟨dm, hmx⟩) (minb.get ⟨dm, hmn⟩)))) ∧
            ∀ a b : ℚ, minb.get ⟨dm, hmn⟩ = Fp.fin a → maxb.get ⟨dm, hmx⟩ = Fp.fin b →
              res.split_value = some (Fp.fin ((a + b) / 2)))) := by
  constructor
  · intro hdeg
    have hsel : selectDimAux 0 (extents minb maxb) Fp.zero none = none := by
      apply selectDimAux_none
      intro x hx
      rcases hdeg x hx with h | h
      · exact Or.inl h
      · subst h; exact Or.inr rfl
    simp only [splitWith]
    rw [hsel]
  · rintro ⟨x, hx, hxnn, hxpos⟩
    rcases selectDimAux_spec (extents minb maxb) with ⟨_, hall⟩ | h
    · obtain ⟨n, hget⟩ := List.mem_iff_get.mp hx
      rcases hall n.1 n.2 with h | h
      · rw [hget] at h; rw [h] at hxnn; exact absurd hxnn (by simp)
      · rw [hget] at h
        exact absurd h ((Fp.flt_iff_not_fle (by decide) hxnn).mp hxpos)
    · obtain ⟨dm, hdm, hsel, hnn, hpos, hall, hfirst⟩ := h
      refine ⟨dm, hdm, hnn, hpos, hall, hfirst, ?_⟩
      intro res hres
      have hdm' : dm < (maxb.zip minb).length := by
        simpa [extents] using hdm
      have hmn : dm < minb.length := by
        simp [List.length_zip] at hdm'; omega
      have hmx : dm < maxb.length := by
        simp [List.length_zip] at hdm'; omega
      simp only [splitWith] at hres
      rw [hsel] at hres
      simp only [List.getElem?_eq_getElem hmn, List.getElem?_eq_getElem hmx] at hres
      revert hres
      cases hdist : distribute addF dm
          (Fp.add minb[dm] (Fp.div2 (Fp.sub maxb[dm] minb[dm]))) ps bs
          (with_capacity minb.length cap) (with_capacity minb.length cap) with
      | none => intro hres; simp at hres
      | some pr =>
        intro hres
        simp only [Option.some.injEq] at hres
        subst hres
        refine ⟨rfl, hmn, hmx, ?_, ?_⟩
        · simp [split_value, List.get_eq_getElem]
        · intro a b ha hb
          simp only [List.get_eq_getElem] at ha hb
          simp [split_value, ha, hb, split_value_midpoint]

/-- Witness for C7: a degenerate 1-D box abandons the split; the box
`[0,0] × [0,1]` splits on dimension 1. -/
theorem claim_C7_witness :
    (splitWith (fun t _ _ => some t)
        (mk none none 1 2 [Fp.fin 0] [Fp.fin 0] none none none none)
        [[Fp.fin 0], [Fp.fin 0]] ([3, 4] : List Nat) =
      some (mk none none 1 2 [Fp.fin 0] [Fp.fin 0] none none
        (some [[Fp.fin 0], [Fp.fin 0]]) (some [3, 4]))) ∧
    (∃ dm, ∃ hdm : dm < (extents [Fp.fin 0, Fp.fin 0] [Fp.fin 0, Fp.fin 1]).length,
      ((extents [Fp.fin 0, Fp.fin 0] [Fp.fin 0, Fp.fin 1]).get ⟨dm, hdm⟩).isNan = false ∧
      Fp.flt Fp.zero ((extents [Fp.fin 0, Fp.fin 0] [Fp.fin 0, Fp.fin 1]).get ⟨dm, hdm⟩)
        = true ∧
      (∀ j, (hj : j < (extents [Fp.fin 0, Fp.fin 0] [Fp.fin 0, Fp.fin 1]).length) →
        ((extents [Fp.fin 0, Fp.fin 0] [Fp.fin 0, Fp.fin 1]).get ⟨j, hj⟩).isNan = true ∨
        Fp.fle ((extents [Fp.fin 0, Fp.fin 0] [Fp.fin 0, Fp.fin 1]).get ⟨j, hj⟩)
          ((extents [Fp.fin 0, Fp.fin 0] [Fp.fin 0, Fp.fin 1]).get ⟨dm, hdm⟩) = true) ∧
      (∀ j, (hj : j < dm) →
        ((extents [Fp.fin 0, Fp.fin 0] [Fp.fin 0, Fp.fin 1]).get
          ⟨j, Nat.lt_trans hj hdm⟩).isNan = true ∨
        Fp.flt ((extents [Fp.fin 0, Fp.fin 0] [Fp.fin 0, Fp.fin 1]).get
            ⟨j, Nat.lt_trans hj hdm⟩)
          ((extents [Fp.fin 0, Fp.fin 0] [Fp.fin 0, Fp.fin 1]).get ⟨dm, hdm⟩) = true) ∧
      (∀ res, splitWith (fun t _ _ => some t)
          (mk none none 1 2 [Fp.fin 0, Fp.fin 0] [Fp.fin 0, Fp.fin 1] none none none none)
          [[Fp.fin 0, Fp.fin 0], [Fp.fin 0, Fp.fin 1]] ([3, 4] : List Nat) = some res →
        res.split_dimension = some dm ∧
        ∃ hmn : dm < ([Fp.fin 0, Fp.fin 0] : Point).length,
          ∃ hmx : dm < ([Fp.fin 0, Fp.fin 1] : Point).length,
          res.split_value = some (Fp.add (([Fp.fin 0, Fp.fin 0] : Point).get ⟨dm, hmn⟩)
            (Fp.div2 (Fp.sub (([Fp.fin 0, Fp.fin 1] : Point).get ⟨dm, hmx⟩)
              (([Fp.fin 0, Fp.fin 0] : Point).get ⟨dm, hmn⟩)))) ∧
          ∀ a b : ℚ, ([Fp.fin 0, Fp.fin 0] : Point).get ⟨dm, hmn⟩ = Fp.fin a →
            ([Fp.fin 0, Fp.fin 1] : Point).get ⟨dm, hmx⟩ = Fp.fin b →
            res.split_value = some (Fp.fin ((a + b) / 2)))) := by
  constructor
  · refine (claim_C7 (fun t _ _ => some t) 1 2 [Fp.fin 0] [Fp.fin 0]
      [[Fp.fin 0], [Fp.fin 0]] [3, 4]).1 ?_
    intro x hx
    simp only [extents, List.zip_cons_cons, List.zip_nil_right, List.map_cons,
      List.map_nil, List.mem_singleton] at hx
    subst hx
    right
    simp only [Fp.sub, Fp.neg, Fp.add, Fp.zero]
    norm_num
  · refine (claim_C7 (fun t _ _ => some t) 1 2 [Fp.fin 0, Fp.fin 0] [Fp.fin 0, Fp.fin 1]
      [[Fp.fin 0, Fp.fin 0], [Fp.fin 0, Fp.fin 1]] [3, 4]).2 ?_
    refine ⟨Fp.fin 1, ?_, by rfl, by rfl⟩
    have : extents [Fp.fin 0, Fp.fin 0] [Fp.fin 0, Fp.fin 1] =
        [Fp.fin 0, Fp.fin 1] := by
      simp only [extents, List.zip_cons_cons, List.zip_nil_right, List.map_cons,
        List.map_nil, Fp.sub, Fp.neg, Fp.add]
      norm_num
    rw [this]
    simp

/-- **C8.**  Any operation given a point with a NaN or infinite coordinate
fails with `NonFiniteCoordinate` (for `add`, on trees of nonzero capacity;
a zero-capacity tree reports `ZeroCapacity` first, as coded).  The error is
produced by the up-front `check_point` and the functional results carry no
modified tree: the tree is untouched. -/
theorem claim_C8 {T : Type} [DecidableEq T] (t : KdTree T) (p : Point) (v : T)
    (k : Nat) (r : Fp) (d : Point → Point → Fp)
    (hp : p.all Fp.isFinite = false) :
    (t.capacity ≠ 0 → add t p v = some (Except.error ErrorKind.NonFiniteCoordinate)) ∧
    remove t p v = some (Except.error ErrorKind.NonFiniteCoordinate) ∧
    nearest t p k d = some (Except.error ErrorKind.NonFiniteCoordinate) ∧
    within t p r d = some (Except.error ErrorKind.NonFiniteCoordinate) ∧
    iter_nearest t p = Except.error ErrorKind.NonFiniteCoordinate ∧
    iter_nearest_mut t p = Except.error ErrorKind.NonFiniteCoordinate := by
  refine ⟨?_, ?_, ?_, ?_, ?_, ?_⟩
  · intro hcap
    simp [add, check_point, hp, hcap]
  · cases t with
    | mk l r cap sz minb maxb sv sd ps bs => simp [remove, removeF, check_point, hp]
  · simp [nearest, check_point, hp]
  · simp [within, check_point, hp]
  · simp [iter_nearest, check_point, hp]
  · simp [iter_nearest_mut, check_point, hp]

/-- Witness for C8 at a concrete NaN-carrying point on a capacity-2 tree. -/
theorem claim_C8_witness :
    add (with_capacity 2 2 : KdTree Nat) [Fp.nan, Fp.fin 0] 7 =
        some (Except.error ErrorKind.NonFiniteCoordinate) ∧
    remove (with_capacity 2 2 : KdTree Nat) [Fp.nan, Fp.fin 0] 7 =
        some (Except.error ErrorKind.NonFiniteCoordinate) ∧
    nearest (with_capacity 2 2 : KdTree Nat) [Fp.nan, Fp.fin 0] 1 (fun _ _ => Fp.zero) =
        some (Except.error ErrorKind.NonFiniteCoordinate) ∧
    within (with_capacity 2 2 : KdTree Nat) [Fp.nan, Fp.fin 0] Fp.zero
        (fun _ _ => Fp.zero) = some (Except.error ErrorKind.NonFiniteCoordinate) ∧
    iter_nearest (with_capacity 2 2 : KdTree Nat) [Fp.nan, Fp.fin 0] =
        Except.error ErrorKind.NonFiniteCoordinate ∧
    iter_nearest_mut (with_capacity 2 2 : KdTree Nat) [Fp.nan, Fp.fin 0] =
        Except.error ErrorKind.NonFiniteCoordinate := by
  have h := claim_C8 (T := Nat) (with_capacity 2 2) [Fp.nan, Fp.fin 0] 7 1 Fp.zero
    (fun _ _ => Fp.zero) (by rfl)
  exact ⟨h.1 (by decide), h.2.1, h.2.2.1, h.2.2.2.1, h.2.2.2.2.1, h.2.2.2.2.2⟩

/-- **C2.**  The claim says removing a stored point paired with a different
value returns `Ok(0)`.  In fact the leaf scan loop
(`while let Some(p_index) = points.iter().position(..)`) never terminates in
that case: `position` finds the same index every iteration and the
value-mismatch branch removes nothing.  At every fuel the scan returns
`none`, so `remove` on the reachable tree `c2tree` (reachability is the last
conjunct) diverges instead of returning `Ok(0)`. -/
theorem claim_C2 :
    (∀ fuel, remove_scan (T := Nat) fuel [[Fp.fin 0, Fp.fin 0]] [1]
        [Fp.fin 0, Fp.fin 0] 2 = none) ∧
    remove c2tree [Fp.fin 0, Fp.fin 0] 2 = none ∧
    add (with_capacity 2 2 : KdTree Nat) [Fp.fin 0, Fp.fin 0] 1 =
      some (Except.ok c2tree) := by
  refine ⟨?_, by rfl, by rfl⟩
  intro fuel
  induction fuel with
  | zero => rfl
  | succ n ih =>
    show remove_scan (n + 1) _ _ _ _ = none
    unfold remove_scan
    simpa using ih

section Claim3

open KdTree

/-- **Counterexample to C3 as stated.**  The claim says the removal traversal
descends exactly one child at every stem it visits and never enters the other
child.  On the reachable tree `c3tree` (one stem, two leaf children; the
reachability chain is recorded in the conjuncts) removing `([2,2], 3)` enters
`2` children, not `1`: `remove` recurses into both children of every stem. -/
theorem claim_C3_counterexample :
    removeDescents c3tree [Fp.fin 2, Fp.fin 2] 3 = 2 ∧
    countStems c3tree = 1 ∧
    add (with_capacity 2 2 : KdTree Nat) [Fp.fin 0, Fp.fin 0] 1 =
      some (Except.ok c3t1) ∧
    add c3t1 [Fp.fin 1, Fp.fin 1] 2 = some (Except.ok c3t2) ∧
    add c3t2 [Fp.fin 2, Fp.fin 2] 3 = some (Except.ok c3tree) ∧
    remove c3tree [Fp.fin 2, Fp.fin 2] 3 =
      some (Except.ok
        (mk
          (some (mk none none 2 1 [Fp.fin 0, Fp.fin 0] [Fp.fin 0, Fp.fin 0] none none
            (some [[Fp.fin 0, Fp.fin 0]]) (some [1])))
          (some (mk none none 2 1 [Fp.fin 1, Fp.fin 1] [Fp.fin 2, Fp.fin 2] none none
            (some [[Fp.fin 1, Fp.fin 1]]) (some [2])))
          2 2 [Fp.fin 0, Fp.fin 0] [Fp.fin 2, Fp.fin 2] (some (Fp.fin 1)) (some 0)
          none none, 1)) := by
  refine ⟨by rfl, by rfl, by rfl, by rfl, by with_unfolding_all rfl, by rfl⟩

/-- **C3 (amended).**  On a well-formed tree with a finite removal point the
removal traversal enters *both* children of every stem it visits
(`2 · #stems` child entries in total), not exactly one; and when removal
returns, the removed counts propagate upward so that the root size drops by
exactly the total count while shape and bounds are unchanged. -/
theorem claim_C3_amended {T : Type} [DecidableEq T] {Dd fw : Nat} {t : KdTree T}
    {p : Point} (v : T) (hw : isWFF Dd fw t = true) (hpf : finitePt p = true) :
    removeDescents t p v = 2 * countStems t ∧
    ∀ (t' : KdTree T) (n : Nat), remove t p v = some (Except.ok (t', n)) →
      size t' + n = size t ∧ sameBounds t t' = true := by
  constructor
  · exact removeDescentsF_eq hpf (height t + 1) t fw hw (Nat.le_succ _)
  · intro t' n heq
    obtain ⟨_, hn, hs, _, hsb, _⟩ := remove_main hw heq
    exact ⟨by omega, hsb⟩

/-- Witness for the amended C3 on the concrete stem tree. -/
theorem claim_C3_amended_witness :
    removeDescents c3tree [Fp.fin 2, Fp.fin 2] 3 = 2 * countStems c3tree ∧
    ∀ (t' : KdTree Nat) (n : Nat), remove c3tree [Fp.fin 2, Fp.fin 2] 3 =
      some (Except.ok (t', n)) → size t' + n = size c3tree ∧
      sameBounds c3tree t' = true :=
  claim_C3_amended 3 (show isWFF 2 3 c3tree = true from by rfl) (by rfl)

end Claim3

/-- **C6.**  On every tree reachable from `with_capacity` (positive
capacity) by successful insertions and removals, the root `size` equals the
number of successful insertions minus the number of removed entries, and at
every node the `size` field equals the number of entries stored in its
subtree (`sizesOk`). -/
theorem claim_C6 {T : Type} [DecidableEq T] {Dd cap : Nat} {t : KdTree T}
    {ins rem : Nat} (h : Reachable Dd cap t ins rem) :
    size t + rem = ins ∧ sizesOk t = true := by
  obtain ⟨hwf, _, _, hsz⟩ := reachable_inv h
  exact ⟨hsz, (sizesOk_of_isWFF hwf).1⟩

/-- Witness for C6: the capacity-2 tree after three concrete insertions
(which forced one split). -/
theorem claim_C6_witness : size c3tree + 0 = 3 ∧ sizesOk c3tree = true := by
  have r0 : Reachable 2 2 (with_capacity 2 2 : KdTree Nat) 0 0 :=
    Reachable.init (by decide)
  have r1 : Reachable 2 2 c3t1 1 0 :=
    Reachable.addStep [Fp.fin 0, Fp.fin 0] 1 r0 (by rfl) (by rfl)
  have r2 : Reachable 2 2 c3t2 2 0 :=
    Reachable.addStep [Fp.fin 1, Fp.fin 1] 2 r1 (by rfl) (by rfl)
  have r3 : Reachable 2 2 c3tree 3 0 :=
    Reachable.addStep [Fp.fin 2, Fp.fin 2] 3 r2 (by rfl) (by with_unfolding_all rfl)
  exact claim_C6 r3

/-- **C9.**  On every reachable tree, no stored point lies outside any
enclosing node's box (`containOk`); every successful insertion only widens
boxes (`boundsGrew`: each min bound does not increase, each max bound does
not decrease, at every surviving node); and a successful removal leaves the
shape and every node's bounds unchanged (`sameBounds`). -/
theorem claim_C9 {T : Type} [DecidableEq T] {Dd cap : Nat} {t : KdTree T}
    {ins rem : Nat} (h : Reachable Dd cap t ins rem) :
    containOk t = true ∧
    (∀ (p : Point) (v : T) (t' : KdTree T), p.length = Dd →
      add t p v = some (Except.ok t') → boundsGrew t t' = true) ∧
    (∀ (p : Point) (v : T) (t' : KdTree T) (n : Nat),
      remove t p v = some (Except.ok (t', n)) → sameBounds t t' = true) := by
  obtain ⟨hwf, hcap, hcpos, _⟩ := reachable_inv h
  refine ⟨containOk_of_isWFF hwf, ?_, ?_⟩
  · intro p v t' hlen heq
    have hqf : finitePt p = true := by
      by_contra hnf
      rw [add, if_neg (by simp only [beq_iff_eq]; omega), check_point,
        if_neg (fun hca : List.all p Fp.isFinite = true => hnf hca)] at heq
      simp at heq
    obtain ⟨t'', heq', _, _, _, _, hbg⟩ := add_main hwf (by omega) hqf hlen
    rw [heq'] at heq
    simp only [Option.some.injEq, Except.ok.injEq] at heq
    subst heq
    exact hbg
  · intro p v t' n heq
    exact (remove_main hwf heq).2.2.2.2.1

/-- Witness for C9: the same reachable capacity-2 tree. -/
theorem claim_C9_witness :
    containOk c3tree = true ∧
    (∀ (p : Point) (v : Nat) (t' : KdTree Nat), p.length = 2 →
      add c3tree p v = some (Except.ok t') → boundsGrew c3tree t' = true) ∧
    (∀ (p : Point) (v : Nat) (t' : KdTree Nat) (n : Nat),
      remove c3tree p v = some (Except.ok (t', n)) → sameBounds c3tree t' = true) :=
  by
  have r0 : Reachable 2 2 (with_capacity 2 2 : KdTree Nat) 0 0 :=
    Reachable.init (by decide)
  have r1 : Reachable 2 2 c3t1 1 0 :=
    Reachable.addStep [Fp.fin 0, Fp.fin 0] 1 r0 (by rfl) (by rfl)
  have r2 : Reachable 2 2 c3t2 2 0 :=
    Reachable.addStep [Fp.fin 1, Fp.fin 1] 2 r1 (by rfl) (by rfl)
  have r3 : Reachable 2 2 c3tree 3 0 :=
    Reachable.addStep [Fp.fin 2, Fp.fin 2] 3 r2 (by rfl) (by with_unfolding_all rfl)
  exact claim_C9 r3

end Claims78

section ClaimsSearch

open KdTree

/-- **C4.**  On a well-formed tree, for an all-finite query point of the
tree's dimension and any distance function consistent with the box
lower-bound pruning formula (non-negative, and the distance to the clamped
point under-estimates the distance to every point of the box), `within`
returns `Ok` of exactly the stored entries whose distance to the query is
`≤ r` (inclusive boundary), as (distance, value) pairs sorted ascending by
distance. -/
theorem claim_C4 {T : Type} {Dd fw : Nat} {t : KdTree T} {q : Point} {r : Fp}
    {d : Point → Point → Fp}
    (hw : isWFF Dd fw t = true) (hqf : finitePt q = true) (hql : q.length = Dd)
    (Hnn : ∀ a b, Fp.fle Fp.zero (d a b) = true)
    (Hcons : ∀ minb maxb x, inBounds minb maxb x = true →
      Fp.fle (d q (clampPoint q minb maxb)) (d q x) = true) :
    ∃ res, within t q r d = some (Except.ok res) ∧
      res.Perm (((entries t).map fun e => (d q e.1, e.2)).filter
        fun x => Fp.fle x.1 r) ∧
      res.Pairwise fun a b => Fp.fle a.1 b.1 = true := by
  have hcp : check_point q = Except.ok () := by
    rw [check_point, if_pos (show List.all q Fp.isFinite = true from hqf)]
  have hentlen : (entries t).length = size t := (sizesOk_of_isWFF hw).2
  rw [within, hcp]
  dsimp only
  by_cases hsz : size t = 0
  · rw [if_pos (show (size t == 0) = true by simpa using hsz)]
    have hent : entries t = [] := List.length_eq_zero.mp (by omega)
    refine ⟨[], rfl, ?_, List.Pairwise.nil⟩
    rw [hent]
    simp
  · rw [if_neg (show ¬ ((size t == 0) = true) by simpa using hsz)]
    have hnum : 0 < size t := by omega
    have hallnn : ∀ x ∈ ((entries t).map fun e => (d q e.1, e.2)),
        x.1.isNan = false := by
      intro x hx
      simp only [List.mem_map] at hx
      obtain ⟨e, he, rfl⟩ := hx
      exact Fp.not_nan_right_of_fle (Hnn q e.1)
    have hallLen : ((entries t).map fun e => (d q e.1, e.2)).length ≤ size t := by
      rw [List.length_map]
      omega
    have hpi0 : PendInv Dd d q [(Fp.zero, t)] := by
      intro x hx
      have hxe : x = (Fp.zero, t) := by simpa using hx
      subst hxe
      refine ⟨⟨fw, hw⟩, rfl, ?_⟩
      intro e he
      rw [Fp.neg_zero_eq]
      exact Hnn q e.1
    have hfuel : pendingCount [(Fp.zero, t)] < nodeCount t + 1 := by
      rw [pendingCount_cons]
      dsimp only
      simp only [pendingCount, List.map_nil, List.sum_nil]
      omega
    have hperm0 : ((entries t).map fun e => (d q e.1, e.2)).Perm
        (pendEntries d q [(Fp.zero, t)] ++ [] ++ []) := by
      rw [pendEntries_cons, pendEntries_nil]
      simp only [List.append_nil]
      exact List.Perm.refl _
    obtain ⟨ev2, rest2, hloop, hpermF, hevF, hrestF⟩ :=
      within_loop_spec Hnn Hcons hql hnum r
        ((entries t).map fun e => (d q e.1, e.2)) hallnn hallLen
        (nodeCount t + 1) [(Fp.zero, t)] [] [] hpi0 hfuel hperm0
        (fun a ha => by simp at ha) (fun b hb => by simp at hb)
    rw [hloop]
    dsimp only
    refine ⟨intoSortedVec ev2, rfl, ?_, ?_⟩
    · refine (intoSortedVec_perm ev2).trans ?_
      exact (perm_filter_of_split _ hpermF hevF hrestF).symm
    · refine pairwise_fle_of_heLE ?_ (intoSortedVec_pairwise ev2)
      intro x hx
      have hx2 : x ∈ ev2 := (intoSortedVec_perm ev2).mem_iff.mp hx
      exact hallnn x (hpermF.symm.mem_iff.mp (by simp [hx2]))

/-- Witness for C4: a radius-0 `within` query on the concrete one-entry tree,
under the constant-zero distance function. -/
theorem claim_C4_witness :
    ∃ res, within c2tree [Fp.zero, Fp.zero] Fp.zero (fun _ _ => Fp.zero) =
        some (Except.ok res) ∧
      res.Perm (((entries c2tree).map fun e => (Fp.zero, e.2)).filter
        fun x => Fp.fle x.1 Fp.zero) ∧
      res.Pairwise fun a b => Fp.fle a.1 b.1 = true :=
  @claim_C4 Nat 2 1 c2tree [Fp.zero, Fp.zero] Fp.zero (fun _ _ => Fp.zero)
    (by decide) (by decide) (by decide)
    (fun _ _ => by show Fp.fle Fp.zero Fp.zero = true; decide)
    (fun _ _ _ _ => by show Fp.fle Fp.zero Fp.zero = true; decide)

/-- **C1.**  On a well-formed tree, for an all-finite query point of the
tree's dimension, any `k`, and any distance function consistent with the box
lower-bound pruning formula, `nearest` returns `Ok` of a list sorted
ascending by distance, of length `min k size`, that is an exact top-k of the
stored entries: the brute-force multiset splits into the result and a
remainder that the result dominates, and the result's distance sequence
equals the first `min k size` distances of the brute-force sort of all
entries. -/
theorem claim_C1 {T : Type} {Dd fw : Nat} {t : KdTree T} {q : Point} {k : Nat}
    {d : Point → Point → Fp}
    (hw : isWFF Dd fw t = true) (hqf : finitePt q = true) (hql : q.length = Dd)
    (Hnn : ∀ a b, Fp.fle Fp.zero (d a b) = true)
    (Hcons : ∀ minb maxb x, inBounds minb maxb x = true →
      Fp.fle (d q (clampPoint q minb maxb)) (d q x) = true) :
    ∃ res rest, nearest t q k d = some (Except.ok res) ∧
      res.length = min k (size t) ∧
      res.Pairwise (fun a b => Fp.fle a.1 b.1 = true) ∧
      ((entries t).map fun e => (d q e.1, e.2)).Perm (res ++ rest) ∧
      (∀ a ∈ res, ∀ b ∈ rest, Fp.fle a.1 b.1 = true) ∧
      res.map Prod.fst =
        ((intoSortedVec ((entries t).map fun e => (d q e.1, e.2))).take
          (min k (size t))).map Prod.fst := by
  have hcp : check_point q = Except.ok () := by
    rw [check_point, if_pos (show List.all q Fp.isFinite = true from hqf)]
  have hentlen : (entries t).length = size t := (sizesOk_of_isWFF hw).2
  have hallnn : ∀ x ∈ ((entries t).map fun e => (d q e.1, e.2)),
      x.1.isNan = false := by
    intro x hx
    simp only [List.mem_map] at hx
    obtain ⟨e, he, rfl⟩ := hx
    exact Fp.not_nan_right_of_fle (Hnn q e.1)
  rw [nearest, hcp]
  dsimp only
  by_cases hz : min k (size t) = 0
  · rw [if_pos (show (min k t.size == 0) = true by simpa using hz)]
    refine ⟨[], (entries t).map fun e => (d q e.1, e.2), rfl, by simp [hz],
      List.Pairwise.nil, by simp, by simp, by simp [hz]⟩
  · rw [if_neg (show ¬ ((min k t.size == 0) = true) by simpa using hz)]
    have hnum : 0 < min k (size t) := by omega
    have hpi0 : PendInv Dd d q [(Fp.zero, t)] := by
      intro x hx
      have hxe : x = (Fp.zero, t) := by simpa using hx
      subst hxe
      refine ⟨⟨fw, hw⟩, rfl, ?_⟩
      intro e he
      rw [Fp.neg_zero_eq]
      exact Hnn q e.1
    have hfuel : pendingCount [(Fp.zero, t)] < nodeCount t + 1 := by
      rw [pendingCount_cons]
      dsimp only
      simp only [pendingCount, List.map_nil, List.sum_nil]
      omega
    have hperm0 : ((entries t).map fun e => (d q e.1, e.2)).Perm
        (pendEntries d q [(Fp.zero, t)] ++ [] ++ []) := by
      rw [pendEntries_cons, pendEntries_nil]
      simp only [List.append_nil]
      exact List.Perm.refl _
    obtain ⟨ev2, rest2, hloop, hpermF, htsF⟩ :=
      nearest_loop_spec Hnn Hcons hql hnum
        ((entries t).map fun e => (d q e.1, e.2)) hallnn
        (nodeCount t + 1) [(Fp.zero, t)] [] [] hpi0 hfuel hperm0
        ⟨by simp, by simp⟩
    rw [hloop]
    dsimp only
    obtain ⟨htsLen, htsDom⟩ := htsF
    have hlenAll := hpermF.length_eq
    simp only [List.length_append, List.length_map] at hlenAll
    have hev2len : ev2.length = min k (size t) := by
      omega
    have hsortLen : (intoSortedVec ev2).length = min k (size t) := by
      rw [(intoSortedVec_perm ev2).length_eq]
      exact hev2len
    have htake : (intoSortedVec ev2).take (min k (size t)) = intoSortedVec ev2 :=
      List.take_of_length_le (by omega)
    rw [htake]
    have hpermRes : ((entries t).map fun e => (d q e.1, e.2)).Perm
        (intoSortedVec ev2 ++ rest2) := by
      refine hpermF.trans ?_
      exact List.Perm.append_right rest2 (intoSortedVec_perm ev2).symm
    have hev2nn : ∀ x ∈ ev2, x.1.isNan = false := fun x hx =>
      hallnn x (hpermF.symm.mem_iff.mp (by simp [hx]))
    have hsortnn : ∀ x ∈ intoSortedVec ev2, x.1.isNan = false := fun x hx =>
      hev2nn x ((intoSortedVec_perm ev2).mem_iff.mp hx)
    have hsortPW : (intoSortedVec ev2).Pairwise fun a b => Fp.fle a.1 b.1 = true :=
      pairwise_fle_of_heLE hsortnn (intoSortedVec_pairwise ev2)
    have hdomRes : ∀ a ∈ intoSortedVec ev2, ∀ b ∈ rest2, Fp.fle a.1 b.1 = true :=
      fun a ha b hb => htsDom a ((intoSortedVec_perm ev2).mem_iff.mp ha) b hb
    refine ⟨intoSortedVec ev2, rest2, rfl, hsortLen, hsortPW, hpermRes, hdomRes, ?_⟩
    have hrestnn : ∀ x ∈ rest2, x.1.isNan = false := fun x hx =>
      hallnn x (hpermF.symm.mem_iff.mp (by simp [hx]))
    have hSRnn : ∀ x ∈ intoSortedVec rest2, x.1.isNan = false := fun x hx =>
      hrestnn x ((intoSortedVec_perm rest2).mem_iff.mp hx)
    have hSRPW : (intoSortedVec rest2).Pairwise fun a b => Fp.fle a.1 b.1 = true :=
      pairwise_fle_of_heLE hSRnn (intoSortedVec_pairwise rest2)
    have hbigPW : (intoSortedVec ev2 ++ intoSortedVec rest2).Pairwise
        fun a b => Fp.fle a.1 b.1 = true :=
      List.pairwise_append.mpr ⟨hsortPW, hSRPW, fun a ha b hb =>
        hdomRes a ha b ((intoSortedVec_perm rest2).mem_iff.mp hb)⟩
    have hallSortnn : ∀ x ∈ intoSortedVec ((entries t).map fun e => (d q e.1, e.2)),
        x.1.isNan = false := fun x hx =>
      hallnn x ((intoSortedVec_perm _).mem_iff.mp hx)
    have hallPW : (intoSortedVec ((entries t).map fun e => (d q e.1, e.2))).Pairwise
        fun a b => Fp.fle a.1 b.1 = true :=
      pairwise_fle_of_heLE hallSortnn (intoSortedVec_pairwise _)
    have hbigPerm : (intoSortedVec ((entries t).map fun e => (d q e.1, e.2))).Perm
        (intoSortedVec ev2 ++ intoSortedVec rest2) := by
      refine (intoSortedVec_perm _).trans (hpermRes.trans ?_)
      exact List.Perm.append_left _ (intoSortedVec_perm rest2).symm
    have hmapEq := map_fst_eq_of_perm_of_sorted hbigPerm hallPW hbigPW
    rw [List.map_take, hmapEq, List.map_append]
    have hlenA : ((intoSortedVec ev2).map Prod.fst).length = min k (size t) := by
      rw [List.length_map]
      exact hsortLen
    rw [← hlenA, List.take_left]

/-- Witness for C1: a 1-nearest query on the concrete one-entry tree under
the constant-zero distance function. -/
theorem claim_C1_witness :
    ∃ res rest, nearest c2tree [Fp.zero, Fp.zero] 1 (fun _ _ => Fp.zero) =
        some (Except.ok res) ∧
      res.length = min 1 (size c2tree) ∧
      res.Pairwise (fun a b => Fp.fle a.1 b.1 = true) ∧
      ((entries c2tree).map fun e => (Fp.zero, e.2)).Perm (res ++ rest) ∧
      (∀ a ∈ res, ∀ b ∈ rest, Fp.fle a.1 b.1 = true) ∧
      res.map Prod.fst =
        ((intoSortedVec ((entries c2tree).map fun e => (Fp.zero, e.2))).take
          (min 1 (size c2tree))).map Prod.fst :=
  @claim_C1 Nat 2 1 c2tree [Fp.zero, Fp.zero] 1 (fun _ _ => Fp.zero)
    (by decide) (by decide) (by decide)
    (fun _ _ => by show Fp.fle Fp.zero Fp.zero = true; decide)
    (fun _ _ _ _ => by show Fp.fle Fp.zero Fp.zero = true; decide)

/-- **C5 (counterexample to the order clause).**  Fully consuming the nearest
iterator yields the same multiset as a full `nearest` call, but not the same
list: on a leaf holding two entries at the same point (all distances tie),
the iterator yields value 1 before value 2 while `nearest` returns value 2
before value 1 — the two heaps break distance ties in different orders. -/
theorem claim_C5_counterexample :
    iter_nearest tieTree [Fp.zero] = Except.ok ⟨[(Fp.zero, tieTree)], []⟩ ∧
    iter_consume (fun _ _ => Fp.zero) [Fp.zero] (size tieTree + 1)
      ⟨[(Fp.zero, tieTree)], []⟩ = some [(Fp.zero, 1), (Fp.zero, 2)] ∧
    nearest tieTree [Fp.zero] (size tieTree) (fun _ _ => Fp.zero) =
      some (Except.ok [(Fp.zero, 2), (Fp.zero, 1)]) ∧
    ([(Fp.zero, 1), (Fp.zero, 2)] : List (Fp × Nat)).Perm
      [(Fp.zero, 2), (Fp.zero, 1)] ∧
    ([(Fp.zero, 1), (Fp.zero, 2)] : List (Fp × Nat)) ≠
      [(Fp.zero, 2), (Fp.zero, 1)] := by
  refine ⟨rfl, by decide, ?_, by decide, by decide⟩
  with_unfolding_all rfl

/-- **C5 (amended).**  On a well-formed tree, for an all-finite query point of
the tree's dimension and any consistent distance function, fully consuming
the iterator from `iter_nearest` yields the same multiset of
(distance, value) entries as one `nearest(point, size)` call, with both
sequences sorted non-decreasing by distance — hence identical distance
sequences; the value order within ties is the respective heap's and may
differ.  The sequence is finite: fuel `size + 1` drains the iterator. -/
theorem claim_C5_amended {T : Type} {Dd fw : Nat} {t : KdTree T} {q : Point}
    {d : Point → Point → Fp}
    (hw : isWFF Dd fw t = true) (hqf : finitePt q = true) (hql : q.length = Dd)
    (Hnn : ∀ a b, Fp.fle Fp.zero (d a b) = true)
    (Hcons : ∀ minb maxb x, inBounds minb maxb x = true →
      Fp.fle (d q (clampPoint q minb maxb)) (d q x) = true) :
    ∃ L res, iter_nearest t q = Except.ok ⟨[(Fp.zero, t)], []⟩ ∧
      iter_consume d q (size t + 1) ⟨[(Fp.zero, t)], []⟩ = some L ∧
      nearest t q (size t) d = some (Except.ok res) ∧
      L.Perm res ∧
      L.map Prod.fst = res.map Prod.fst ∧
      L.Pairwise (fun a b => Fp.fle a.1 b.1 = true) ∧
      res.Pairwise (fun a b => Fp.fle a.1 b.1 = true) := by
  have hcp : check_point q = Except.ok () := by
    rw [check_point, if_pos (show List.all q Fp.isFinite = true from hqf)]
  have hentlen : (entries t).length = size t := (sizesOk_of_isWFF hw).2
  have hiter : iter_nearest t q = Except.ok ⟨[(Fp.zero, t)], []⟩ := by
    rw [iter_nearest, hcp]
  have hpi0 : PendInv Dd d q [(Fp.zero, t)] := by
    intro x hx
    have hxe : x = (Fp.zero, t) := by simpa using hx
    subst hxe
    refine ⟨⟨fw, hw⟩, rfl, ?_⟩
    intro e he
    rw [Fp.neg_zero_eq]
    exact Hnn q e.1
  have hperm0 : ((entries t).map fun e => (d q e.1, e.2)).Perm
      (pendEntries d q [(Fp.zero, t)] ++
        ([] : List (Fp × T)).map fun x => (Fp.neg x.1, x.2)) := by
    rw [pendEntries_cons, pendEntries_nil]
    simp only [List.map_nil, List.append_nil]
    exact List.Perm.refl _
  obtain ⟨L, hcons, hpermL, hpwL⟩ :=
    iter_consume_spec Hnn Hcons hql (size t + 1) [(Fp.zero, t)] []
      ((entries t).map fun e => (d q e.1, e.2)) hpi0 hperm0 (by simp)
      (by rw [List.length_map]; omega)
  obtain ⟨res, hnear, hpermR, hpwR⟩ := nearest_all_spec hw hqf hql Hnn Hcons
  refine ⟨L, res, hiter, hcons, hnear, ?_, ?_, hpwL, hpwR⟩
  · exact hpermL.trans hpermR.symm
  · exact map_fst_eq_of_perm_of_sorted (hpermL.trans hpermR.symm) hpwL hpwR

/-- Witness for the amended C5: consuming the iterator on the concrete
one-entry tree under the constant-zero distance function. -/
theorem claim_C5_amended_witness :
    ∃ L res, iter_nearest c2tree [Fp.zero, Fp.zero] =
        Except.ok ⟨[(Fp.zero, c2tree)], []⟩ ∧
      iter_consume (fun _ _ => Fp.zero) [Fp.zero, Fp.zero] (size c2tree + 1)
        ⟨[(Fp.zero, c2tree)], []⟩ = some L ∧
      nearest c2tree [Fp.zero, Fp.zero] (size c2tree) (fun _ _ => Fp.zero) =
        some (Except.ok res) ∧
      L.Perm res ∧
      L.map Prod.fst = res.map Prod.fst ∧
      L.Pairwise (fun a b => Fp.fle a.1 b.1 = true) ∧
      res.Pairwise (fun a b => Fp.fle a.1 b.1 = true) :=
  @claim_C5_amended Nat 2 1 c2tree [Fp.zero, Fp.zero] (fun _ _ => Fp.zero)
    (by decide) (by decide) (by decide)
    (fun _ _ => by show Fp.fle Fp.zero Fp.zero = true; decide)
    (fun _ _ _ _ => by show Fp.fle Fp.zero Fp.zero = true; decide)

/-- **C10.**  Every reachable tree satisfies the leaf-xor-stem discipline at
every node (a leaf has points and bucket of equal length and no children or
split fields; a stem has both children and both split fields and no
points/bucket), and the operations preserve it: insertion of a finite
dimension-`D` point always succeeds and preserves it, `nearest` and `within`
always return `Ok` on finite dimension-`D` query points (for any distance
function — no internal unwrap of children, split fields or bucket lists can
fail), and any successful removal preserves it. -/
theorem claim_C10 {T : Type} [DecidableEq T] {Dd cap ins rem : Nat} {t : KdTree T}
    (hr : Reachable Dd cap t ins rem) :
    leafStemOk t = true ∧
    (∀ (p : Point) (v : T), finitePt p = true → p.length = Dd →
      ∃ t2, add t p v = some (Except.ok t2) ∧ leafStemOk t2 = true) ∧
    (∀ (q : Point) (k : Nat) (d : Point → Point → Fp),
      finitePt q = true → q.length = Dd →
      ∃ res, nearest t q k d = some (Except.ok res)) ∧
    (∀ (q : Point) (r : Fp) (d : Point → Point → Fp),
      finitePt q = true → q.length = Dd →
      ∃ res, within t q r d = some (Except.ok res)) ∧
    (∀ (p : Point) (v : T) (t2 : KdTree T) (n : Nat),
      remove t p v = some (Except.ok (t2, n)) → leafStemOk t2 = true) := by
  obtain ⟨hwf, hcapeq, hcappos, _⟩ := reachable_inv hr
  have hw : isWFF Dd (height t + 1) t = true := hwf
  refine ⟨leafStemOk_of_isWFF hw, ?_, ?_, ?_, ?_⟩
  · intro p v hpf hpl
    obtain ⟨t2, heq, hwf2, _⟩ := add_main hw (by omega) hpf hpl
    exact ⟨t2, heq, leafStemOk_of_isWFF
      (show isWFF Dd (height t2 + 1) t2 = true from hwf2)⟩
  · intro q k d hqf hql
    exact nearest_total k d hw hqf hql
  · intro q r d hqf hql
    exact within_total r d hw hqf hql
  · intro p v t2 n heq
    have hwf2 := (remove_main hw heq).1
    exact leafStemOk_of_isWFF (show isWFF Dd (height t2 + 1) t2 = true from hwf2)

/-- Witness for C10: the freshly constructed capacity-2 tree. -/
theorem claim_C10_witness :
    leafStemOk (with_capacity 2 2 : KdTree Nat) = true ∧
    (∀ (p : Point) (v : Nat), finitePt p = true → p.length = 2 →
      ∃ t2, add (with_capacity 2 2 : KdTree Nat) p v = some (Except.ok t2) ∧
        leafStemOk t2 = true) ∧
    (∀ (q : Point) (k : Nat) (d : Point → Point → Fp),
      finitePt q = true → q.length = 2 →
      ∃ res, nearest (with_capacity 2 2 : KdTree Nat) q k d =
        some (Except.ok res)) ∧
    (∀ (q : Point) (r : Fp) (d : Point → Point → Fp),
      finitePt q = true → q.length = 2 →
      ∃ res, within (with_capacity 2 2 : KdTree Nat) q r d =
        some (Except.ok res)) ∧
    (∀ (p : Point) (v : Nat) (t2 : KdTree Nat) (n : Nat),
      remove (with_capacity 2 2 : KdTree Nat) p v = some (Except.ok (t2, n)) →
      leafStemOk t2 = true) :=
  claim_C10 (Reachable.init (by decide))

end ClaimsSearch

end KD
